import Mathlib

/-! # Qashgo: the referral commission engine

A shallow embedding of `src/utils/referralSystem.js`, of the account activation of
`src/components/PaymentPage.jsx`, of the registration of `src/components/RegisterForm.jsx`, of
the video credits of `src/components/YoutubeVideosPage.jsx` and
`src/components/TikTokVideosPage.jsx`, and of the withdrawals of
`src/components/Withdrawal.jsx`.

Modelling conventions.

* Amounts are JavaScript numbers holding whole FCFA amounts; they are embedded
  as `Int` (exact below `2^53`, far above any balance the program produces).
* A nullable column is an `Option`; JavaScript truthiness is made explicit
  (`truthy` for strings, `orZero` for `x || 0`).
* The remote table store is explicit state: the `users` and `referrals`
  tables.  Every store call draws its fate from a fault schedule: the call
  behaves normally, resolves to `{ error }` without touching the tables, or
  throws.  The calls of the commission walk append themselves to a log, and the
  schedule is indexed by the length of the log; a call outside the walk drops
  the fate it used from the schedule (`World.consume`).
* `async`/`await` is sequential composition in the monad `StoreM`.
-/

namespace Qashgo

/-! ## Data model -/

/-- A row of the `users` table (the columns the program reads or writes). -/
structure User where
  id : Nat
  user_name : String
  email : String
  referral_code : Option String
  referred_by_code : Option String
  account_active : Bool
  balance : Option Int
  withdrawable_balance : Option Int
  youtube_balance : Option Int
  tiktok_balance : Option Int
  total_withdrawals : Option Int
deriving DecidableEq, Repr

/-- A row of the `referrals` table, as inserted by the commission walk. -/
structure Referral where
  referrer_id : Nat
  referred_id : Nat
  level : Int
  commission : Int
  paid : Bool
deriving DecidableEq, Repr

/-- The two tables of the remote store. -/
structure Store where
  users : List User
  referrals : List Referral
deriving DecidableEq, Repr

/-- The fate of one store call. -/
inductive Fault where
  | ok
  | error
  | throws
deriving DecidableEq, Repr

/-- What an awaited call does: it returns a value or throws. -/
inductive Outcome (α : Type) where
  | returned (a : α)
  | threw
deriving DecidableEq, Repr

/-- The `{ data, error }` object a `select(...).single()` resolves to. -/
structure SelectResult where
  data : Option User
  error : Bool
deriving DecidableEq, Repr

/-- A store call as recorded in the log: a select with what it resolved to, an insert or
an update with its fate. -/
inductive Call where
  | select (code : String) (result : Outcome SelectResult)
  | insert (row : Referral) (fate : Fault)
  | update (id : Nat) (balance : Int) (withdrawable_balance : Int) (fate : Fault)
deriving DecidableEq, Repr

/-- The store, the fault schedule and the log of the calls issued so far. -/
structure World where
  store : Store
  faults : Nat → Fault
  log : List Call

/-- Computations against the store: state passing with exceptions that keep the state. -/
def StoreM (α : Type) : Type := World → Outcome α × World

/-- Return a value without touching the store. -/
def StoreM.pure {α : Type} (a : α) : StoreM α := fun w => (Outcome.returned a, w)

/-- Sequential composition (`await`): a throw skips the continuation. -/
def StoreM.bind {α β : Type} (m : StoreM α) (f : α → StoreM β) : StoreM β := fun w =>
  match m w with
  | (Outcome.returned a, w1) => f a w1
  | (Outcome.threw, w1) => (Outcome.threw, w1)

instance : Monad StoreM where
  pure := StoreM.pure
  bind := StoreM.bind

/-! ## JavaScript coercions -/

/-- The value of `x || 0` for a nullable number: `null`, `undefined` and `0` give `0`. -/
def orZero (x : Option Int) : Int :=
  match x with
  | some n => if n = 0 then 0 else n
  | none => 0

/-- Truthiness of a nullable string: `null` and the empty string are falsy. -/
def truthy (s : Option String) : Bool :=
  match s with
  | some c => c != ""
  | none => false

/-! ## Store calls -/

/-- The fate of the next call. -/
def World.nextFault (w : World) : Fault := w.faults w.log.length

/-- Append a call to the log. -/
def World.record (w : World) (c : Call) : World :=
  { w with log := w.log ++ [c] }

/-- Modelled from the spec: the Ledger Store lookup `findUserByReferralCode(code) -> User |
not-found`, whose client module `@/lib/supabaseClient` is not among the sources.  The result of
`.eq('referral_code', code).single()` on a table: the row when exactly one row matches, an
error without data otherwise. -/
def single (users : List User) (code : String) : SelectResult :=
  match users.filter (fun u => u.referral_code = some code) with
  | [u] => { data := some u, error := false }
  | _ => { data := none, error := true }

/-- Modelled from the spec: the Ledger Store call behind
`supabase.from('users').select(...).eq('referral_code', code).single()` (the client module is
not among the sources).  It throws, resolves to `{ data: null, error }`, or resolves to the
result of the lookup on the current table. -/
def selectUserByCode (code : String) : StoreM SelectResult := fun w =>
  match w.nextFault with
  | Fault.throws => (Outcome.threw, w.record (Call.select code Outcome.threw))
  | Fault.error =>
    let r : SelectResult := { data := none, error := true }
    (Outcome.returned r, w.record (Call.select code (Outcome.returned r)))
  | Fault.ok =>
    let r := single w.store.users code
    (Outcome.returned r, w.record (Call.select code (Outcome.returned r)))

/-- Modelled from the spec: the Ledger Store call `insertReferral(...) -> Referral | error`
behind `supabase.from('referrals').insert(row)` (the client module is not among the sources).
It throws, resolves to `{ error }` leaving the table as it was, or appends the row; the caller
discards what it resolves to. -/
def insertReferral (row : Referral) : StoreM Unit := fun w =>
  match w.nextFault with
  | Fault.throws => (Outcome.threw, w.record (Call.insert row Fault.throws))
  | Fault.error => (Outcome.returned (), w.record (Call.insert row Fault.error))
  | Fault.ok =>
    (Outcome.returned (),
      { w with store := { w.store with referrals := w.store.referrals ++ [row] } }.record
        (Call.insert row Fault.ok))

/-- One row after `update({ balance, withdrawable_balance }).eq('id', id)`: the two columns
are overwritten when the row matches the filter. -/
def withBalances (id : Nat) (balance withdrawable : Int) (u : User) : User :=
  if u.id = id then
    { u with balance := some balance, withdrawable_balance := some withdrawable }
  else u

/-- The rows of `users` after `update({ balance, withdrawable_balance }).eq('id', id)`. -/
def setBalances (users : List User) (id : Nat) (balance withdrawable : Int) : List User :=
  users.map (withBalances id balance withdrawable)

/-- Modelled from the spec: the Ledger Store call `incrementUserBalances(...) -> User | error`
behind `supabase.from('users').update({ balance, withdrawable_balance }).eq('id', id)` (the
client module is not among the sources).  It throws, resolves to `{ error }` leaving the table
as it was, or overwrites the two columns of the rows with that id; the caller discards what it
resolves to. -/
def updateBalances (id : Nat) (balance withdrawable : Int) : StoreM Unit := fun w =>
  match w.nextFault with
  | Fault.throws => (Outcome.threw, w.record (Call.update id balance withdrawable Fault.throws))
  | Fault.error =>
    (Outcome.returned (), w.record (Call.update id balance withdrawable Fault.error))
  | Fault.ok =>
    (Outcome.returned (),
      { w with store :=
          { w.store with users := setBalances w.store.users id balance withdrawable } }.record
        (Call.update id balance withdrawable Fault.ok))

/-! ## The program -/

/-- The object literal `commissions` of `calculateCommissions`. -/
def commissions : List (Int × Int) := [(1, 1800), (2, 900), (3, 500)]

/-- The function `calculateCommissions(level, amount = 4000)`: `commissions[level] || 0`.
The second parameter is never read; callers that omit it pass the default `4000`. -/
def calculateCommissions (level : Int) (_amount : Int) : Int :=
  orZero (commissions.lookup level)

/-- The body of the `try` block of `processReferralCommissions`. -/
def processReferralCommissionsBody (referrerCode : String) (newUserId : Nat) : StoreM Unit := do
  let r1 ← selectUserByCode referrerCode
  match r1.data, r1.error with
  | some referrerL1, false =>
    let commissionL1 := calculateCommissions 1 4000
    insertReferral
      { referrer_id := referrerL1.id, referred_id := newUserId, level := 1,
        commission := commissionL1, paid := true }
    updateBalances referrerL1.id
      (orZero referrerL1.balance + commissionL1)
      (orZero referrerL1.withdrawable_balance + commissionL1)
    match referrerL1.referred_by_code with
    | some codeL2 =>
      if codeL2 != "" then
        let r2 ← selectUserByCode codeL2
        match r2.data, r2.error with
        | some referrerL2, false =>
          let commissionL2 := calculateCommissions 2 4000
          insertReferral
            { referrer_id := referrerL2.id, referred_id := newUserId, level := 2,
              commission := commissionL2, paid := true }
          updateBalances referrerL2.id
            (orZero referrerL2.balance + commissionL2)
            (orZero referrerL2.withdrawable_balance + commissionL2)
          match referrerL2.referred_by_code with
          | some codeL3 =>
            if codeL3 != "" then
              let r3 ← selectUserByCode codeL3
              match r3.data, r3.error with
              | some referrerL3, false =>
                let commissionL3 := calculateCommissions 3 4000
                insertReferral
                  { referrer_id := referrerL3.id, referred_id := newUserId, level := 3,
                    commission := commissionL3, paid := true }
                updateBalances referrerL3.id
                  (orZero referrerL3.balance + commissionL3)
                  (orZero referrerL3.withdrawable_balance + commissionL3)
              | _, _ => pure ()
            else pure ()
          | none => pure ()
        | _, _ => pure ()
      else pure ()
    | none => pure ()
  | _, _ => pure ()

/-- The function `processReferralCommissions(referrerCode, newUserId)`: the guard
`if (!referrerCode) return`, then the `try` block, whose `catch` only logs to the console. -/
def processReferralCommissions (referrerCode : Option String) (newUserId : Nat)
    (w : World) : World :=
  match referrerCode with
  | none => w
  | some code =>
    if code = "" then w
    else (processReferralCommissionsBody code newUserId w).2

/-! ## Observations on a run -/

/-- The calls issued between two worlds of one run, oldest first. -/
def callsOf (w w' : World) : List Call := w'.log.drop w.log.length

/-- The user a select resolved to: its `data` when it returned one without `error`. -/
def resolvedUser (o : Outcome SelectResult) : Option User :=
  match o with
  | Outcome.returned r => if r.error then none else r.data
  | Outcome.threw => none

/-- The lookups of a trace, in order, each with the user it resolved to. -/
def lookupsOf (tr : List Call) : List (Option User) :=
  tr.filterMap (fun c =>
    match c with
    | Call.select _ o => some (resolvedUser o)
    | _ => none)

/-- The rows the trace asked the store to insert, in order. -/
def insertsOf (tr : List Call) : List Referral :=
  tr.filterMap (fun c =>
    match c with
    | Call.insert row _ => some row
    | _ => none)

/-- The balance writes the trace asked for, in order: user id, `balance`,
`withdrawable_balance`. -/
def updatesOf (tr : List Call) : List (Nat × Int × Int) :=
  tr.filterMap (fun c =>
    match c with
    | Call.update id b wb _ => some (id, b, wb)
    | _ => none)

/-- No insert of the trace resolved to `{ error }`. -/
def noInsertError (tr : List Call) : Bool :=
  tr.all (fun c =>
    match c with
    | Call.insert _ Fault.error => false
    | _ => true)

/-- The effect of one logged call on the tables. -/
def applyCall (s : Store) (c : Call) : Store :=
  match c with
  | Call.insert row Fault.ok => { s with referrals := s.referrals ++ [row] }
  | Call.update id b wb Fault.ok => { s with users := setBalances s.users id b wb }
  | _ => s

/-- The tables after a sequence of logged calls. -/
def replay (s : Store) (tr : List Call) : Store := tr.foldl applyCall s

/-- The Referral row written for `referrer` at `level`. -/
def rowFor (level : Int) (referrer : User) (newUserId : Nat) : Referral :=
  { referrer_id := referrer.id, referred_id := newUserId, level := level,
    commission := calculateCommissions level 4000, paid := true }

/-- The chain walk as a loop over the levels still to pay: `processReferralCommissionsBody`
is `walk newUserId 3 1`. -/
def walk (newUserId : Nat) : Nat → Int → String → StoreM Unit
  | 0, _, _ => pure ()
  | k + 1, level, code => do
    let r ← selectUserByCode code
    match r.data, r.error with
    | some referrer, false =>
      let commission := calculateCommissions level 4000
      insertReferral
        { referrer_id := referrer.id, referred_id := newUserId, level := level,
          commission := commission, paid := true }
      updateBalances referrer.id
        (orZero referrer.balance + commission)
        (orZero referrer.withdrawable_balance + commission)
      match referrer.referred_by_code with
      | some next => if next != "" then walk newUserId k (level + 1) next else pure ()
      | none => pure ()
    | _, _ => pure ()

/-- The shapes of the trace of a walk with `k` levels left that starts at `level` by
looking up `code`. -/
def WalkTrace (newUserId : Nat) : Nat → Int → String → List Call → Prop
  | 0, _, _, tr => tr = []
  | k + 1, level, code, tr =>
    (∃ o, resolvedUser o = none ∧ tr = [Call.select code o]) ∨
    (∃ R, tr = [Call.select code (Outcome.returned { data := some R, error := false }),
        Call.insert (rowFor level R newUserId) Fault.throws]) ∨
    (∃ R f, f ≠ Fault.throws ∧
      tr = [Call.select code (Outcome.returned { data := some R, error := false }),
        Call.insert (rowFor level R newUserId) f,
        Call.update R.id (orZero R.balance + calculateCommissions level 4000)
          (orZero R.withdrawable_balance + calculateCommissions level 4000) Fault.throws]) ∨
    (∃ R f g rest, f ≠ Fault.throws ∧ g ≠ Fault.throws ∧
      tr = Call.select code (Outcome.returned { data := some R, error := false }) ::
        Call.insert (rowFor level R newUserId) f ::
        Call.update R.id (orZero R.balance + calculateCommissions level 4000)
          (orZero R.withdrawable_balance + calculateCommissions level 4000) g :: rest ∧
      ((truthy R.referred_by_code = false ∧ rest = []) ∨
        ∃ next, R.referred_by_code = some next ∧ next ≠ "" ∧
          WalkTrace newUserId k (level + 1) next rest))

/-- The world after a run that issued the calls `tr`. -/
def World.after (w : World) (tr : List Call) : World :=
  { store := replay w.store tr, faults := w.faults, log := w.log ++ tr }

/-- The rows the trace appended to `referrals`: those whose insert succeeded. -/
def insertedOf (tr : List Call) : List Referral :=
  tr.filterMap (fun c =>
    match c with
    | Call.insert row Fault.ok => some row
    | _ => none)

/-- No call of the trace threw. -/
def noThrow (tr : List Call) : Bool :=
  tr.all (fun c =>
    match c with
    | Call.select _ Outcome.threw => false
    | Call.insert _ Fault.throws => false
    | Call.update _ _ _ Fault.throws => false
    | _ => true)

/-- The levels `level`, `level + 1`, ... of a walk with `k` levels left. -/
def levelsFrom (level : Int) : Nat → List Int
  | 0 => []
  | k + 1 => level :: levelsFrom (level + 1) k

/-- The balance write made for `referrer` at `level`: id, `balance`, `withdrawable_balance`. -/
def writeFor (level : Int) (referrer : User) : Nat × Int × Int :=
  (referrer.id, orZero referrer.balance + calculateCommissions level 4000,
    orZero referrer.withdrawable_balance + calculateCommissions level 4000)

/-- Following the words of the specification: the number of users reached by following
`referred_by_code` upward from the holder of `code`, until a user without a `referred_by_code`
or a code that does not resolve is met; at most `fuel` users are counted, so that the count is
defined on a cyclic chain too. -/
def chainDepth (users : List User) : Nat → Option String → Nat
  | 0, _ => 0
  | fuel + 1, code =>
    match code with
    | none => 0
    | some c =>
      if c = "" then 0
      else
        match (single users c).data with
        | some u => chainDepth users fuel u.referred_by_code + 1
        | none => 0

/-- The user resolved at `level` (1, 2, 3) in a trace: the one its `level`-th lookup
returned, if it returned one. -/
def resolvedAt (tr : List Call) (level : Nat) : Option User :=
  match level with
  | 0 => none
  | j + 1 => ((lookupsOf tr)[j]?).join

/-- The row `u` with `amount` added to `balance` and to `withdrawable_balance`, a null
column being read as 0. -/
def credit (u : User) (amount : Int) : User :=
  { u with
    balance := some (orZero u.balance + amount),
    withdrawable_balance := some (orZero u.withdrawable_balance + amount) }

/-! ## A sample store

Four users in a chain: `A` was referred by `B`, `B` by `C`, `C` by `D`, and `D` by nobody. -/

/-- A registered user with the given id, code, referrer code and balances. -/
def sampleUser (id : Nat) (code : String) (referredBy : Option String) (balance : Option Int) :
    User :=
  { id := id, user_name := code, email := code ++ "@example.org", referral_code := some code,
    referred_by_code := referredBy, account_active := true, balance := balance,
    withdrawable_balance := balance, youtube_balance := some 0, tiktok_balance := some 0,
    total_withdrawals := some 0 }

/-- User `A`, referred by `B`. -/
def userA : User := sampleUser 1 "A" (some "B") (some 10)

/-- User `B`, referred by `C`, with null balances. -/
def userB : User := sampleUser 2 "B" (some "C") none

/-- User `C`, referred by `D`. -/
def userC : User := sampleUser 3 "C" (some "D") (some 0)

/-- User `D`, referred by nobody. -/
def userD : User := sampleUser 4 "D" none (some 7)

/-- The sample tables: the four users and an empty ledger. -/
def sampleStore : Store := { users := [userA, userB, userC, userD], referrals := [] }

/-- The sample store with every call succeeding. -/
def sampleWorld : World := { store := sampleStore, faults := fun _ => Fault.ok, log := [] }

/-- The sample store where the call number `n` (from 0) resolves to `{ error }`. -/
def errorAt (n : Nat) : World :=
  { store := sampleStore, faults := fun i => if i = n then Fault.error else Fault.ok, log := [] }

/-- The statement `try { body } catch (error) { handler }`: the handler runs, in the world the
body had reached, when the body throws. -/
def StoreM.tryCatch {α : Type} (body : StoreM α) (handler : StoreM α) : StoreM α := fun w =>
  match body w with
  | (Outcome.returned a, w1) => (Outcome.returned a, w1)
  | (Outcome.threw, w1) => handler w1

/-- The function `processReferralCommissions(referrerCode, newUserId)` as its caller awaits
it: the guard, then the `try` block, whose `catch` only writes to the console.  Its final world
is `processReferralCommissions`. -/
def processReferralCommissionsAsync (referrerCode : Option String) (newUserId : Nat) :
    StoreM Unit :=
  match referrerCode with
  | none => pure ()
  | some code =>
    if code = "" then pure ()
    else StoreM.tryCatch (processReferralCommissionsBody code newUserId) (pure ())

/-- The row `u` credited with `amount` when its id is `id`, left as it is otherwise. -/
def creditId (id : Nat) (amount : Int) (u : User) : User :=
  if u.id = id then credit u amount else u

/-- The `users` table after a list of payments `(id, amount)`, each credited in turn to the
rows with that id. -/
def payAll (users : List User) (pays : List (Nat × Int)) : List User :=
  pays.foldl (fun us p => us.map (creditId p.1 p.2)) users

/-- One row after a list of payments `(id, amount)`. -/
def payUser (pays : List (Nat × Int)) (u : User) : User :=
  pays.foldl (fun v p => creditId p.1 p.2 v) u

/-- The total paid to `id` by a list of payments `(id, amount)`. -/
def payTotal (pays : List (Nat × Int)) (id : Nat) : Int :=
  (pays.map (fun p => if id = p.1 then p.2 else 0)).sum

/-- The ids of the users reached by following `referred_by_code` upward from the holder of
`code`, nearest first, at most `fuel` of them. -/
def chainIds (users : List User) : Nat → Option String → List Nat
  | 0, _ => []
  | fuel + 1, code =>
    match code with
    | none => []
    | some c =>
      if c = "" then []
      else
        match (single users c).data with
        | some u => u.id :: chainIds users fuel u.referred_by_code
        | none => []

/-- The payments of a walk that starts at `level` and resolves the users `ids` in turn. -/
def paysFrom (level : Int) : List Nat → List (Nat × Int)
  | [] => []
  | id :: ids => (id, calculateCommissions level 4000) :: paysFrom (level + 1) ids

/-- The rows of a walk that starts at `level` and resolves the users `ids` in turn. -/
def rowsFrom (level : Int) (newUserId : Nat) : List Nat → List Referral
  | [] => []
  | id :: ids =>
    { referrer_id := id, referred_id := newUserId, level := level,
      commission := calculateCommissions level 4000, paid := true } ::
      rowsFrom (level + 1) newUserId ids

/-! ## Calls outside the commission walk -/

/-- The world after a store call that is not part of the commission walk: the log keeps the
calls of the walk only, so the fate just used is dropped from the schedule and the calls to
come draw the fates that follow it. -/
def World.consume (w : World) : World :=
  { w with faults := fun n => w.faults (n + 1) }

/-- The statement `throw error`. -/
def StoreM.throw {α : Type} : StoreM α := fun w => (Outcome.threw, w)

/-! ## Bonus eligibility -/

/-- A row of `referrals` as the bonus query returns it: the row (`*`) and the embedded
`referred_user`, null when no user row is joined. -/
structure JoinedReferral where
  row : Referral
  referred_user : Option User
deriving DecidableEq, Repr

/-- An element of the list built by `getUserReferrals`: `{ ...r, referredUser:
r.referred_user }`. -/
structure UserReferral where
  row : Referral
  referred_user : Option User
  referredUser : Option User
deriving DecidableEq, Repr

/-- The `{ data, error }` object the bonus query resolves to. -/
structure ReferralsResult where
  data : Option (List JoinedReferral)
  error : Bool
deriving DecidableEq, Repr

/-- The object returned by `calculateBonusEligibility`. -/
structure BonusEligibility where
  currentReferrals : Int
  bonusEligible : Bool
  bonusAmount : Int
  remainingReferrals : Int
  targetReferrals : Int
deriving DecidableEq, Repr

/-- Modelled from the spec: the rows of `listReferralsWithReferredUserStatus(referrerId)`,
whose client module `@/lib/supabaseClient` is not among the sources: the rows of `referrals`
with that `referrer_id`, each with the user row its `referred_id` points to. -/
def joinedReferrals (s : Store) (userId : Nat) : List JoinedReferral :=
  (s.referrals.filter (fun r => r.referrer_id = userId)).map (fun r =>
    { row := r, referred_user := s.users.find? (fun u => u.id = r.referred_id) })

/-- Modelled from the spec: the Ledger Store call
`listReferralsWithReferredUserStatus(referrerId)` behind
`supabase.from('referrals').select(...).eq('referrer_id', userId)` (the client module is not
among the sources).  It throws, resolves to `{ data: null, error }`, or resolves to the joined
rows. -/
def selectReferralsOf (userId : Nat) : StoreM ReferralsResult := fun w =>
  match w.nextFault with
  | Fault.throws => (Outcome.threw, w.consume)
  | Fault.error => (Outcome.returned { data := none, error := true }, w.consume)
  | Fault.ok =>
    (Outcome.returned { data := some (joinedReferrals w.store userId), error := false },
      w.consume)

/-- The function `getUserReferrals(userId)`: the query, `if (error) throw error`, then
`referrals.map(...)` (which throws on a null `referrals`); the `catch` returns `[]`. -/
def getUserReferrals (userId : Nat) : StoreM (List UserReferral) :=
  StoreM.tryCatch
    (do
      let r ← selectReferralsOf userId
      if r.error then StoreM.throw
      else
        match r.data with
        | some referrals =>
          pure (referrals.map (fun r =>
            { row := r.row, referred_user := r.referred_user, referredUser := r.referred_user }))
        | none => StoreM.throw)
    (pure [])

/-- The value of `r.referredUser?.account_active` as a condition. -/
def referredUserActive (referredUser : Option User) : Bool :=
  match referredUser with
  | some u => u.account_active
  | none => false

/-- The constant `WELCOME_BONUS_REFERRAL_TARGET`. -/
def WELCOME_BONUS_REFERRAL_TARGET : Int := 15

/-- The function `calculateBonusEligibility(userId)`. -/
def calculateBonusEligibility (userId : Nat) : StoreM BonusEligibility :=
  StoreM.tryCatch
    (do
      let userReferrals ← getUserReferrals userId
      let directActiveReferrals :=
        userReferrals.filter (fun r => r.row.level = 1 && referredUserActive r.referredUser)
      pure
        { currentReferrals := directActiveReferrals.length,
          bonusEligible :=
            decide ((directActiveReferrals.length : Int) ≥ WELCOME_BONUS_REFERRAL_TARGET),
          bonusAmount := 700,
          remainingReferrals :=
            max 0 (WELCOME_BONUS_REFERRAL_TARGET - directActiveReferrals.length),
          targetReferrals := WELCOME_BONUS_REFERRAL_TARGET })
    (pure
      { currentReferrals := 0,
        bonusEligible := false,
        bonusAmount := 700,
        remainingReferrals := WELCOME_BONUS_REFERRAL_TARGET,
        targetReferrals := WELCOME_BONUS_REFERRAL_TARGET })

/-- A store where user 1 has `n` level-1 referrals of the active user 2, one level-1 referral
of the inactive user 3, one level-2 referral of user 2 and one level-1 referral of a user that
is not in the table. -/
def bonusStore (n : Nat) : Store :=
  { users :=
      [sampleUser 1 "A" none (some 0), sampleUser 2 "B" (some "A") (some 0),
        { sampleUser 3 "C" (some "A") (some 0) with account_active := false }],
    referrals :=
      List.replicate n
        { referrer_id := 1, referred_id := 2, level := 1, commission := 1800, paid := true } ++
      [{ referrer_id := 1, referred_id := 3, level := 1, commission := 1800, paid := true },
       { referrer_id := 1, referred_id := 2, level := 2, commission := 900, paid := true },
       { referrer_id := 1, referred_id := 7, level := 1, commission := 1800, paid := true }] }

/-- The store `bonusStore n` with every call succeeding. -/
def bonusWorld (n : Nat) : World :=
  { store := bonusStore n, faults := fun _ => Fault.ok, log := [] }

/-- The rows seen by `calculateBonusEligibility`: those of the query when it succeeds, none
when it fails. -/
def fetchedReferrals (w : World) (userId : Nat) : List JoinedReferral :=
  match w.nextFault with
  | Fault.ok => joinedReferrals w.store userId
  | _ => []

/-- The number of qualifying rows of a list: level 1 and a joined user whose `account_active`
is true. -/
def qualifyingCount (rows : List JoinedReferral) : Nat :=
  rows.countP (fun r =>
    decide (r.row.level = 1 ∧ r.referred_user.map (fun u => u.account_active) = some true))

/-- The object reported for `n` qualifying referrals. -/
def eligibilityOf (n : Nat) : BonusEligibility :=
  { currentReferrals := n,
    bonusEligible := decide ((n : Int) ≥ 15),
    bonusAmount := 700,
    remainingReferrals := max 0 (15 - (n : Int)),
    targetReferrals := 15 }

/-! ## Account activation (`PaymentPage.jsx`) -/

/-- What `simulateAccountActivation` does to the page: the calls it makes to its collaborators
`setLoading`, `authLogin`, `toast` and `onPaymentComplete`, which are taken not to throw. -/
inductive UiEvent where
  | setLoading (loading : Bool)
  | authLogin (user : User)
  | toastPaymentSuccess
  | toastPaymentError
  | onPaymentComplete (user : User)
deriving DecidableEq, Repr

/-- One row after `update({ account_active: true, ... }).eq('id', id)`; the columns
`activated_at` and `payment_method` are not part of the embedded row. -/
def withActive (id : Nat) (u : User) : User :=
  if u.id = id then { u with account_active := true } else u

/-- Modelled from the spec: the Ledger Store's row-level update with an equality filter,
behind `supabase.from('users').update({ account_active: true, ... }).eq('id',
id).select().single()` (the client module `@/lib/supabaseClient` is not among the sources).
It throws, resolves to `{ data: null, error }`, or, when exactly one row has that id, updates
it and resolves to it; with no such row or several, `.single()` resolves to an error and
nothing is changed. -/
def activateUser (id : Nat) : StoreM SelectResult := fun w =>
  match w.nextFault with
  | Fault.throws => (Outcome.threw, w.consume)
  | Fault.error => (Outcome.returned { data := none, error := true }, w.consume)
  | Fault.ok =>
    match w.store.users.filter (fun u => u.id = id) with
    | [u] =>
      (Outcome.returned { data := some (withActive id u), error := false },
        { w.consume with
          store := { w.store with users := w.store.users.map (withActive id) } })
    | _ => (Outcome.returned { data := none, error := true }, w.consume)

/-- The `try` block of `simulateAccountActivation`, up to the calls to the collaborators: the
update, `if (error) throw error`, and the awaited commission walk when the updated user has a
`referred_by_code`; it returns `updatedUser`. -/
def simulateAccountActivationBody (user : User) : StoreM User := do
  let r ← activateUser user.id
  if r.error then StoreM.throw
  else
    match r.data with
    | none => StoreM.throw
    | some updatedUser =>
      if truthy updatedUser.referred_by_code then
        processReferralCommissionsAsync updatedUser.referred_by_code updatedUser.id
        pure updatedUser
      else pure updatedUser

/-- The function `simulateAccountActivation()` of the payment page for the user `user`:
`setLoading(true)`, the `try` block followed by `authLogin`, the success toast and
`onPaymentComplete`, the `catch` with the error toast, and `setLoading(false)` in `finally`. -/
def simulateAccountActivation (user : User) (w : World) : List UiEvent × World :=
  match simulateAccountActivationBody user w with
  | (Outcome.returned updatedUser, w1) =>
    ([UiEvent.setLoading true, UiEvent.authLogin updatedUser, UiEvent.toastPaymentSuccess,
      UiEvent.onPaymentComplete updatedUser, UiEvent.setLoading false], w1)
  | (Outcome.threw, w1) =>
    ([UiEvent.setLoading true, UiEvent.toastPaymentError, UiEvent.setLoading false], w1)

/-- The sample store where the first call succeeds and every later call resolves to an
error. -/
def errorAfterFirst : World :=
  { store := sampleStore, faults := fun i => if i = 0 then Fault.ok else Fault.error,
    log := [] }

/-- The sample store where the first call succeeds and every later call throws. -/
def throwAfterFirst : World :=
  { store := sampleStore, faults := fun i => if i = 0 then Fault.ok else Fault.throws,
    log := [] }

/-! ## Registration (`RegisterForm.jsx`) -/

/-- The function `generateReferralCode(username)`, which `handleSubmit` repeats inline:
`username.toUpperCase().replace(/\s+/g, '')`.  Upper-casing and the class `\s` are those of
ASCII text (letters `a` to `z`; space, tab, carriage return, line feed). -/
def generateReferralCode (username : String) : String :=
  String.mk ((username.data.map Char.toUpper).filter (fun c => !c.isWhitespace))

/-- The state `formData` of the registration form. -/
structure RegistrationForm where
  username : String
  name : String
  country : String
  phone : String
  email : String
  password : String
  confirmPassword : String
  referralCode : String
deriving DecidableEq, Repr

/-- A character of the class `[^\s@]`. -/
def emailChar (c : Char) : Bool := !c.isWhitespace && c != '@'

/-- The test `/^[^\s@]+@[^\s@]+\.[^\s@]+$/.test(email)`: a non-empty local part, one `@`, and
a domain with a dot that is neither its first nor its last character, no space anywhere. -/
def emailRegexTest (email : String) : Bool :=
  match email.data.span (fun c => c != '@') with
  | (localPart, '@' :: domain) =>
    !localPart.isEmpty && localPart.all emailChar && domain.all emailChar &&
      ((domain.drop 1).dropLast).contains '.'
  | _ => false

/-- The function `validateForm()` for the form state and the selected dial code. -/
def validateForm (formData : RegistrationForm) (selectedCountryDialCode : String) : Bool :=
  if formData.username = "" || formData.name = "" || formData.country = "" ||
      formData.phone = "" || formData.email = "" || formData.password = "" then false
  else if formData.password ≠ formData.confirmPassword then false
  else if formData.password.length < 6 then false
  else if !emailRegexTest formData.email then false
  else if !(selectedCountryDialCode.data.isPrefixOf formData.phone.data) ||
      formData.phone.length ≤ selectedCountryDialCode.length then false
  else true

/-- The `{ data, error }` object of the existing-user query; `errorCode` is the code of the
error, `PGRST116` being the one of a `.maybeSingle()` that matched several rows. -/
structure ExistingUserResult where
  data : Option Nat
  errorCode : Option String
deriving DecidableEq, Repr

/-- Modelled from the spec: the Ledger Store read with equality filters, behind
`supabase.from('users').select('id').or('email.eq.E,user_name.eq.U').maybeSingle()` (the
client module `@/lib/supabaseClient` is not among the sources), for values `E` and `U` free of
filter syntax.  It throws, resolves to an error, or looks the rows up: none gives `data: null`,
one gives its id, several give the error `PGRST116`. -/
def selectExistingUser (email username : String) : StoreM ExistingUserResult := fun w =>
  match w.nextFault with
  | Fault.throws => (Outcome.threw, w.consume)
  | Fault.error => (Outcome.returned { data := none, errorCode := some "500" }, w.consume)
  | Fault.ok =>
    match w.store.users.filter (fun u => u.email = email || u.user_name = username) with
    | [] => (Outcome.returned { data := none, errorCode := none }, w.consume)
    | [u] => (Outcome.returned { data := some u.id, errorCode := none }, w.consume)
    | _ => (Outcome.returned { data := none, errorCode := some "PGRST116" }, w.consume)

/-- An id no row of the table has: the one the store gives to the next inserted user. -/
def freshId (users : List User) : Nat := (users.map (fun u => u.id)).foldl max 0 + 1

/-- The row built from `newUserPayload` once the store has given it the id `id`. -/
def newUserRow (id : Nat) (formData : RegistrationForm) : User :=
  { id := id,
    user_name := formData.username,
    email := formData.email,
    referral_code := some (generateReferralCode formData.username),
    referred_by_code := if formData.referralCode = "" then none else some formData.referralCode,
    account_active := false,
    balance := some 0,
    withdrawable_balance := some 0,
    youtube_balance := some 0,
    tiktok_balance := some 0,
    total_withdrawals := some 0 }

/-- Modelled from the spec: the Ledger Store row insert behind
`supabase.from('users').insert(newUserPayload).select().single()` (the client module is not
among the sources; no uniqueness constraint of the table is known from them, and none is
modelled).  It throws, resolves to `{ data: null, error }`, or appends the row under a fresh
id and resolves to it. -/
def insertUser (formData : RegistrationForm) : StoreM SelectResult := fun w =>
  match w.nextFault with
  | Fault.throws => (Outcome.threw, w.consume)
  | Fault.error => (Outcome.returned { data := none, error := true }, w.consume)
  | Fault.ok =>
    let created := newUserRow (freshId w.store.users) formData
    (Outcome.returned { data := some created, error := false },
      { w.consume with store := { w.store with users := w.store.users ++ [created] } })

/-- The function `handleSubmit` of the registration form, after `validateForm()`: the
existing-user check, then the insert of the new row.  It returns the created user, or null
when the email or the username is taken; a store error is thrown to the `catch`. -/
def handleSubmitBody (formData : RegistrationForm) : StoreM (Option User) := do
  let existing ← selectExistingUser formData.email formData.username
  match existing.errorCode with
  | some code =>
    if code ≠ "PGRST116" then StoreM.throw
    else
      match existing.data with
      | some _ => pure none
      | none => do
        let created ← insertUser formData
        if created.error then StoreM.throw else pure created.data
  | none =>
    match existing.data with
    | some _ => pure none
    | none => do
      let created ← insertUser formData
      if created.error then StoreM.throw else pure created.data

/-- The function `handleSubmit(e)`: nothing happens when `validateForm()` fails; otherwise
the `try` block runs and its `catch` shows the error.  The result is the user passed to
`onRegister`, if any. -/
def handleSubmit (formData : RegistrationForm) (selectedCountryDialCode : String)
    (w : World) : Option User × World :=
  if validateForm formData selectedCountryDialCode then
    match handleSubmitBody formData w with
    | (Outcome.returned created, w1) => (created, w1)
    | (Outcome.threw, w1) => (none, w1)
  else (none, w)

/-- The registration form of a user `alice` in Cameroon. -/
def aliceForm : RegistrationForm :=
  { username := "alice", name := "Alice A", country := "CM", phone := "+237600000001",
    email := "alice@example.org", password := "secret1", confirmPassword := "secret1",
    referralCode := "" }

/-- The registration form of another user, `Alice`, with another email. -/
def aliceCapitalForm : RegistrationForm :=
  { username := "Alice", name := "Alice B", country := "CM", phone := "+237600000002",
    email := "alice.b@example.org", password := "secret2", confirmPassword := "secret2",
    referralCode := "" }

/-- An empty store with every call succeeding. -/
def emptyWorld : World :=
  { store := { users := [], referrals := [] }, faults := fun _ => Fault.ok, log := [] }

/-! ## Balance updates of one user row (`YoutubeVideosPage.jsx`, `TikTokVideosPage.jsx`,
`Withdrawal.jsx`) -/

/-- The object passed to `update(...)` by the video pages and the withdrawal form: a column is
written when the object has the key. -/
structure UserUpdates where
  balance : Option Int
  withdrawable_balance : Option Int
  youtube_balance : Option Int
  tiktok_balance : Option Int
  total_withdrawals : Option Int
deriving DecidableEq, Repr

/-- A column after an update: the new value when the object has the key, the old one
otherwise. -/
def written (new old : Option Int) : Option Int :=
  match new with
  | some v => some v
  | none => old

/-- One row after `update(updates)`. -/
def applyUpdates (updates : UserUpdates) (u : User) : User :=
  { u with
    balance := written updates.balance u.balance,
    withdrawable_balance := written updates.withdrawable_balance u.withdrawable_balance,
    youtube_balance := written updates.youtube_balance u.youtube_balance,
    tiktok_balance := written updates.tiktok_balance u.tiktok_balance,
    total_withdrawals := written updates.total_withdrawals u.total_withdrawals }

/-- Modelled from the spec: the Ledger Store's row-level update with an equality filter,
behind `supabase.from('users').update(updates).eq('id', id).select().single()` (the client
module `@/lib/supabaseClient` is not among the sources).  It throws, resolves to `{ data: null,
error }`, or, when exactly one row has that id, updates it and resolves to it; with no such row
or several, `.single()` resolves to an error and nothing is changed. -/
def updateUserRow (id : Nat) (updates : UserUpdates) : StoreM SelectResult := fun w =>
  match w.nextFault with
  | Fault.throws => (Outcome.threw, w.consume)
  | Fault.error => (Outcome.returned { data := none, error := true }, w.consume)
  | Fault.ok =>
    match w.store.users.filter (fun u => u.id = id) with
    | [u] =>
      (Outcome.returned { data := some (applyUpdates updates u), error := false },
        { w.consume with
          store :=
            { w.store with
              users := w.store.users.map (fun v =>
                if v.id = id then applyUpdates updates v else v) } })
    | _ => (Outcome.returned { data := none, error := true }, w.consume)

/-- The constant `EARNING_AMOUNT` of `YoutubeVideosPage.jsx`. -/
def YoutubeVideosPage.EARNING_AMOUNT : Int := 50

/-- The object `handleVideoWatched` of `YoutubeVideosPage.jsx` builds from the user record it
holds (the prop `user`) before calling the store. -/
def YoutubeVideosPage.videoWatchedUpdates (user : User) (amount : Int) : UserUpdates :=
  let newYoutubeBalance := orZero user.youtube_balance + amount
  let newBalance := orZero user.balance + amount
  let newWithdrawableBalance :=
    if newYoutubeBalance ≥ 500 then orZero user.withdrawable_balance + amount
    else orZero user.withdrawable_balance
  { balance := some newBalance,
    withdrawable_balance := some newWithdrawableBalance,
    youtube_balance := some newYoutubeBalance,
    tiktok_balance := none,
    total_withdrawals := none }

/-- The function `handleVideoWatched(videoId, amount)` of `YoutubeVideosPage.jsx`: the update,
`if (error) throw error`; it returns the `updatedUser` handed to `updateAuthContextUser`. -/
def YoutubeVideosPage.handleVideoWatched (user : User) (_videoId : String) (amount : Int) :
    StoreM (Option User) := do
  let r ← updateUserRow user.id (YoutubeVideosPage.videoWatchedUpdates user amount)
  if r.error then StoreM.throw else pure r.data

/-- The constant `EARNING_AMOUNT` of `TikTokVideosPage.jsx`. -/
def TikTokVideosPage.EARNING_AMOUNT : Int := 50

/-- The object `handleVideoWatched` of `TikTokVideosPage.jsx` builds from the user record it
holds (the prop `user`) before calling the store. -/
def TikTokVideosPage.videoWatchedUpdates (user : User) (amount : Int) : UserUpdates :=
  let newTiktokBalance := orZero user.tiktok_balance + amount
  let newBalance := orZero user.balance + amount
  let newWithdrawableBalance :=
    if newTiktokBalance ≥ 500 then orZero user.withdrawable_balance + amount
    else orZero user.withdrawable_balance
  { balance := some newBalance,
    withdrawable_balance := some newWithdrawableBalance,
    youtube_balance := none,
    tiktok_balance := some newTiktokBalance,
    total_withdrawals := none }

/-- The function `handleVideoWatched(videoId, amount)` of `TikTokVideosPage.jsx`. -/
def TikTokVideosPage.handleVideoWatched (user : User) (_videoId : String) (amount : Int) :
    StoreM (Option User) := do
  let r ← updateUserRow user.id (TikTokVideosPage.videoWatchedUpdates user amount)
  if r.error then StoreM.throw else pure r.data

/-- The state `withdrawalData` of the withdrawal form.  The text of the number input `amount`
is embedded by the whole number it spells, `none` being the empty text. -/
structure WithdrawalData where
  amount : Option Int
  method : String
  phone : String
deriving DecidableEq, Repr

/-- The constant `minMainWithdrawal` of the component `Withdrawal`. -/
def Withdrawal.minMainWithdrawal : Int := 2500

/-- The constant `minVideoWithdrawal` of the component `Withdrawal`. -/
def Withdrawal.minVideoWithdrawal : Int := 500

/-- The prop `availableBalance` that the component `Withdrawal` gives to the form of each
balance type: the selected balance of the user, null read as 0. -/
def Withdrawal.availableBalance (user : User) (balanceType : String) : Int :=
  if balanceType = "main" then orZero user.withdrawable_balance
  else if balanceType = "youtube" then orZero user.youtube_balance
  else orZero user.tiktok_balance

/-- The function `validateWithdrawal()` of the form with props `minWithdrawal` and
`availableBalance`. -/
def Withdrawal.validateWithdrawal (withdrawalData : WithdrawalData)
    (minWithdrawal availableBalance : Int) : Bool :=
  match withdrawalData.amount with
  | none => false
  | some amount =>
    if withdrawalData.method = "" || withdrawalData.phone = "" then false
    else if amount ≤ 0 then false
    else if amount < minWithdrawal then false
    else if amount > availableBalance then false
    else true

/-- The object `balanceUpdates` that `handleWithdrawal` builds from the user record it holds
(the prop `user`), the prop `balanceType` and the parsed amount. -/
def Withdrawal.balanceUpdates (user : User) (balanceType : String) (amount : Int) :
    UserUpdates :=
  let selected : UserUpdates :=
    if balanceType = "main" then
      { balance := none,
        withdrawable_balance := some (orZero user.withdrawable_balance - amount),
        youtube_balance := none, tiktok_balance := none, total_withdrawals := none }
    else if balanceType = "youtube" then
      { balance := none, withdrawable_balance := none,
        youtube_balance := some (orZero user.youtube_balance - amount),
        tiktok_balance := none, total_withdrawals := none }
    else if balanceType = "tiktok" then
      { balance := none, withdrawable_balance := none, youtube_balance := none,
        tiktok_balance := some (orZero user.tiktok_balance - amount),
        total_withdrawals := none }
    else
      { balance := none, withdrawable_balance := none, youtube_balance := none,
        tiktok_balance := none, total_withdrawals := none }
  { selected with total_withdrawals := some (orZero user.total_withdrawals + amount) }

/-- Modelled from the spec: the Ledger Store row insert behind
`supabase.from('withdrawals').insert({...})` (the client module is not among the sources).  The
table `withdrawals` is not part of the embedded store, which no later call of the form reads;
the call throws, or resolves to `{ error }` with or without an error, returned here as a
boolean. -/
def insertWithdrawal (_userId : Nat) (_amount : Int) (_method _phone _source : String) :
    StoreM Bool := fun w =>
  match w.nextFault with
  | Fault.throws => (Outcome.threw, w.consume)
  | Fault.error => (Outcome.returned true, w.consume)
  | Fault.ok => (Outcome.returned false, w.consume)

/-- The `try` block of `handleWithdrawal` for a validated amount: the insert of the request,
`if (insertError) throw insertError`, the update of the user row, `if (updateUserError) throw
updateUserError`; it returns the `updatedUser` handed to `updateAuthContextUser`. -/
def Withdrawal.handleWithdrawalBody (user : User) (balanceType : String)
    (withdrawalData : WithdrawalData) (amount : Int) : StoreM (Option User) := do
  let insertError ←
    insertWithdrawal user.id amount withdrawalData.method withdrawalData.phone balanceType
  if insertError then StoreM.throw
  else
    let r ← updateUserRow user.id (Withdrawal.balanceUpdates user balanceType amount)
    if r.error then StoreM.throw else pure r.data

/-- The function `handleWithdrawal()` of the form: nothing happens when
`validateWithdrawal()` fails; otherwise the `try` block runs and its `catch` shows the error.
The result is the user handed to `updateAuthContextUser`, if any. -/
def Withdrawal.handleWithdrawal (user : User) (balanceType : String)
    (availableBalance minWithdrawal : Int) (withdrawalData : WithdrawalData) (w : World) :
    Option User × World :=
  if Withdrawal.validateWithdrawal withdrawalData minWithdrawal availableBalance then
    match withdrawalData.amount with
    | none => (none, w)
    | some amount =>
      match Withdrawal.handleWithdrawalBody user balanceType withdrawalData amount w with
      | (Outcome.returned updatedUser, w1) => (updatedUser, w1)
      | (Outcome.threw, w1) => (none, w1)
  else (none, w)

/-- The record after `n` successive YouTube credits of `EARNING_AMOUNT`, each computed from
the record the previous one produced. -/
def YoutubeVideosPage.watchTimes : Nat → User → User
  | 0, u => u
  | n + 1, u =>
    applyUpdates
      (YoutubeVideosPage.videoWatchedUpdates (YoutubeVideosPage.watchTimes n u)
        YoutubeVideosPage.EARNING_AMOUNT)
      (YoutubeVideosPage.watchTimes n u)

/-- The record after `n` successive TikTok credits of `EARNING_AMOUNT`, each computed from the
record the previous one produced. -/
def TikTokVideosPage.watchTimes : Nat → User → User
  | 0, u => u
  | n + 1, u =>
    applyUpdates
      (TikTokVideosPage.videoWatchedUpdates (TikTokVideosPage.watchTimes n u)
        TikTokVideosPage.EARNING_AMOUNT)
      (TikTokVideosPage.watchTimes n u)

/-- The record with the columns `youtube_balance` and `tiktok_balance` exchanged. -/
def swapChannels (u : User) : User :=
  { u with youtube_balance := u.tiktok_balance, tiktok_balance := u.youtube_balance }

/-- The update object with the keys `youtube_balance` and `tiktok_balance` exchanged. -/
def swapChannelUpdates (p : UserUpdates) : UserUpdates :=
  { p with youtube_balance := p.tiktok_balance, tiktok_balance := p.youtube_balance }

/-- The field `affiliation_fee` of `newUserPayload` in `RegisterForm.jsx`, which is not a
column of the embedded row. -/
def affiliationFee : Int := 4000

/-- The invariant of the data model on one row: `withdrawable_balance <= balance`, a null
column being read as 0. -/
def WithdrawableLeBalance (u : User) : Prop :=
  orZero u.withdrawable_balance ≤ orZero u.balance

/-- What a user could ask to withdraw: `withdrawable_balance + youtube_balance +
tiktok_balance`, plus what was already withdrawn, `total_withdrawals` (null read as 0). -/
def claimable (u : User) : Int :=
  orZero u.withdrawable_balance + orZero u.youtube_balance + orZero u.tiktok_balance +
    orZero u.total_withdrawals

/-- A `users` table whose referrals point backwards: ids are unique, every
`referred_by_code` is the `referral_code` of a user with a smaller id, and no two users share a
`referral_code`. -/
def ReferralsOrdered (users : List User) : Prop :=
  (users.map (fun u => u.id)).Nodup ∧
  (∀ u ∈ users, ∀ c, u.referred_by_code = some c →
    ∃ v ∈ users, v.id < u.id ∧ v.referral_code = some c) ∧
  (∀ u ∈ users, ∀ v ∈ users, ∀ c,
    u.referral_code = some c → v.referral_code = some c → u = v)

/-- The registration form of a user `bob` who types his own code as referral code. -/
def selfReferralForm : RegistrationForm :=
  { username := "bob", name := "Bob B", country := "CM", phone := "+237600000003",
    email := "bob@example.org", password := "secret3", confirmPassword := "secret3",
    referralCode := "BOB" }

/-- The registration form of a user `carol` who was referred by `alice`. -/
def carolForm : RegistrationForm :=
  { username := "carol", name := "Carol C", country := "CM", phone := "+237600000004",
    email := "carol@example.org", password := "secret4", confirmPassword := "secret4",
    referralCode := "ALICE" }

/-! ## Further observations and sample worlds -/

/-- The fates of the inserts of a trace, in order. -/
def insertFatesOf (tr : List Call) : List Fault :=
  tr.filterMap (fun c =>
    match c with
    | Call.insert _ f => some f
    | _ => none)

/-- The sample store where the call number `n` (from 0) throws. -/
def throwAt (n : Nat) : World :=
  { store := sampleStore, faults := fun i => if i = n then Fault.throws else Fault.ok,
    log := [] }

/-- The sample store where the calls number `m` and `n` (from 0) resolve to `{ error }`. -/
def errorAtTwo (m n : Nat) : World :=
  { store := sampleStore,
    faults := fun i => if i = m ∨ i = n then Fault.error else Fault.ok, log := [] }

/-- The bound on a `users` table: ids are unique and, on every row, what a user could ask to
withdraw plus what was withdrawn is at most `k` times `balance`. -/
def ClaimableWithin (k : Int) (users : List User) : Prop :=
  (users.map (fun u => u.id)).Nodup ∧ ∀ v ∈ users, claimable v ≤ k * orZero v.balance

/-- The row of a user whose balances were raised to 4900 by commissions. -/
def richRow : User := sampleUser 1 "A" none (some 4900)

/-- The record of the same user as a page read it before those commissions. -/
def earlierRecord : User := sampleUser 1 "A" none (some 0)

/-- A store holding `richRow` only, every call succeeding. -/
def richWorld : World :=
  { store := { users := [richRow], referrals := [] }, faults := fun _ => Fault.ok, log := [] }

/-- A filled-in withdrawal form asking for 2500. -/
def mainWithdrawal : WithdrawalData :=
  { amount := some 2500, method := "orange", phone := "+237600000001" }

/-! ## The monad and the store calls -/

theorem bind_run {α β : Type} (m : StoreM α) (f : α → StoreM β) (w : World) :
    (m >>= f) w = match m w with
      | (Outcome.returned a, w1) => f a w1
      | (Outcome.threw, w1) => (Outcome.threw, w1) := rfl

theorem pure_run {α : Type} (a : α) (w : World) :
    (pure a : StoreM α) w = (Outcome.returned a, w) := rfl

theorem bind_pure_unit (m : StoreM Unit) : (m >>= fun _ => (pure () : StoreM Unit)) = m := by
  funext w
  rw [bind_run]
  rcases h : m w with ⟨o, w1⟩
  cases o <;> rfl

theorem body_eq_walk (code : String) (newUserId : Nat) :
    processReferralCommissionsBody code newUserId = walk newUserId 3 1 code := by
  have tail : ∀ x : Option String,
      (match x with
        | some _ => (pure () : StoreM Unit)
        | none => pure ()) = pure () := by
    intro x
    cases x <;> rfl
  unfold processReferralCommissionsBody
  simp only [walk]
  norm_num
  simp only [tail, bind_pure_unit]

theorem after_nil (w : World) : w.after [] = w := by
  simp [World.after, replay]

theorem after_after (w : World) (tr1 tr2 : List Call) :
    (w.after tr1).after tr2 = w.after (tr1 ++ tr2) := by
  simp [World.after, replay, List.foldl_append, List.append_assoc]

theorem select_spec (code : String) (w : World) :
    ∃ o, selectUserByCode code w = (o, w.after [Call.select code o]) := by
  unfold selectUserByCode
  split <;> exact ⟨_, rfl⟩

theorem insert_spec (row : Referral) (w : World) :
    ∃ f, insertReferral row w =
      (if f = Fault.throws then Outcome.threw else Outcome.returned (),
        w.after [Call.insert row f]) := by
  unfold insertReferral
  split
  · exact ⟨Fault.throws, rfl⟩
  · exact ⟨Fault.error, rfl⟩
  · exact ⟨Fault.ok, rfl⟩

theorem update_spec (id : Nat) (b wb : Int) (w : World) :
    ∃ f, updateBalances id b wb w =
      (if f = Fault.throws then Outcome.threw else Outcome.returned (),
        w.after [Call.update id b wb f]) := by
  unfold updateBalances
  split
  · exact ⟨Fault.throws, rfl⟩
  · exact ⟨Fault.error, rfl⟩
  · exact ⟨Fault.ok, rfl⟩

theorem walk_spec (newUserId : Nat) : ∀ (k : Nat) (level : Int) (code : String) (w : World),
    ∃ tr, (walk newUserId k level code w).2 = w.after tr ∧
      WalkTrace newUserId k level code tr := by
  intro k
  induction k with
  | zero =>
    intro level code w
    exact ⟨[], by simp [walk, pure_run, after_nil], rfl⟩
  | succ k ih =>
    intro level code w
    simp only [walk, bind_run]
    obtain ⟨o, ho⟩ := select_spec code w
    rw [ho]
    rcases o with ⟨⟨data, err⟩⟩ | _
    · cases data with
      | none =>
        exact ⟨_, rfl, Or.inl ⟨Outcome.returned { data := none, error := err },
          by cases err <;> rfl, rfl⟩⟩
      | some R =>
        cases err with
        | true =>
          exact ⟨_, rfl, Or.inl ⟨Outcome.returned { data := some R, error := true }, rfl, rfl⟩⟩
        | false =>
          simp only [bind_run]
          obtain ⟨f, hf⟩ := insert_spec (rowFor level R newUserId)
            (w.after [Call.select code (Outcome.returned { data := some R, error := false })])
          simp only [rowFor] at hf
          rw [hf]
          by_cases hft : f = Fault.throws
          · subst hft
            simp only [if_true, after_after]
            exact ⟨_, rfl, Or.inr (Or.inl ⟨R, rfl⟩)⟩
          · simp only [hft, if_false, after_after, bind_run]
            obtain ⟨g, hg⟩ := update_spec R.id
              (orZero R.balance + calculateCommissions level 4000)
              (orZero R.withdrawable_balance + calculateCommissions level 4000)
              (w.after ([Call.select code (Outcome.returned { data := some R, error := false })] ++
                [Call.insert (rowFor level R newUserId) f]))
            simp only [rowFor] at hg
            rw [hg]
            by_cases hgt : g = Fault.throws
            · subst hgt
              simp only [if_true, after_after]
              exact ⟨_, rfl, Or.inr (Or.inr (Or.inl ⟨R, f, hft, rfl⟩))⟩
            · simp only [hgt, if_false, after_after]
              cases hrb : R.referred_by_code with
              | none =>
                exact ⟨_, rfl, Or.inr (Or.inr (Or.inr
                  ⟨R, f, g, [], hft, hgt, rfl, Or.inl ⟨by simp [truthy, hrb], rfl⟩⟩))⟩
              | some next =>
                by_cases hne : next = ""
                · subst hne
                  exact ⟨_, rfl, Or.inr (Or.inr (Or.inr
                    ⟨R, f, g, [], hft, hgt, rfl, Or.inl ⟨by simp [truthy, hrb], rfl⟩⟩))⟩
                · have hb : (next != "") = true := by simpa using hne
                  simp only [hb, if_true]
                  obtain ⟨rest, hrest, htr⟩ := ih (level + 1) next
                    (w.after ([Call.select code
                      (Outcome.returned { data := some R, error := false })] ++
                      [Call.insert (rowFor level R newUserId) f] ++
                      [Call.update R.id (orZero R.balance + calculateCommissions level 4000)
                        (orZero R.withdrawable_balance + calculateCommissions level 4000) g]))
                  simp only [rowFor] at hrest
                  rw [hrest, after_after]
                  exact ⟨_, rfl, Or.inr (Or.inr (Or.inr
                    ⟨R, f, g, rest, hft, hgt, rfl, Or.inr ⟨next, hrb, hne, htr⟩⟩))⟩
    · exact ⟨_, rfl, Or.inl ⟨Outcome.threw, rfl, rfl⟩⟩

theorem filter_setBalances (users : List User) (id : Nat) (b wb : Int) (code : String) :
    (setBalances users id b wb).filter (fun u => u.referral_code = some code) =
      setBalances (users.filter (fun u => u.referral_code = some code)) id b wb := by
  induction users with
  | nil => rfl
  | cons u us ih =>
    simp only [setBalances, List.map_cons, List.filter_cons] at ih ⊢
    have : (withBalances id b wb u).referral_code = u.referral_code := by
      unfold withBalances; split <;> rfl
    rw [this]
    split
    · simp [ih]
    · exact ih

theorem single_setBalances (users : List User) (id : Nat) (b wb : Int) (code : String) :
    single (setBalances users id b wb) code =
      { data := (single users code).data.map (withBalances id b wb),
        error := (single users code).error } := by
  unfold single
  rw [filter_setBalances]
  generalize users.filter (fun u => u.referral_code = some code) = l
  rcases l with _ | ⟨u, _ | ⟨v, l⟩⟩ <;> simp [setBalances]

theorem single_mem {users : List User} {code : String} {u : User}
    (h : (single users code).data = some u) : u ∈ users ∧ u.referral_code = some code := by
  unfold single at h
  generalize hl : users.filter (fun u => u.referral_code = some code) = l at h
  rcases l with _ | ⟨v, _ | ⟨v2, l⟩⟩
  · simp at h
  · simp only [Option.some.injEq] at h
    subst h
    have : v ∈ users.filter (fun u => u.referral_code = some code) := by simp [hl]
    simpa using this
  · simp at h

theorem withBalances_of_ne {id : Nat} {b wb : Int} {u : User} (h : u.id ≠ id) :
    withBalances id b wb u = u := by
  simp [withBalances, h]

theorem withBalances_id (id : Nat) (b wb : Int) (u : User) :
    (withBalances id b wb u).id = u.id := by
  unfold withBalances; split <;> rfl

theorem mem_setBalances {users : List User} {u : User} (id : Nat) (b wb : Int)
    (h : u ∈ users) : withBalances id b wb u ∈ setBalances users id b wb :=
  List.mem_map_of_mem _ h


/-! ## Commission table -/

/-- C1: `calculateCommissions(level)` is 1800 for level 1, 900 for level 2, 500 for level 3
and 0 for every other level, whatever the unused second argument. -/
theorem calculateCommissions_table (level amount : Int) :
    calculateCommissions 1 amount = 1800 ∧
    calculateCommissions 2 amount = 900 ∧
    calculateCommissions 3 amount = 500 ∧
    (level ≠ 1 → level ≠ 2 → level ≠ 3 → calculateCommissions level amount = 0) := by
  refine ⟨rfl, rfl, rfl, ?_⟩
  intro h1 h2 h3
  have e1 : (level == 1) = false := beq_false_of_ne h1
  have e2 : (level == 2) = false := beq_false_of_ne h2
  have e3 : (level == 3) = false := beq_false_of_ne h3
  simp [calculateCommissions, commissions, List.lookup, orZero, e1, e2, e3]


/-- Instance of C1 at a level outside the table: level 4 earns nothing. -/
theorem calculateCommissions_table_witness : calculateCommissions 4 4000 = 0 :=
  (calculateCommissions_table 4 4000).2.2.2 (by decide) (by decide) (by decide)

theorem callsOf_after (w : World) (tr : List Call) : callsOf w (w.after tr) = tr := by
  simp [callsOf, World.after]

theorem credit_eq (u : User) (amount : Int) :
    withBalances u.id (orZero u.balance + amount) (orZero u.withdrawable_balance + amount) u =
      credit u amount := by
  simp [withBalances, credit]

theorem credit_id (u : User) (amount : Int) : (credit u amount).id = u.id := rfl

/-! ## The chain walk on a store without failures -/

/-- C2: on a store where no call fails and `A` (found by `referrerCode`) was referred by `B`,
`B` by `C` and `C` by `D`, all four distinct, the walk appends exactly the three rows of levels
1, 2, 3 for `A`, `B`, `C` with commissions 1800, 900, 500, overwrites the two balances of `A`,
`B`, `C` with their old values plus 1800, 900, 500, and leaves the row of `D` as it was. -/
theorem chain_of_three_pays_three_levels (w : World) (code cB cC cD : String) (newUserId : Nat)
    (A B C D : User)
    (hfree : ∀ n, w.faults n = Fault.ok)
    (hcode : code ≠ "")
    (hA : single w.store.users code = { data := some A, error := false })
    (hAB : A.referred_by_code = some cB) (hcB : cB ≠ "")
    (hB : single w.store.users cB = { data := some B, error := false })
    (hBC : B.referred_by_code = some cC) (hcC : cC ≠ "")
    (hC : single w.store.users cC = { data := some C, error := false })
    (_hCD : C.referred_by_code = some cD) (_hDc : D.referral_code = some cD)
    (hD : D ∈ w.store.users)
    (nAB : A.id ≠ B.id) (nAC : A.id ≠ C.id) (nAD : A.id ≠ D.id)
    (nBC : B.id ≠ C.id) (nBD : B.id ≠ D.id) (nCD : C.id ≠ D.id) :
    (processReferralCommissions (some code) newUserId w).store.referrals =
      w.store.referrals ++
        [{ referrer_id := A.id, referred_id := newUserId, level := 1, commission := 1800,
           paid := true },
         { referrer_id := B.id, referred_id := newUserId, level := 2, commission := 900,
           paid := true },
         { referrer_id := C.id, referred_id := newUserId, level := 3, commission := 500,
           paid := true }] ∧
    (processReferralCommissions (some code) newUserId w).store.users =
      setBalances
        (setBalances
          (setBalances w.store.users A.id (orZero A.balance + 1800)
            (orZero A.withdrawable_balance + 1800))
          B.id (orZero B.balance + 900) (orZero B.withdrawable_balance + 900))
        C.id (orZero C.balance + 500) (orZero C.withdrawable_balance + 500) ∧
    credit A 1800 ∈ (processReferralCommissions (some code) newUserId w).store.users ∧
    credit B 900 ∈ (processReferralCommissions (some code) newUserId w).store.users ∧
    credit C 500 ∈ (processReferralCommissions (some code) newUserId w).store.users ∧
    D ∈ (processReferralCommissions (some code) newUserId w).store.users := by
  have c1 : calculateCommissions 1 4000 = 1800 := rfl
  have c2 : calculateCommissions 2 4000 = 900 := rfl
  have c3 : calculateCommissions 3 4000 = 500 := rfl
  have hB2 : ∀ b wb, single (setBalances w.store.users A.id b wb) cB =
      { data := some B, error := false } := by
    intro b wb
    rw [single_setBalances, hB]
    simp [withBalances_of_ne nAB.symm]
  have hC3 : ∀ b wb b2 wb2,
      single (setBalances (setBalances w.store.users A.id b wb) B.id b2 wb2) cC =
        { data := some C, error := false } := by
    intro b wb b2 wb2
    rw [single_setBalances, single_setBalances, hC]
    simp [withBalances_of_ne nAC.symm, withBalances_of_ne nBC.symm]
  have eB : (cB != "") = true := by simpa using hcB
  have eC : (cC != "") = true := by simpa using hcC
  have hu : (processReferralCommissions (some code) newUserId w).store.users =
      setBalances
        (setBalances
          (setBalances w.store.users A.id (orZero A.balance + 1800)
            (orZero A.withdrawable_balance + 1800))
          B.id (orZero B.balance + 900) (orZero B.withdrawable_balance + 900))
        C.id (orZero C.balance + 500) (orZero C.withdrawable_balance + 500) := by
    simp only [processReferralCommissions, hcode, if_false, processReferralCommissionsBody,
      bind_run, selectUserByCode, World.nextFault, hfree, hA, insertReferral, updateBalances,
      World.record, hAB, hB2, hBC, hC3, eB, eC, if_true, c1, c2, c3]
  have mA : A ∈ w.store.users := (single_mem (by rw [hA])).1
  have mB : B ∈ w.store.users := (single_mem (by rw [hB])).1
  have mC : C ∈ w.store.users := (single_mem (by rw [hC])).1
  refine ⟨?_, hu, ?_, ?_, ?_, ?_⟩
  · simp only [processReferralCommissions, hcode, if_false, processReferralCommissionsBody,
      bind_run, selectUserByCode, World.nextFault, hfree, hA, insertReferral, updateBalances,
      World.record, hAB, hB2, hBC, hC3, eB, eC, if_true, c1, c2, c3]
    simp
  · rw [hu]
    have h1 := mem_setBalances A.id (orZero A.balance + 1800)
      (orZero A.withdrawable_balance + 1800) mA
    rw [credit_eq] at h1
    have h2 := mem_setBalances B.id (orZero B.balance + 900)
      (orZero B.withdrawable_balance + 900) h1
    rw [withBalances_of_ne (by rw [credit_id]; exact nAB)] at h2
    have h3 := mem_setBalances C.id (orZero C.balance + 500)
      (orZero C.withdrawable_balance + 500) h2
    rw [withBalances_of_ne (by rw [credit_id]; exact nAC)] at h3
    exact h3
  · rw [hu]
    have h1 := mem_setBalances A.id (orZero A.balance + 1800)
      (orZero A.withdrawable_balance + 1800) mB
    rw [withBalances_of_ne nAB.symm] at h1
    have h2 := mem_setBalances B.id (orZero B.balance + 900)
      (orZero B.withdrawable_balance + 900) h1
    rw [credit_eq] at h2
    have h3 := mem_setBalances C.id (orZero C.balance + 500)
      (orZero C.withdrawable_balance + 500) h2
    rw [withBalances_of_ne (by rw [credit_id]; exact nBC)] at h3
    exact h3
  · rw [hu]
    have h1 := mem_setBalances A.id (orZero A.balance + 1800)
      (orZero A.withdrawable_balance + 1800) mC
    rw [withBalances_of_ne nAC.symm] at h1
    have h2 := mem_setBalances B.id (orZero B.balance + 900)
      (orZero B.withdrawable_balance + 900) h1
    rw [withBalances_of_ne nBC.symm] at h2
    have h3 := mem_setBalances C.id (orZero C.balance + 500)
      (orZero C.withdrawable_balance + 500) h2
    rw [credit_eq] at h3
    exact h3
  · rw [hu]
    have h1 := mem_setBalances A.id (orZero A.balance + 1800)
      (orZero A.withdrawable_balance + 1800) hD
    rw [withBalances_of_ne nAD.symm] at h1
    have h2 := mem_setBalances B.id (orZero B.balance + 900)
      (orZero B.withdrawable_balance + 900) h1
    rw [withBalances_of_ne nBD.symm] at h2
    have h3 := mem_setBalances C.id (orZero C.balance + 500)
      (orZero C.withdrawable_balance + 500) h2
    rw [withBalances_of_ne nCD.symm] at h3
    exact h3

/-- Witness for C2 on the sample store: activating user 9 under the code of `A`. -/
theorem chain_of_three_pays_three_levels_witness :
    (processReferralCommissions (some "A") 9 sampleWorld).store.referrals =
      sampleWorld.store.referrals ++
        [{ referrer_id := userA.id, referred_id := 9, level := 1, commission := 1800,
           paid := true },
         { referrer_id := userB.id, referred_id := 9, level := 2, commission := 900,
           paid := true },
         { referrer_id := userC.id, referred_id := 9, level := 3, commission := 500,
           paid := true }] ∧
    (processReferralCommissions (some "A") 9 sampleWorld).store.users =
      setBalances
        (setBalances
          (setBalances sampleWorld.store.users userA.id (orZero userA.balance + 1800)
            (orZero userA.withdrawable_balance + 1800))
          userB.id (orZero userB.balance + 900) (orZero userB.withdrawable_balance + 900))
        userC.id (orZero userC.balance + 500) (orZero userC.withdrawable_balance + 500) ∧
    credit userA 1800 ∈ (processReferralCommissions (some "A") 9 sampleWorld).store.users ∧
    credit userB 900 ∈ (processReferralCommissions (some "A") 9 sampleWorld).store.users ∧
    credit userC 500 ∈ (processReferralCommissions (some "A") 9 sampleWorld).store.users ∧
    userD ∈ (processReferralCommissions (some "A") 9 sampleWorld).store.users :=
  chain_of_three_pays_three_levels sampleWorld "A" "B" "C" "D" 9 userA userB userC userD
    (fun _ => rfl) (by decide) (by decide) rfl (by decide) (by decide) rfl (by decide)
    (by decide) rfl rfl (by decide) (by decide) (by decide) (by decide) (by decide)
    (by decide) (by decide)
/-- C3: on a store where no call fails and `A` (found by `referrerCode`) has no
`referred_by_code`, the walk appends exactly one row (level 1, referrer `A`, commission 1800),
overwrites the two balances of `A` with their old values plus 1800, and does nothing else. -/
theorem chain_of_one_pays_level_one (w : World) (code : String) (newUserId : Nat) (A : User)
    (hfree : ∀ n, w.faults n = Fault.ok)
    (hcode : code ≠ "")
    (hA : single w.store.users code = { data := some A, error := false })
    (hno : truthy A.referred_by_code = false) :
    (processReferralCommissions (some code) newUserId w).store.referrals =
      w.store.referrals ++
        [{ referrer_id := A.id, referred_id := newUserId, level := 1, commission := 1800,
           paid := true }] ∧
    (processReferralCommissions (some code) newUserId w).store.users =
      setBalances w.store.users A.id (orZero A.balance + 1800)
        (orZero A.withdrawable_balance + 1800) ∧
    credit A 1800 ∈ (processReferralCommissions (some code) newUserId w).store.users ∧
    lookupsOf (callsOf w (processReferralCommissions (some code) newUserId w)) = [some A] := by
  have c1 : calculateCommissions 1 4000 = 1800 := rfl
  have mA : A ∈ w.store.users := (single_mem (by rw [hA])).1
  have hrun : processReferralCommissions (some code) newUserId w =
      w.after [Call.select code (Outcome.returned { data := some A, error := false }),
        Call.insert
          { referrer_id := A.id, referred_id := newUserId, level := 1, commission := 1800,
            paid := true } Fault.ok,
        Call.update A.id (orZero A.balance + 1800) (orZero A.withdrawable_balance + 1800)
          Fault.ok] := by
    cases hr : A.referred_by_code with
    | none =>
      simp [processReferralCommissions, hcode, processReferralCommissionsBody,
        bind_run, pure_run, selectUserByCode, World.nextFault, hfree, hA, insertReferral,
        updateBalances, World.record, hr, c1, World.after, replay, applyCall]
    | some c =>
      have hc : c = "" := by simpa [truthy, hr] using hno
      simp [processReferralCommissions, hcode, processReferralCommissionsBody,
        bind_run, pure_run, selectUserByCode, World.nextFault, hfree, hA, insertReferral,
        updateBalances, World.record, hr, hc, c1, World.after, replay, applyCall]
  rw [hrun, callsOf_after]
  refine ⟨by simp [World.after, replay, applyCall], by simp [World.after, replay, applyCall],
    ?_, by simp [lookupsOf, resolvedUser]⟩
  have h1 := mem_setBalances A.id (orZero A.balance + 1800)
    (orZero A.withdrawable_balance + 1800) mA
  rw [credit_eq] at h1
  simpa [World.after, replay, applyCall] using h1

/-- Witness for C3 on the sample store: `D` was referred by nobody. -/
theorem chain_of_one_pays_level_one_witness :
    (processReferralCommissions (some "D") 9 sampleWorld).store.referrals =
      sampleWorld.store.referrals ++
        [{ referrer_id := userD.id, referred_id := 9, level := 1, commission := 1800,
           paid := true }] ∧
    (processReferralCommissions (some "D") 9 sampleWorld).store.users =
      setBalances sampleWorld.store.users userD.id (orZero userD.balance + 1800)
        (orZero userD.withdrawable_balance + 1800) ∧
    credit userD 1800 ∈ (processReferralCommissions (some "D") 9 sampleWorld).store.users ∧
    lookupsOf (callsOf sampleWorld (processReferralCommissions (some "D") 9 sampleWorld)) =
      [some userD] :=
  chain_of_one_pays_level_one sampleWorld "D" 9 userD (fun _ => rfl) (by decide) (by decide) rfl

/-! ## Guards and failed lookups -/

/-- C4: when `referrerCode` is null or the empty string the call returns the world it was
given: no call is logged, no row is inserted and no user row changes. -/
theorem no_referrer_code_is_noop (newUserId : Nat) (w : World) :
    processReferralCommissions none newUserId w = w ∧
    processReferralCommissions (some "") newUserId w = w := by
  constructor <;> rfl

/-- C5: when the level-1 lookup throws, resolves to an error or finds no user, the tables are
left exactly as they were, and no insert or update is even issued. -/
theorem unresolved_level_one_changes_nothing (w : World) (code : String) (newUserId : Nat)
    (hfail : resolvedUser (selectUserByCode code w).1 = none) :
    (processReferralCommissions (some code) newUserId w).store = w.store ∧
    insertsOf (callsOf w (processReferralCommissions (some code) newUserId w)) = [] ∧
    updatesOf (callsOf w (processReferralCommissions (some code) newUserId w)) = [] := by
  by_cases hcode : code = ""
  · subst hcode
    simp [processReferralCommissions, callsOf, insertsOf, updatesOf]
  · obtain ⟨o, ho⟩ := select_spec code w
    rw [ho] at hfail
    have hrun : processReferralCommissions (some code) newUserId w =
        w.after [Call.select code o] := by
      simp only [processReferralCommissions, hcode, if_false, processReferralCommissionsBody,
        bind_run, ho]
      rcases o with ⟨⟨data, err⟩⟩ | _
      · cases data with
        | none => rfl
        | some R =>
          cases err with
          | true => rfl
          | false => simp [resolvedUser] at hfail
      · rfl
    rw [hrun, callsOf_after]
    simp [World.after, replay, applyCall, insertsOf, updatesOf]

/-- Witness for C5 on the sample store: no user holds the code `Z`. -/
theorem unresolved_level_one_changes_nothing_witness :
    (processReferralCommissions (some "Z") 9 sampleWorld).store = sampleWorld.store ∧
    insertsOf (callsOf sampleWorld (processReferralCommissions (some "Z") 9 sampleWorld)) = [] ∧
    updatesOf (callsOf sampleWorld (processReferralCommissions (some "Z") 9 sampleWorld)) = [] :=
  unresolved_level_one_changes_nothing sampleWorld "Z" 9 (by decide)
theorem after_faults (w : World) (tr : List Call) : (w.after tr).faults = w.faults := rfl

theorem after_log_length (w : World) (tr : List Call) :
    (w.after tr).log.length = w.log.length + tr.length := by
  simp [World.after]

theorem after_store (w : World) (tr : List Call) : (w.after tr).store = replay w.store tr := rfl

theorem select_ok {w : World} (code : String) (h : w.faults w.log.length = Fault.ok) :
    selectUserByCode code w =
      (Outcome.returned (single w.store.users code),
        w.after [Call.select code (Outcome.returned (single w.store.users code))]) := by
  simp [selectUserByCode, World.nextFault, h, World.after, World.record, replay, applyCall]

theorem insert_ok {w : World} (row : Referral) (h : w.faults w.log.length = Fault.ok) :
    insertReferral row w = (Outcome.returned (), w.after [Call.insert row Fault.ok]) := by
  simp [insertReferral, World.nextFault, h, World.after, World.record, replay, applyCall]

theorem update_ok {w : World} (id : Nat) (b wb : Int) (h : w.faults w.log.length = Fault.ok) :
    updateBalances id b wb w = (Outcome.returned (), w.after [Call.update id b wb Fault.ok]) := by
  simp [updateBalances, World.nextFault, h, World.after, World.record, replay, applyCall]

theorem select_unresolved (w : World) (code : String)
    (h : w.faults w.log.length ≠ Fault.ok ∨ (single w.store.users code).data = none) :
    resolvedUser (selectUserByCode code w).1 = none := by
  unfold selectUserByCode World.nextFault
  cases hf : w.faults w.log.length with
  | throws => rfl
  | error => rfl
  | ok =>
    rcases h with h | h
    · exact absurd hf h
    · simp [resolvedUser, h]

/-- When the level-1 lookup, insert and update succeed, `R1` has a `referred_by_code`, and the
level-2 lookup throws, resolves to an error or finds no user, the walk appends exactly the
level-1 row, the two balances of `R1` keep their 1800 credit, and no other insert or update is
issued. -/
theorem failed_level_two_keeps_level_one (w : World) (code c2 : String) (newUserId : Nat)
    (R1 : User)
    (h0 : w.faults w.log.length = Fault.ok)
    (h1 : w.faults (w.log.length + 1) = Fault.ok)
    (h2 : w.faults (w.log.length + 2) = Fault.ok)
    (hcode : code ≠ "")
    (hR1 : single w.store.users code = { data := some R1, error := false })
    (hby : R1.referred_by_code = some c2) (hc2 : c2 ≠ "")
    (hfail : w.faults (w.log.length + 3) ≠ Fault.ok ∨ (single w.store.users c2).data = none) :
    (processReferralCommissions (some code) newUserId w).store.referrals =
      w.store.referrals ++
        [{ referrer_id := R1.id, referred_id := newUserId, level := 1, commission := 1800,
           paid := true }] ∧
    (processReferralCommissions (some code) newUserId w).store.users =
      setBalances w.store.users R1.id (orZero R1.balance + 1800)
        (orZero R1.withdrawable_balance + 1800) ∧
    credit R1 1800 ∈ (processReferralCommissions (some code) newUserId w).store.users ∧
    insertsOf (callsOf w (processReferralCommissions (some code) newUserId w)) =
      [{ referrer_id := R1.id, referred_id := newUserId, level := 1, commission := 1800,
         paid := true }] ∧
    updatesOf (callsOf w (processReferralCommissions (some code) newUserId w)) =
      [(R1.id, orZero R1.balance + 1800, orZero R1.withdrawable_balance + 1800)] := by
  have c1 : calculateCommissions 1 4000 = 1800 := rfl
  have mR : R1 ∈ w.store.users := (single_mem (by rw [hR1])).1
  have e2 : (c2 != "") = true := by simpa using hc2
  obtain ⟨o, hrun⟩ : ∃ o, processReferralCommissions (some code) newUserId w =
      w.after [Call.select code (Outcome.returned { data := some R1, error := false }),
        Call.insert
          { referrer_id := R1.id, referred_id := newUserId, level := 1, commission := 1800,
            paid := true } Fault.ok,
        Call.update R1.id (orZero R1.balance + 1800) (orZero R1.withdrawable_balance + 1800)
          Fault.ok,
        Call.select c2 o] := by
    simp only [processReferralCommissions, hcode, if_false, processReferralCommissionsBody,
      bind_run, c1]
    rw [select_ok code h0, hR1]
    simp only [bind_run]
    rw [insert_ok _ (by simpa [after_log_length] using h1)]
    simp only [bind_run, after_after]
    rw [update_ok _ _ _ (by simpa [after_log_length] using h2)]
    simp only [hby, e2, if_true, bind_run, after_after]
    have hsel := select_spec c2 (w.after ([Call.select code
      (Outcome.returned { data := some R1, error := false })] ++
      [Call.insert
        { referrer_id := R1.id, referred_id := newUserId, level := 1, commission := 1800,
          paid := true } Fault.ok] ++
      [Call.update R1.id (orZero R1.balance + 1800) (orZero R1.withdrawable_balance + 1800)
        Fault.ok]))
    obtain ⟨o, ho⟩ := hsel
    have hun := select_unresolved (w.after ([Call.select code
      (Outcome.returned { data := some R1, error := false })] ++
      [Call.insert
        { referrer_id := R1.id, referred_id := newUserId, level := 1, commission := 1800,
          paid := true } Fault.ok] ++
      [Call.update R1.id (orZero R1.balance + 1800) (orZero R1.withdrawable_balance + 1800)
        Fault.ok])) c2 (by
        rcases hfail with hf | hf
        · left
          simpa [after_log_length, after_faults] using hf
        · right
          simp [after_store, replay, applyCall, single_setBalances, hf])
    rw [ho] at hun
    refine ⟨o, ?_⟩
    rw [ho]
    rcases o with ⟨⟨data, err⟩⟩ | _
    · cases data with
      | none => simp [pure_run, after_after]
      | some R =>
        cases err with
        | true => simp [pure_run, after_after]
        | false => simp [resolvedUser] at hun
    · simp [after_after]
  rw [hrun, callsOf_after]
  refine ⟨by simp [World.after, replay, applyCall], by simp [World.after, replay, applyCall],
    ?_, by simp [insertsOf], by simp [updatesOf]⟩
  have h := mem_setBalances R1.id (orZero R1.balance + 1800)
    (orZero R1.withdrawable_balance + 1800) mR
  rw [credit_eq] at h
  simpa [World.after, replay, applyCall] using h

/-- An instance on the sample store: the level-1 calls succeed and the level-2 lookup (call
number 3) resolves to an error. -/
theorem failed_level_two_keeps_level_one_witness :
    (processReferralCommissions (some "A") 9 (errorAt 3)).store.referrals =
      (errorAt 3).store.referrals ++
        [{ referrer_id := userA.id, referred_id := 9, level := 1, commission := 1800,
           paid := true }] ∧
    (processReferralCommissions (some "A") 9 (errorAt 3)).store.users =
      setBalances (errorAt 3).store.users userA.id (orZero userA.balance + 1800)
        (orZero userA.withdrawable_balance + 1800) ∧
    credit userA 1800 ∈ (processReferralCommissions (some "A") 9 (errorAt 3)).store.users ∧
    insertsOf (callsOf (errorAt 3) (processReferralCommissions (some "A") 9 (errorAt 3))) =
      [{ referrer_id := userA.id, referred_id := 9, level := 1, commission := 1800,
         paid := true }] ∧
    updatesOf (callsOf (errorAt 3) (processReferralCommissions (some "A") 9 (errorAt 3))) =
      [(userA.id, orZero userA.balance + 1800, orZero userA.withdrawable_balance + 1800)] :=
  failed_level_two_keeps_level_one (errorAt 3) "A" "B" 9 userA rfl rfl rfl (by decide)
    (by decide) rfl (by decide) (Or.inl (by decide))

theorem replay_referrals (s : Store) (tr : List Call) :
    (replay s tr).referrals = s.referrals ++ insertedOf tr := by
  induction tr generalizing s with
  | nil => simp [replay, insertedOf]
  | cons c tr ih =>
    have h := ih (applyCall s c)
    simp only [replay, List.foldl_cons] at h ⊢
    rw [h]
    rcases c with ⟨code, o⟩ | ⟨row, f⟩ | ⟨id, b, wb, f⟩
    · simp [applyCall, insertedOf]
    · cases f <;> simp [applyCall, insertedOf]
    · cases f <;> simp [applyCall, insertedOf]

theorem process_spec (referrerCode : Option String) (newUserId : Nat) (w : World) :
    ∃ tr, processReferralCommissions referrerCode newUserId w = w.after tr ∧
      (tr = [] ∨ ∃ code, referrerCode = some code ∧ code ≠ "" ∧
        WalkTrace newUserId 3 1 code tr) := by
  cases referrerCode with
  | none => exact ⟨[], by simp [processReferralCommissions, after_nil], Or.inl rfl⟩
  | some code =>
    by_cases hcode : code = ""
    · exact ⟨[], by simp [processReferralCommissions, hcode, after_nil], Or.inl rfl⟩
    · obtain ⟨tr, htr, hshape⟩ := walk_spec newUserId 3 1 code w
      refine ⟨tr, ?_, Or.inr ⟨code, rfl, hcode, hshape⟩⟩
      simp only [processReferralCommissions, hcode, if_false, body_eq_walk]
      exact htr

theorem walkTrace_counts (newUserId : Nat) : ∀ (k : Nat) (level : Int) (code : String)
    (tr : List Call), WalkTrace newUserId k level code tr →
      (lookupsOf tr).length ≤ k ∧ (updatesOf tr).length ≤ k ∧
      (insertsOf tr).map (fun r => r.level) <+: levelsFrom level k ∧
      (noInsertError tr = true →
        (insertedOf tr).map (fun r => r.level) <+: levelsFrom level k) := by
  intro k
  induction k with
  | zero =>
    intro level code tr h
    simp only [WalkTrace] at h
    subst h
    simp [lookupsOf, updatesOf, insertsOf, insertedOf, levelsFrom]
  | succ k ih =>
    intro level code tr h
    simp only [WalkTrace] at h
    rcases h with ⟨o, -, rfl⟩ | ⟨R, rfl⟩ | ⟨R, f, hf, rfl⟩ | ⟨R, f, g, rest, hf, hg, rfl, hrest⟩
    · simp [lookupsOf, updatesOf, insertsOf, insertedOf, levelsFrom]
    · simp [lookupsOf, updatesOf, insertsOf, insertedOf, levelsFrom, rowFor]
    · cases f <;>
        simp [lookupsOf, updatesOf, insertsOf, insertedOf, levelsFrom, rowFor, noInsertError]
          at hf ⊢
    · have hr : (lookupsOf rest).length ≤ k ∧ (updatesOf rest).length ≤ k ∧
          (insertsOf rest).map (fun r => r.level) <+: levelsFrom (level + 1) k ∧
          (noInsertError rest = true →
            (insertedOf rest).map (fun r => r.level) <+: levelsFrom (level + 1) k) := by
        rcases hrest with ⟨-, rfl⟩ | ⟨next, -, -, hw⟩
        · simp [lookupsOf, updatesOf, insertsOf, insertedOf]
        · exact ih (level + 1) next rest hw
      obtain ⟨h1, h2, h3, h4⟩ := hr
      refine ⟨?_, ?_, ?_, ?_⟩
      · simpa [lookupsOf] using h1
      · simpa [updatesOf] using h2
      · simpa [insertsOf, levelsFrom, rowFor, List.cons_prefix_cons] using h3
      · intro hno
        cases f with
        | throws => exact absurd rfl hf
        | error => simp [noInsertError] at hno
        | ok =>
          have hno2 : noInsertError rest = true := by
            simpa [noInsertError] using hno
          simpa [insertedOf, levelsFrom, rowFor, List.cons_prefix_cons] using h4 hno2

/-! ## Order and number of the levels paid -/

/-- Whatever calls fail, one call of `processReferralCommissions` issues at most three lookups
and at most three balance writes, and the levels of the inserts it issues form a prefix of
`[1, 2, 3]`; in a run where no insert resolves to `{ error }`, the rows it appends to
`referrals` have levels forming a prefix of `[1, 2, 3]`. -/
theorem levels_of_one_walk_in_order (w : World) (referrerCode : Option String)
    (newUserId : Nat) :
    (noInsertError (callsOf w (processReferralCommissions referrerCode newUserId w)) = true →
      ∃ rows, (processReferralCommissions referrerCode newUserId w).store.referrals =
          w.store.referrals ++ rows ∧
        rows.map (fun r => r.level) <+: [1, 2, 3]) ∧
    (insertsOf (callsOf w (processReferralCommissions referrerCode newUserId w))).map
      (fun r => r.level) <+: [1, 2, 3] ∧
    (lookupsOf (callsOf w (processReferralCommissions referrerCode newUserId w))).length ≤ 3 ∧
    (updatesOf (callsOf w (processReferralCommissions referrerCode newUserId w))).length ≤ 3 := by
  obtain ⟨tr, hrun, hshape⟩ := process_spec referrerCode newUserId w
  rw [hrun, callsOf_after]
  have hl : levelsFrom 1 3 = [1, 2, 3] := rfl
  rcases hshape with rfl | ⟨code, -, -, hw⟩
  · refine ⟨fun _ => ⟨[], by simp [World.after, replay], by simp⟩, ?_, ?_, ?_⟩ <;>
      simp [insertsOf, lookupsOf, updatesOf]
  · obtain ⟨h1, h2, h3, h4⟩ := walkTrace_counts newUserId 3 1 code tr hw
    rw [hl] at h3 h4
    exact ⟨fun hins => ⟨insertedOf tr, by rw [after_store, replay_referrals], h4 hins⟩,
      h3, h1, h2⟩

/-- An instance on the sample store, with the level-2 lookup resolving to an error: the one
row appended has level 1. -/
theorem levels_of_one_walk_in_order_on_sample :
    ∃ rows, (processReferralCommissions (some "A") 9 (errorAt 3)).store.referrals =
        (errorAt 3).store.referrals ++ rows ∧
      rows.map (fun r => r.level) <+: [1, 2, 3] :=
  (levels_of_one_walk_in_order (errorAt 3) (some "A") 9).1 (by decide)

/-- C6: on the sample store, when the level-1 insert (call number 1) resolves to `{ error }`,
the walk does not stop: it goes on to the balance write and to levels 2 and 3, so the rows
appended to `referrals` are those of levels 2 and 3 only, which is no prefix of `[1, 2, 3]`. -/
theorem inserted_levels_not_a_prefix_after_failed_insert :
    (processReferralCommissions (some "A") 9 (errorAt 1)).store.referrals =
      [{ referrer_id := 2, referred_id := 9, level := 2, commission := 900, paid := true },
       { referrer_id := 3, referred_id := 9, level := 3, commission := 500, paid := true }] ∧
    ¬ ∃ rows, (processReferralCommissions (some "A") 9 (errorAt 1)).store.referrals =
        (errorAt 1).store.referrals ++ rows ∧
      rows.map (fun r => r.level) <+: [1, 2, 3] := by
  have h : (processReferralCommissions (some "A") 9 (errorAt 1)).store.referrals =
      [{ referrer_id := 2, referred_id := 9, level := 2, commission := 900, paid := true },
       { referrer_id := 3, referred_id := 9, level := 3, commission := 500, paid := true }] := by
    decide
  refine ⟨h, ?_⟩
  rintro ⟨rows, hrows, hpre⟩
  rw [h] at hrows
  have : rows =
      [{ referrer_id := 2, referred_id := 9, level := 2, commission := 900, paid := true },
       { referrer_id := 3, referred_id := 9, level := 3, commission := 500, paid := true }] := by
    simpa [errorAt, sampleStore] using hrows.symm
  subst this
  revert hpre
  decide

theorem single_error (users : List User) (code : String) :
    (single users code).error = (single users code).data.isNone := by
  unfold single
  split <;> rfl

theorem withBalances_referred_by (id : Nat) (b wb : Int) (u : User) :
    (withBalances id b wb u).referred_by_code = u.referred_by_code := by
  unfold withBalances; split <;> rfl

theorem chainDepth_setBalances (users : List User) (id : Nat) (b wb : Int) :
    ∀ (fuel : Nat) (code : Option String),
      chainDepth (setBalances users id b wb) fuel code = chainDepth users fuel code := by
  intro fuel
  induction fuel with
  | zero => intro code; rfl
  | succ fuel ih =>
    intro code
    cases code with
    | none => rfl
    | some c =>
      simp only [chainDepth, single_setBalances]
      split
      · rfl
      · cases hd : (single users c).data with
        | none => simp
        | some u => simp [withBalances_referred_by, ih]

theorem chainDepth_min (users : List User) : ∀ (k fuel : Nat) (code : Option String),
    k ≤ fuel → chainDepth users k code = min k (chainDepth users fuel code) := by
  intro k
  induction k with
  | zero => intro fuel code _; simp [chainDepth]
  | succ k ih =>
    intro fuel code hk
    obtain ⟨fuel, rfl⟩ : ∃ m, fuel = m + 1 := ⟨fuel - 1, by omega⟩
    cases code with
    | none => simp [chainDepth]
    | some c =>
      simp only [chainDepth]
      split
      · simp
      · cases hd : (single users c).data with
        | none => simp
        | some u =>
          simp only []
          rw [ih fuel u.referred_by_code (by omega)]
          omega

theorem walk_fault_free (newUserId : Nat) : ∀ (k : Nat) (level : Int) (code : String)
    (w : World), (∀ n, w.faults n = Fault.ok) → code ≠ "" →
      ∃ rows, (walk newUserId k level code w).2.store.referrals = w.store.referrals ++ rows ∧
        rows.map (fun r => r.level) =
          levelsFrom level (chainDepth w.store.users k (some code)) := by
  intro k
  induction k with
  | zero =>
    intro level code w _ _
    exact ⟨[], by simp [walk, pure_run], rfl⟩
  | succ k ih =>
    intro level code w hfree hcode
    simp only [walk, bind_run, chainDepth, hcode, if_false]
    rw [select_ok code (hfree _)]
    have herr := single_error w.store.users code
    cases hd : (single w.store.users code).data with
    | none =>
      exact ⟨[], by simp [hd, pure_run, after_store, replay, applyCall], by simp [hd, levelsFrom]⟩
    | some R =>
      rw [hd] at herr
      simp only [hd, herr, Option.isNone_some, bind_run]
      rw [insert_ok _ (by exact hfree _)]
      simp only [bind_run, after_after]
      rw [update_ok _ _ _ (by exact hfree _)]
      simp only [after_after]
      cases hby : R.referred_by_code with
      | none =>
        refine ⟨[rowFor level R newUserId], ?_, ?_⟩
        · simp [pure_run, after_store, replay, applyCall, rowFor]
        · cases k <;> simp [chainDepth, levelsFrom, rowFor]
      | some next =>
        by_cases hne : next = ""
        · subst hne
          refine ⟨[rowFor level R newUserId], ?_, ?_⟩
          · simp [pure_run, after_store, replay, applyCall, rowFor]
          · cases k <;> simp [chainDepth, levelsFrom, rowFor]
        · have hb : (next != "") = true := by simpa using hne
          simp only [hb, if_true]
          obtain ⟨rows, h1, h2⟩ := ih (level + 1) next
            (w.after ([Call.select code (Outcome.returned (single w.store.users code))] ++
              [Call.insert
                { referrer_id := R.id, referred_id := newUserId, level := level,
                  commission := calculateCommissions level 4000, paid := true } Fault.ok] ++
              [Call.update R.id (orZero R.balance + calculateCommissions level 4000)
                (orZero R.withdrawable_balance + calculateCommissions level 4000) Fault.ok]))
            (fun n => hfree n) hne
          refine ⟨rowFor level R newUserId :: rows, ?_, ?_⟩
          · rw [h1]
            simp [after_store, replay, applyCall, rowFor]
          · rw [List.map_cons, h2]
            simp [after_store, replay, applyCall, chainDepth_setBalances, levelsFrom, rowFor]

theorem levelsFrom_length (level : Int) (k : Nat) : (levelsFrom level k).length = k := by
  induction k generalizing level with
  | zero => rfl
  | succ k ih => simp [levelsFrom, ih]

theorem walkTrace_next_lookup (newUserId : Nat) : ∀ (k : Nat) (level : Int) (code : String)
    (tr : List Call), WalkTrace newUserId k level code tr →
      ∀ i, i + 1 < (lookupsOf tr).length →
        ∃ R, (lookupsOf tr)[i]? = some (some R) ∧ truthy R.referred_by_code = true := by
  intro k
  induction k with
  | zero =>
    intro level code tr h i hi
    simp only [WalkTrace] at h
    subst h
    simp [lookupsOf] at hi
  | succ k ih =>
    intro level code tr h i hi
    simp only [WalkTrace] at h
    rcases h with ⟨o, -, rfl⟩ | ⟨R, rfl⟩ | ⟨R, f, hf, rfl⟩ | ⟨R, f, g, rest, hf, hg, rfl, hrest⟩
    · simp [lookupsOf] at hi
    · simp [lookupsOf] at hi
    · simp [lookupsOf] at hi
    · rcases hrest with ⟨-, rfl⟩ | ⟨next, hby, hne, hw⟩
      · simp [lookupsOf] at hi
      · have hl : lookupsOf (Call.select code
            (Outcome.returned { data := some R, error := false }) ::
            Call.insert (rowFor level R newUserId) f ::
            Call.update R.id (orZero R.balance + calculateCommissions level 4000)
              (orZero R.withdrawable_balance + calculateCommissions level 4000) g :: rest) =
            some R :: lookupsOf rest := by
          simp [lookupsOf, resolvedUser]
        rw [hl] at hi ⊢
        cases i with
        | zero => exact ⟨R, by simp, by simp [truthy, hby, hne]⟩
        | succ i =>
          simp only [List.length_cons, Nat.add_lt_add_iff_right] at hi
          simpa using ih (level + 1) next rest hw i hi

/-! ## Number of levels paid -/

/-- C8: on a store where no call fails, the walk appends `min 3 d` rows, of levels
`1, ..., min 3 d`, where `d` is the depth of the referrer chain above `referrerCode` (counted
with any fuel of at least 3); and a lookup at the next level is issued only when the user
resolved at the level before has a `referred_by_code`. -/
theorem rows_inserted_eq_min_three_depth (w : World) (referrerCode : Option String)
    (newUserId fuel : Nat)
    (hfree : ∀ n, w.faults n = Fault.ok) (hfuel : 3 ≤ fuel) :
    (∃ rows, (processReferralCommissions referrerCode newUserId w).store.referrals =
        w.store.referrals ++ rows ∧
      rows.length = min 3 (chainDepth w.store.users fuel referrerCode) ∧
      rows.map (fun r => r.level) =
        levelsFrom 1 (min 3 (chainDepth w.store.users fuel referrerCode))) ∧
    ∀ i, i + 1 <
        (lookupsOf (callsOf w (processReferralCommissions referrerCode newUserId w))).length →
      ∃ R, (lookupsOf (callsOf w (processReferralCommissions referrerCode newUserId w)))[i]? =
          some (some R) ∧
        truthy R.referred_by_code = true := by
  constructor
  · rw [← chainDepth_min w.store.users 3 fuel referrerCode hfuel]
    cases referrerCode with
    | none => exact ⟨[], by simp [processReferralCommissions], rfl, rfl⟩
    | some code =>
      by_cases hcode : code = ""
      · subst hcode
        exact ⟨[], by simp [processReferralCommissions], rfl, rfl⟩
      · obtain ⟨rows, h1, h2⟩ := walk_fault_free newUserId 3 1 code w hfree hcode
        refine ⟨rows, ?_, ?_, h2⟩
        · simp only [processReferralCommissions, hcode, if_false, body_eq_walk]
          exact h1
        · have := congrArg List.length h2
          simpa [levelsFrom_length] using this
  · obtain ⟨tr, hrun, hshape⟩ := process_spec referrerCode newUserId w
    rw [hrun, callsOf_after]
    rcases hshape with rfl | ⟨code, -, -, hw⟩
    · intro i hi
      simp [lookupsOf] at hi
    · exact walkTrace_next_lookup newUserId 3 1 code tr hw

/-- Witness for C8 on the sample store: the chain above `C` has depth 2 (`C`, then `D`), and
the rows appended are those of levels 1 and 2. -/
theorem rows_inserted_eq_min_three_depth_witness :
    (∃ rows, (processReferralCommissions (some "C") 9 sampleWorld).store.referrals =
        sampleWorld.store.referrals ++ rows ∧
      rows.length = min 3 (chainDepth sampleWorld.store.users 5 (some "C")) ∧
      rows.map (fun r => r.level) =
        levelsFrom 1 (min 3 (chainDepth sampleWorld.store.users 5 (some "C")))) ∧
    ∀ i, i + 1 <
        (lookupsOf (callsOf sampleWorld
          (processReferralCommissions (some "C") 9 sampleWorld))).length →
      ∃ R, (lookupsOf (callsOf sampleWorld
          (processReferralCommissions (some "C") 9 sampleWorld)))[i]? = some (some R) ∧
        truthy R.referred_by_code = true :=
  rows_inserted_eq_min_three_depth sampleWorld (some "C") 9 5 (fun _ => rfl) (by decide)


theorem cast_succ_level (level : Int) (j : Nat) :
    level + ((j + 1 : Nat) : Int) = level + 1 + (j : Int) := by
  push_cast
  ring

theorem walkTrace_levels (newUserId : Nat) : ∀ (k : Nat) (level : Int) (code : String)
    (tr : List Call), WalkTrace newUserId k level code tr →
      (∀ (j : Nat) (row : Referral), (insertsOf tr)[j]? = some row →
        ∃ R, (lookupsOf tr)[j]? = some (some R) ∧ row = rowFor (level + j) R newUserId) ∧
      (∀ (j : Nat) (u : Nat × Int × Int), (updatesOf tr)[j]? = some u →
        ∃ R, (lookupsOf tr)[j]? = some (some R) ∧ u = writeFor (level + j) R) ∧
      (noThrow tr = true → ∀ (j : Nat) (R : User), (lookupsOf tr)[j]? = some (some R) →
        (updatesOf tr)[j]? = some (writeFor (level + j) R)) := by
  intro k
  induction k with
  | zero =>
    intro level code tr h
    simp only [WalkTrace] at h
    subst h
    simp [lookupsOf, updatesOf, insertsOf]
  | succ k ih =>
    intro level code tr h
    simp only [WalkTrace] at h
    rcases h with ⟨o, ho, rfl⟩ | ⟨R, rfl⟩ | ⟨R, f, hf, rfl⟩ | ⟨R, f, g, rest, hf, hg, rfl, hrest⟩
    · refine ⟨by simp [insertsOf], by simp [updatesOf], ?_⟩
      intro _ j R hj
      cases j with
      | zero => simp [lookupsOf, ho] at hj
      | succ j => simp [lookupsOf] at hj
    · refine ⟨?_, by simp [updatesOf], by simp [noThrow]⟩
      intro j row hj
      cases j with
      | zero =>
        refine ⟨R, by simp [lookupsOf, resolvedUser], ?_⟩
        simpa [insertsOf, eq_comm] using hj
      | succ j => simp [insertsOf] at hj
    · refine ⟨?_, ?_, by simp [noThrow]⟩
      · intro j row hj
        cases j with
        | zero =>
          refine ⟨R, by simp [lookupsOf, resolvedUser], ?_⟩
          simpa [insertsOf, eq_comm] using hj
        | succ j => simp [insertsOf] at hj
      · intro j u hj
        cases j with
        | zero =>
          refine ⟨R, by simp [lookupsOf, resolvedUser], ?_⟩
          simpa [updatesOf, writeFor, eq_comm] using hj
        | succ j => simp [updatesOf] at hj
    · have hl : lookupsOf (Call.select code
          (Outcome.returned { data := some R, error := false }) ::
          Call.insert (rowFor level R newUserId) f ::
          Call.update R.id (orZero R.balance + calculateCommissions level 4000)
            (orZero R.withdrawable_balance + calculateCommissions level 4000) g :: rest) =
          some R :: lookupsOf rest := by
        simp [lookupsOf, resolvedUser]
      have hi : insertsOf (Call.select code
          (Outcome.returned { data := some R, error := false }) ::
          Call.insert (rowFor level R newUserId) f ::
          Call.update R.id (orZero R.balance + calculateCommissions level 4000)
            (orZero R.withdrawable_balance + calculateCommissions level 4000) g :: rest) =
          rowFor level R newUserId :: insertsOf rest := by
        simp [insertsOf]
      have hu : updatesOf (Call.select code
          (Outcome.returned { data := some R, error := false }) ::
          Call.insert (rowFor level R newUserId) f ::
          Call.update R.id (orZero R.balance + calculateCommissions level 4000)
            (orZero R.withdrawable_balance + calculateCommissions level 4000) g :: rest) =
          writeFor level R :: updatesOf rest := by
        simp [updatesOf, writeFor]
      have hn : noThrow (Call.select code
          (Outcome.returned { data := some R, error := false }) ::
          Call.insert (rowFor level R newUserId) f ::
          Call.update R.id (orZero R.balance + calculateCommissions level 4000)
            (orZero R.withdrawable_balance + calculateCommissions level 4000) g :: rest) = true →
          noThrow rest = true := by
        intro h
        simp only [noThrow, List.all_cons, Bool.and_eq_true] at h
        exact h.2.2.2
      rw [hl, hi, hu]
      have hr : (∀ (j : Nat) (row : Referral), (insertsOf rest)[j]? = some row →
            ∃ R, (lookupsOf rest)[j]? = some (some R) ∧
              row = rowFor (level + 1 + j) R newUserId) ∧
          (∀ (j : Nat) (u : Nat × Int × Int), (updatesOf rest)[j]? = some u →
            ∃ R, (lookupsOf rest)[j]? = some (some R) ∧ u = writeFor (level + 1 + j) R) ∧
          (noThrow rest = true → ∀ (j : Nat) (R : User), (lookupsOf rest)[j]? = some (some R) →
            (updatesOf rest)[j]? = some (writeFor (level + 1 + j) R)) := by
        rcases hrest with ⟨-, rfl⟩ | ⟨next, -, -, hw⟩
        · simp [lookupsOf, updatesOf, insertsOf]
        · exact ih (level + 1) next rest hw
      obtain ⟨r1, r2, r3⟩ := hr
      refine ⟨?_, ?_, ?_⟩
      · intro j row hj
        cases j with
        | zero =>
          refine ⟨R, by simp, ?_⟩
          simpa [eq_comm] using hj
        | succ j =>
          rw [cast_succ_level]
          simpa using r1 j row (by simpa using hj)
      · intro j u hj
        cases j with
        | zero =>
          refine ⟨R, by simp, ?_⟩
          simpa [eq_comm] using hj
        | succ j =>
          rw [cast_succ_level]
          simpa using r2 j u (by simpa using hj)
      · intro hno j R2 hj
        cases j with
        | zero =>
          have : R = R2 := by simpa using hj
          subst this
          simp
        | succ j =>
          rw [cast_succ_level]
          simpa using r3 (hn hno) j R2 (by simpa using hj)

theorem insertedOf_subset (tr : List Call) : ∀ row ∈ insertedOf tr, row ∈ insertsOf tr := by
  intro row h
  simp only [insertedOf, insertsOf, List.mem_filterMap] at h ⊢
  obtain ⟨c, hc, hrow⟩ := h
  refine ⟨c, hc, ?_⟩
  rcases c with ⟨code, o⟩ | ⟨r, f⟩ | ⟨id, b, wb, f⟩
  · simp at hrow
  · cases f <;> simp at hrow ⊢
    exact hrow
  · simp at hrow

/-! ## The rows and the balance writes of each level -/

/-- C9: whatever calls fail, every row that `processReferralCommissions` appends to
`referrals`, and every row it passes to an insert, is the row of some level `L` among 1, 2, 3:
its `referrer_id` is the id of the user resolved at level `L`, its `referred_id` is
`newUserId`, its `level` is `L`, its `commission` is `calculateCommissions(L)` and `paid` is
true. -/
theorem inserted_rows_are_level_rows (w : World) (referrerCode : Option String)
    (newUserId : Nat) :
    ∃ rows, (processReferralCommissions referrerCode newUserId w).store.referrals =
        w.store.referrals ++ rows ∧
      ∀ row, row ∈ rows ∨
          row ∈ insertsOf (callsOf w (processReferralCommissions referrerCode newUserId w)) →
        ∃ (L : Nat) (R : User), 1 ≤ L ∧ L ≤ 3 ∧
          resolvedAt (callsOf w (processReferralCommissions referrerCode newUserId w)) L =
            some R ∧
          row = { referrer_id := R.id, referred_id := newUserId, level := L,
                  commission := calculateCommissions L 4000, paid := true } := by
  obtain ⟨tr, hrun, hshape⟩ := process_spec referrerCode newUserId w
  rw [hrun, callsOf_after]
  refine ⟨insertedOf tr, by rw [after_store, replay_referrals], ?_⟩
  intro row hrow
  have hmem : row ∈ insertsOf tr := by
    rcases hrow with h | h
    · exact insertedOf_subset tr row h
    · exact h
  rcases hshape with rfl | ⟨code, -, -, hw⟩
  · simp [insertsOf] at hmem
  · obtain ⟨j, hj⟩ := List.getElem?_of_mem hmem
    obtain ⟨R, hR, hrowR⟩ := (walkTrace_levels newUserId 3 1 code tr hw).1 j row hj
    have hlen := (walkTrace_counts newUserId 3 1 code tr hw).1
    have hjlt : j < (lookupsOf tr).length := by
      by_contra hcon
      rw [List.getElem?_eq_none (by omega)] at hR
      simp at hR
    refine ⟨j + 1, R, by omega, by omega, by simp [resolvedAt, hR], ?_⟩
    rw [hrowR]
    have : (1 : Int) + (j : Int) = ((j + 1 : Nat) : Int) := by push_cast; ring
    simp [rowFor, this]

theorem resolvedAt_succ {tr : List Call} {j : Nat} {R : User} :
    resolvedAt tr (j + 1) = some R ↔ (lookupsOf tr)[j]? = some (some R) := by
  simp only [resolvedAt]
  cases h : (lookupsOf tr)[j]? with
  | none => simp
  | some o => cases o <;> simp

theorem processAsync_run (referrerCode : Option String) (newUserId : Nat) (w : World) :
    processReferralCommissionsAsync referrerCode newUserId w =
      (Outcome.returned (), processReferralCommissions referrerCode newUserId w) := by
  cases referrerCode with
  | none => rfl
  | some code =>
    by_cases hcode : code = ""
    · subst hcode
      rfl
    · simp only [processReferralCommissionsAsync, processReferralCommissions, hcode, if_false,
        StoreM.tryCatch]
      rcases h : processReferralCommissionsBody code newUserId w with ⟨o, w1⟩
      cases o <;> rfl

theorem replay_append (s : Store) (tr1 tr2 : List Call) :
    replay s (tr1 ++ tr2) = replay (replay s tr1) tr2 := by
  simp [replay, List.foldl_append]

theorem commission_pos {L : Nat} (h1 : 1 ≤ L) (h3 : L ≤ 3) :
    0 < calculateCommissions L 4000 := by
  have : L = 1 ∨ L = 2 ∨ L = 3 := by omega
  rcases this with rfl | rfl | rfl <;> decide

/-! ## Failures inside the walk -/

/-- C11: whatever the store calls do (succeed, resolve to an error, throw), the awaited call
`processReferralCommissions(...)` returns normally; the tables it leaves are exactly the old
ones with the successful inserts and writes of the walk applied in order, so that the rows
appended by any initial part of the walk are still there at the end; and every balance write of
the walk sets a balance to the value read plus a positive commission, none takes a credit
back. -/
theorem never_raises_and_keeps_applied_levels (w : World) (referrerCode : Option String)
    (newUserId : Nat) :
    (processReferralCommissionsAsync referrerCode newUserId w).1 = Outcome.returned () ∧
    (processReferralCommissionsAsync referrerCode newUserId w).2 =
      processReferralCommissions referrerCode newUserId w ∧
    (processReferralCommissions referrerCode newUserId w).store =
      replay w.store (callsOf w (processReferralCommissions referrerCode newUserId w)) ∧
    (∀ tr1 tr2, callsOf w (processReferralCommissions referrerCode newUserId w) = tr1 ++ tr2 →
      (replay w.store tr1).referrals <+:
        (processReferralCommissions referrerCode newUserId w).store.referrals) ∧
    (∀ u ∈ updatesOf (callsOf w (processReferralCommissions referrerCode newUserId w)),
      ∃ (L : Nat) (R : User), 1 ≤ L ∧ L ≤ 3 ∧ u.1 = R.id ∧
        u.2.1 = orZero R.balance + calculateCommissions L 4000 ∧
        u.2.2 = orZero R.withdrawable_balance + calculateCommissions L 4000 ∧
        0 < calculateCommissions L 4000) := by
  obtain ⟨tr, hrun, hshape⟩ := process_spec referrerCode newUserId w
  rw [processAsync_run, hrun, callsOf_after]
  refine ⟨rfl, rfl, rfl, ?_, ?_⟩
  · intro tr1 tr2 h
    rw [after_store, h, replay_append, replay_referrals (replay w.store tr1) tr2]
    exact List.prefix_append _ _
  · intro u hu
    rcases hshape with rfl | ⟨code, -, -, hw⟩
    · simp [updatesOf] at hu
    · obtain ⟨j, hj⟩ := List.getElem?_of_mem hu
      obtain ⟨R, hR, huR⟩ := (walkTrace_levels newUserId 3 1 code tr hw).2.1 j u hj
      have hlen := (walkTrace_counts newUserId 3 1 code tr hw).1
      have hjlt : j < (lookupsOf tr).length := by
        by_contra hcon
        rw [List.getElem?_eq_none (by omega)] at hR
        simp at hR
      have hcast : (1 : Int) + (j : Int) = ((j + 1 : Nat) : Int) := by push_cast; ring
      rw [hcast] at huR
      refine ⟨j + 1, R, by omega, by omega, ?_, ?_, ?_, commission_pos (by omega) (by omega)⟩ <;>
        simp [huR, writeFor]

/-- C14: whatever the store calls do, the `referrals` table after the call is the table before
it followed by the rows appended: every row present before is still there, at the same place and
unchanged. -/
theorem referrals_only_appended (w : World) (referrerCode : Option String) (newUserId : Nat) :
    (∃ rows, (processReferralCommissions referrerCode newUserId w).store.referrals =
      w.store.referrals ++ rows) ∧
    ∀ i, i < w.store.referrals.length →
      (processReferralCommissions referrerCode newUserId w).store.referrals[i]? =
        w.store.referrals[i]? := by
  obtain ⟨tr, hrun, -⟩ := process_spec referrerCode newUserId w
  rw [hrun, after_store, replay_referrals]
  refine ⟨⟨insertedOf tr, rfl⟩, ?_⟩
  intro i hi
  exact List.getElem?_append_left hi

/-- C12 fails on the code: on the sample store, when the level-1 insert (call number 1)
resolves to `{ error }` the walk does not abort; it still writes the level-1 balances and goes
on to look up, insert and credit levels 2 and 3.  The same happens when the level-1 update
(call number 2) resolves to `{ error }`. -/
theorem failed_write_does_not_abort_walk :
    (callsOf (errorAt 1) (processReferralCommissions (some "A") 9 (errorAt 1))).length = 9 ∧
    updatesOf (callsOf (errorAt 1) (processReferralCommissions (some "A") 9 (errorAt 1))) =
      [(1, 1810, 1810), (2, 900, 900), (3, 500, 500)] ∧
    (processReferralCommissions (some "A") 9 (errorAt 1)).store.referrals =
      [{ referrer_id := 2, referred_id := 9, level := 2, commission := 900, paid := true },
       { referrer_id := 3, referred_id := 9, level := 3, commission := 500, paid := true }] ∧
    (callsOf (errorAt 2) (processReferralCommissions (some "A") 9 (errorAt 2))).length = 9 ∧
    lookupsOf (callsOf (errorAt 2) (processReferralCommissions (some "A") 9 (errorAt 2))) =
      [some userA, some userB, some userC] ∧
    (processReferralCommissions (some "A") 9 (errorAt 2)).store.referrals.length = 3 := by
  decide

theorem orZero_some (n : Int) : orZero (some n) = n := by
  simp only [orZero]
  split_ifs with h
  · exact h.symm
  · rfl

theorem creditId_id (id : Nat) (a : Int) (u : User) : (creditId id a u).id = u.id := by
  unfold creditId; split <;> rfl

theorem creditId_code (id : Nat) (a : Int) (u : User) :
    (creditId id a u).referral_code = u.referral_code := by
  unfold creditId; split <;> rfl

theorem creditId_referred_by (id : Nat) (a : Int) (u : User) :
    (creditId id a u).referred_by_code = u.referred_by_code := by
  unfold creditId; split <;> rfl

theorem creditId_balance (id : Nat) (a : Int) (u : User) :
    orZero (creditId id a u).balance = orZero u.balance + (if u.id = id then a else 0) := by
  unfold creditId
  split <;> simp [credit, orZero_some]

theorem creditId_withdrawable (id : Nat) (a : Int) (u : User) :
    orZero (creditId id a u).withdrawable_balance =
      orZero u.withdrawable_balance + (if u.id = id then a else 0) := by
  unfold creditId
  split <;> simp [credit, orZero_some]

theorem eq_of_id_eq {users : List User} (hnd : (users.map (fun u => u.id)).Nodup) {u v : User}
    (hu : u ∈ users) (hv : v ∈ users) (h : u.id = v.id) : u = v :=
  List.inj_on_of_nodup_map hnd hu hv h

theorem setBalances_eq_map_creditId {users : List User}
    (hnd : (users.map (fun u => u.id)).Nodup) {R : User} (hR : R ∈ users) (c : Int) :
    setBalances users R.id (orZero R.balance + c) (orZero R.withdrawable_balance + c) =
      users.map (creditId R.id c) := by
  unfold setBalances
  apply List.map_congr_left
  intro u hu
  by_cases h : u.id = R.id
  · have : u = R := eq_of_id_eq hnd hu hR h
    subst this
    simp [withBalances, creditId, credit]
  · simp [withBalances, creditId, h]

theorem map_creditId_ids (users : List User) (id : Nat) (a : Int) :
    (users.map (creditId id a)).map (fun u => u.id) = users.map (fun u => u.id) := by
  simp [List.map_map, Function.comp_def, creditId_id]

theorem single_map_creditId (users : List User) (id : Nat) (a : Int) (code : String) :
    single (users.map (creditId id a)) code =
      { data := (single users code).data.map (creditId id a),
        error := (single users code).error } := by
  unfold single
  have hf : (users.map (creditId id a)).filter (fun u => u.referral_code = some code) =
      (users.filter (fun u => u.referral_code = some code)).map (creditId id a) := by
    rw [List.filter_map]
    congr 1
    apply List.filter_congr
    intro u _
    simp [creditId_code]
  rw [hf]
  generalize users.filter (fun u => u.referral_code = some code) = l
  rcases l with _ | ⟨u, _ | ⟨v, l⟩⟩ <;> simp

theorem chainIds_map_creditId (users : List User) (id : Nat) (a : Int) :
    ∀ (fuel : Nat) (code : Option String),
      chainIds (users.map (creditId id a)) fuel code = chainIds users fuel code := by
  intro fuel
  induction fuel with
  | zero => intro code; rfl
  | succ fuel ih =>
    intro code
    cases code with
    | none => rfl
    | some c =>
      simp only [chainIds, single_map_creditId]
      split
      · rfl
      · cases hd : (single users c).data with
        | none => simp
        | some u => simp [creditId_id, creditId_referred_by, ih]

theorem payAll_ids (users : List User) (pays : List (Nat × Int)) :
    (payAll users pays).map (fun u => u.id) = users.map (fun u => u.id) := by
  induction pays generalizing users with
  | nil => rfl
  | cons p pays ih =>
    simp only [payAll, List.foldl_cons] at ih ⊢
    rw [ih, map_creditId_ids]

theorem chainIds_payAll (users : List User) (pays : List (Nat × Int)) (fuel : Nat)
    (code : Option String) : chainIds (payAll users pays) fuel code = chainIds users fuel code := by
  induction pays generalizing users with
  | nil => rfl
  | cons p pays ih =>
    simp only [payAll, List.foldl_cons] at ih ⊢
    rw [ih, chainIds_map_creditId]

theorem payAll_eq_map (users : List User) (pays : List (Nat × Int)) :
    payAll users pays = users.map (payUser pays) := by
  induction pays generalizing users with
  | nil =>
    have h : payUser [] = fun u => u := rfl
    simp [payAll, h]
  | cons p pays ih =>
    simp only [payAll, payUser, List.foldl_cons] at ih ⊢
    rw [ih, List.map_map]
    rfl

theorem payUser_id (pays : List (Nat × Int)) (u : User) : (payUser pays u).id = u.id := by
  induction pays generalizing u with
  | nil => rfl
  | cons p pays ih =>
    simp only [payUser, List.foldl_cons] at ih ⊢
    rw [ih, creditId_id]

theorem payUser_balance (pays : List (Nat × Int)) (u : User) :
    orZero (payUser pays u).balance = orZero u.balance + payTotal pays u.id ∧
    orZero (payUser pays u).withdrawable_balance =
      orZero u.withdrawable_balance + payTotal pays u.id := by
  induction pays generalizing u with
  | nil => simp [payUser, payTotal]
  | cons p pays ih =>
    have h := ih (creditId p.1 p.2 u)
    simp only [payUser, List.foldl_cons] at h ⊢
    rw [h.1, h.2, creditId_balance, creditId_withdrawable, creditId_id]
    simp only [payTotal, List.map_cons, List.sum_cons]
    constructor <;> ring

theorem walk_fault_free_store (newUserId : Nat) : ∀ (k : Nat) (level : Int) (code : String)
    (w : World), (∀ n, w.faults n = Fault.ok) → code ≠ "" →
      (w.store.users.map (fun u => u.id)).Nodup →
      (walk newUserId k level code w).2.store =
        { users := payAll w.store.users
            (paysFrom level (chainIds w.store.users k (some code))),
          referrals := w.store.referrals ++
            rowsFrom level newUserId (chainIds w.store.users k (some code)) } := by
  intro k
  induction k with
  | zero =>
    intro level code w _ _ _
    simp [walk, pure_run, chainIds, paysFrom, rowsFrom, payAll]
  | succ k ih =>
    intro level code w hfree hcode hnd
    simp only [walk, bind_run, chainIds, hcode, if_false]
    rw [select_ok code (hfree _)]
    have herr := single_error w.store.users code
    cases hd : (single w.store.users code).data with
    | none =>
      simp [hd, pure_run, after_store, replay, applyCall, paysFrom, rowsFrom, payAll]
    | some R =>
      rw [hd] at herr
      have hR : R ∈ w.store.users := (single_mem hd).1
      simp only [hd, herr, Option.isNone_some, bind_run]
      rw [insert_ok _ (by exact hfree _)]
      simp only [bind_run, after_after]
      rw [update_ok _ _ _ (by exact hfree _)]
      simp only [after_after]
      have hstore : (w.after ([Call.select code (Outcome.returned (single w.store.users code))] ++
          [Call.insert
            { referrer_id := R.id, referred_id := newUserId, level := level,
              commission := calculateCommissions level 4000, paid := true } Fault.ok] ++
          [Call.update R.id (orZero R.balance + calculateCommissions level 4000)
            (orZero R.withdrawable_balance + calculateCommissions level 4000) Fault.ok])).store =
          { users := w.store.users.map (creditId R.id (calculateCommissions level 4000)),
            referrals := w.store.referrals ++
              [{ referrer_id := R.id, referred_id := newUserId, level := level,
                 commission := calculateCommissions level 4000, paid := true }] } := by
        simp [after_store, replay, applyCall, setBalances_eq_map_creditId hnd hR]
      cases hby : R.referred_by_code with
      | none =>
        simp only [pure_run, hstore]
        cases k <;> simp [chainIds, paysFrom, rowsFrom, payAll]
      | some next =>
        by_cases hne : next = ""
        · subst hne
          simp only [bne_self_eq_false, Bool.false_eq_true, if_false, pure_run, hstore]
          cases k <;> simp [chainIds, paysFrom, rowsFrom, payAll]
        · have hb : (next != "") = true := by simpa using hne
          simp only [hb, if_true]
          rw [ih (level + 1) next _ (by exact fun n => hfree n) hne
            (by rw [hstore, map_creditId_ids]; exact hnd), hstore]
          simp [chainIds_map_creditId, paysFrom, rowsFrom, payAll]

theorem process_fault_free_store (w : World) (code : String) (newUserId : Nat)
    (hfree : ∀ n, w.faults n = Fault.ok) (hcode : code ≠ "")
    (hnd : (w.store.users.map (fun u => u.id)).Nodup) :
    (processReferralCommissions (some code) newUserId w).store =
      { users := payAll w.store.users (paysFrom 1 (chainIds w.store.users 3 (some code))),
        referrals := w.store.referrals ++
          rowsFrom 1 newUserId (chainIds w.store.users 3 (some code)) } := by
  simp only [processReferralCommissions, hcode, if_false, body_eq_walk]
  exact walk_fault_free_store newUserId 3 1 code w hfree hcode hnd

theorem process_faults (referrerCode : Option String) (newUserId : Nat) (w : World) :
    (processReferralCommissions referrerCode newUserId w).faults = w.faults := by
  obtain ⟨tr, hrun, -⟩ := process_spec referrerCode newUserId w
  rw [hrun]
  rfl
/-! ## Calling the walk twice -/

/-- C13: on a store where no call fails, user ids are unique and `referrerCode` resolves,
two calls in sequence with the same arguments append the rows of one call twice (and there is
at least one), and leave every user row with an increase of `balance` and of
`withdrawable_balance` (null read as 0) equal to twice the increase after one call. -/
theorem second_call_pays_again (w : World) (code : String) (newUserId : Nat)
    (hfree : ∀ n, w.faults n = Fault.ok) (hcode : code ≠ "")
    (hnd : (w.store.users.map (fun u => u.id)).Nodup)
    (hres : (single w.store.users code).data ≠ none) :
    (∃ rows, rows ≠ [] ∧
      (processReferralCommissions (some code) newUserId w).store.referrals =
        w.store.referrals ++ rows ∧
      (processReferralCommissions (some code) newUserId
        (processReferralCommissions (some code) newUserId w)).store.referrals =
        w.store.referrals ++ rows ++ rows) ∧
    (processReferralCommissions (some code) newUserId w).store.users.length =
      w.store.users.length ∧
    (processReferralCommissions (some code) newUserId
      (processReferralCommissions (some code) newUserId w)).store.users.length =
      w.store.users.length ∧
    ∀ (i : Nat) (u0 u1 u2 : User), w.store.users[i]? = some u0 →
      (processReferralCommissions (some code) newUserId w).store.users[i]? = some u1 →
      (processReferralCommissions (some code) newUserId
        (processReferralCommissions (some code) newUserId w)).store.users[i]? = some u2 →
      orZero u2.balance - orZero u0.balance = 2 * (orZero u1.balance - orZero u0.balance) ∧
      orZero u2.withdrawable_balance - orZero u0.withdrawable_balance =
        2 * (orZero u1.withdrawable_balance - orZero u0.withdrawable_balance) := by
  have h1 := process_fault_free_store w code newUserId hfree hcode hnd
  have hfree1 : ∀ n, (processReferralCommissions (some code) newUserId w).faults n = Fault.ok := by
    intro n
    rw [process_faults]
    exact hfree n
  have hnd1 : ((processReferralCommissions (some code) newUserId w).store.users.map
      (fun u => u.id)).Nodup := by
    rw [h1, payAll_ids]
    exact hnd
  have h2 := process_fault_free_store (processReferralCommissions (some code) newUserId w) code
    newUserId hfree1 hcode hnd1
  rw [h1] at h2
  simp only [chainIds_payAll] at h2
  rw [h1, h2]
  simp only [payAll_eq_map, List.length_map, List.getElem?_map]
  refine ⟨⟨rowsFrom 1 newUserId (chainIds w.store.users 3 (some code)), ?_, rfl, rfl⟩,
    trivial, trivial, ?_⟩
  · cases hd : (single w.store.users code).data with
    | none => exact absurd hd hres
    | some R => simp [chainIds, hcode, hd, rowsFrom]
  · intro i u0 u1 u2 h0 hu1 hu2
    rw [h0] at hu1 hu2
    simp only [Option.map_some', Option.some.injEq] at hu1 hu2
    subst hu1
    subst hu2
    have a := payUser_balance (paysFrom 1 (chainIds w.store.users 3 (some code))) u0
    have b := payUser_balance (paysFrom 1 (chainIds w.store.users 3 (some code)))
      (payUser (paysFrom 1 (chainIds w.store.users 3 (some code))) u0)
    rw [payUser_id] at b
    constructor
    · rw [b.1, a.1]; ring
    · rw [b.2, a.2]; ring

/-- Witness for C13 on the sample store: two activations of user 9 under the code of `A`. -/
theorem second_call_pays_again_witness :
    (∃ rows, rows ≠ [] ∧
      (processReferralCommissions (some "A") 9 sampleWorld).store.referrals =
        sampleWorld.store.referrals ++ rows ∧
      (processReferralCommissions (some "A") 9
        (processReferralCommissions (some "A") 9 sampleWorld)).store.referrals =
        sampleWorld.store.referrals ++ rows ++ rows) ∧
    (processReferralCommissions (some "A") 9 sampleWorld).store.users.length =
      sampleWorld.store.users.length ∧
    (processReferralCommissions (some "A") 9
      (processReferralCommissions (some "A") 9 sampleWorld)).store.users.length =
      sampleWorld.store.users.length ∧
    ∀ (i : Nat) (u0 u1 u2 : User), sampleWorld.store.users[i]? = some u0 →
      (processReferralCommissions (some "A") 9 sampleWorld).store.users[i]? = some u1 →
      (processReferralCommissions (some "A") 9
        (processReferralCommissions (some "A") 9 sampleWorld)).store.users[i]? = some u2 →
      orZero u2.balance - orZero u0.balance = 2 * (orZero u1.balance - orZero u0.balance) ∧
      orZero u2.withdrawable_balance - orZero u0.withdrawable_balance =
        2 * (orZero u1.withdrawable_balance - orZero u0.withdrawable_balance) :=
  second_call_pays_again sampleWorld "A" 9 (fun _ => rfl) (by decide) (by decide) (by decide)

theorem tryCatch_run {α : Type} (body handler : StoreM α) (w : World) :
    StoreM.tryCatch body handler w =
      match body w with
      | (Outcome.returned a, w1) => (Outcome.returned a, w1)
      | (Outcome.threw, w1) => handler w1 := rfl

theorem getUserReferrals_run (userId : Nat) (w : World) :
    getUserReferrals userId w =
      (Outcome.returned ((fetchedReferrals w userId).map (fun r =>
        { row := r.row, referred_user := r.referred_user, referredUser := r.referred_user })),
        w.consume) := by
  simp only [getUserReferrals, tryCatch_run, bind_run, selectReferralsOf, fetchedReferrals]
  cases w.nextFault <;> rfl

theorem filter_length_eq_qualifyingCount (rows : List JoinedReferral) :
    ((rows.map (fun r => UserReferral.mk r.row r.referred_user r.referred_user)).filter
      (fun r => r.row.level = 1 && referredUserActive r.referredUser)).length =
      qualifyingCount rows := by
  induction rows with
  | nil => rfl
  | cons r rows ih =>
    simp only [qualifyingCount, List.map_cons, List.filter_cons, List.countP_cons] at ih ⊢
    have hr : (decide (r.row.level = 1) && referredUserActive r.referred_user) =
        decide (r.row.level = 1 ∧
          r.referred_user.map (fun u => u.account_active) = some true) := by
      cases hu : r.referred_user with
      | none => simp [referredUserActive]
      | some u => cases ha : u.account_active <;> simp [referredUserActive, ha]
    rw [hr]
    split
    · simp [ih]
    · simp [ih]

theorem calculateBonusEligibility_run (userId : Nat) (w : World) :
    calculateBonusEligibility userId w =
      (Outcome.returned (eligibilityOf (qualifyingCount (fetchedReferrals w userId))),
        w.consume) := by
  simp only [calculateBonusEligibility, tryCatch_run, bind_run, getUserReferrals_run, pure_run,
    filter_length_eq_qualifyingCount]
  rfl

theorem fetchedReferrals_of_returned {w : World} {userId : Nat} {rows : List JoinedReferral}
    (h : (selectReferralsOf userId w).1 =
      Outcome.returned { data := some rows, error := false }) :
    fetchedReferrals w userId = rows ∧ rows = joinedReferrals w.store userId := by
  unfold selectReferralsOf at h
  unfold fetchedReferrals
  cases hf : w.nextFault <;> rw [hf] at h <;> simp at h ⊢
  exact ⟨h, h.symm⟩

/-! ## Bonus eligibility -/

/-- C15: when the query resolves to a list of rows, `calculateBonusEligibility` returns an
object whose `currentReferrals` is the number of rows of that list that have level 1 and a
joined referred user with `account_active` true; the list is that of the rows of `referrals`
whose `referrer_id` is `userId`. -/
theorem bonus_counts_active_level_one (w : World) (userId : Nat) (rows : List JoinedReferral)
    (h : (selectReferralsOf userId w).1 =
      Outcome.returned { data := some rows, error := false }) :
    (∃ b, (calculateBonusEligibility userId w).1 = Outcome.returned b ∧
      b.currentReferrals =
        rows.countP (fun r =>
          decide (r.row.level = 1 ∧
            r.referred_user.map (fun u => u.account_active) = some true))) ∧
    rows = joinedReferrals w.store userId := by
  obtain ⟨h1, h2⟩ := fetchedReferrals_of_returned h
  rw [calculateBonusEligibility_run, h1]
  exact ⟨⟨_, rfl, rfl⟩, h2⟩

/-- Witness for C15: user 1 has two qualifying referrals among five rows. -/
theorem bonus_counts_active_level_one_witness :
    (∃ b, (calculateBonusEligibility 1 (bonusWorld 2)).1 = Outcome.returned b ∧
      b.currentReferrals =
        (joinedReferrals (bonusStore 2) 1).countP (fun r =>
          decide (r.row.level = 1 ∧
            r.referred_user.map (fun u => u.account_active) = some true))) ∧
    joinedReferrals (bonusStore 2) 1 = joinedReferrals (bonusWorld 2).store 1 :=
  bonus_counts_active_level_one (bonusWorld 2) 1 (joinedReferrals (bonusStore 2) 1) rfl

/-- C16: for every store, fault schedule and user id, `calculateBonusEligibility` returns an
object with `targetReferrals` 15 and `bonusAmount` 700, whose `bonusEligible` is true exactly
when `currentReferrals` is at least 15. -/
theorem bonus_target_and_amount (w : World) (userId : Nat) :
    ∃ b, (calculateBonusEligibility userId w).1 = Outcome.returned b ∧
      b.targetReferrals = 15 ∧ b.bonusAmount = 700 ∧
      (b.bonusEligible = true ↔ b.currentReferrals ≥ 15) := by
  rw [calculateBonusEligibility_run]
  exact ⟨_, rfl, rfl, rfl, by simp [eligibilityOf]⟩

/-- C17: for every store, fault schedule and user id, the object returned has
`remainingReferrals` equal to `max 0 (15 - currentReferrals)`, never negative; with 14
qualifying referrals it is 1 and `bonusEligible` is false, with 15 it is 0 and `bonusEligible`
is true, with 20 it is 0; each of the three counts is reached on a sample store. -/
theorem bonus_remaining_referrals (w : World) (userId : Nat) :
    (∃ b, (calculateBonusEligibility userId w).1 = Outcome.returned b ∧
      b.remainingReferrals = max 0 (15 - b.currentReferrals) ∧
      0 ≤ b.remainingReferrals ∧
      (b.currentReferrals = 14 → b.bonusEligible = false ∧ b.remainingReferrals = 1) ∧
      (b.currentReferrals = 15 → b.bonusEligible = true ∧ b.remainingReferrals = 0) ∧
      (b.currentReferrals = 20 → b.bonusEligible = true ∧ b.remainingReferrals = 0)) ∧
    (calculateBonusEligibility 1 (bonusWorld 14)).1 = Outcome.returned
      { currentReferrals := 14, bonusEligible := false, bonusAmount := 700,
        remainingReferrals := 1, targetReferrals := 15 } ∧
    (calculateBonusEligibility 1 (bonusWorld 15)).1 = Outcome.returned
      { currentReferrals := 15, bonusEligible := true, bonusAmount := 700,
        remainingReferrals := 0, targetReferrals := 15 } ∧
    (calculateBonusEligibility 1 (bonusWorld 20)).1 = Outcome.returned
      { currentReferrals := 20, bonusEligible := true, bonusAmount := 700,
        remainingReferrals := 0, targetReferrals := 15 } := by
  refine ⟨?_, by decide, by decide, by decide⟩
  rw [calculateBonusEligibility_run]
  refine ⟨_, rfl, rfl, by simp [eligibilityOf], ?_, ?_, ?_⟩ <;>
    · intro h
      simp only [eligibilityOf] at h ⊢
      rw [h]
      decide

/-- C18: when the query of the referral rows throws or resolves to an error,
`calculateBonusEligibility` returns normally the object with 0 current referrals, not
eligible, bonus 700, 15 remaining and target 15, which is also what it returns when the query
succeeds with no row. -/
theorem bonus_defaults_on_failed_fetch (w : World) (userId : Nat)
    (h : w.nextFault ≠ Fault.ok) :
    (calculateBonusEligibility userId w).1 = Outcome.returned
      { currentReferrals := 0, bonusEligible := false, bonusAmount := 700,
        remainingReferrals := 15, targetReferrals := 15 } ∧
    ∀ (w2 : World) (userId2 : Nat), w2.nextFault = Fault.ok →
      joinedReferrals w2.store userId2 = [] →
      (calculateBonusEligibility userId2 w2).1 = Outcome.returned
        { currentReferrals := 0, bonusEligible := false, bonusAmount := 700,
          remainingReferrals := 15, targetReferrals := 15 } := by
  constructor
  · rw [calculateBonusEligibility_run]
    have : fetchedReferrals w userId = [] := by
      unfold fetchedReferrals
      cases hf : w.nextFault <;> simp_all
    rw [this]
    rfl
  · intro w2 userId2 hok hnil
    rw [calculateBonusEligibility_run]
    have : fetchedReferrals w2 userId2 = [] := by
      unfold fetchedReferrals
      rw [hok]
      exact hnil
    rw [this]
    rfl

/-- Witness for C18: the query (call number 0) resolves to an error on the sample store. -/
theorem bonus_defaults_on_failed_fetch_witness :
    (calculateBonusEligibility 1 (errorAt 0)).1 = Outcome.returned
      { currentReferrals := 0, bonusEligible := false, bonusAmount := 700,
        remainingReferrals := 15, targetReferrals := 15 } ∧
    ∀ (w2 : World) (userId2 : Nat), w2.nextFault = Fault.ok →
      joinedReferrals w2.store userId2 = [] →
      (calculateBonusEligibility userId2 w2).1 = Outcome.returned
        { currentReferrals := 0, bonusEligible := false, bonusAmount := 700,
          remainingReferrals := 15, targetReferrals := 15 } :=
  bonus_defaults_on_failed_fetch (errorAt 0) 1 (by decide)

/-! ## Account activation -/

/-- C19: whenever the update that sets `account_active` resolves to the updated user without
error, `simulateAccountActivation` reports success (it logs the updated user in, shows the
success toast and calls `onPaymentComplete` with the updated user), whatever the fates of the
calls of the commission walk that follows. -/
theorem activation_reports_success (w : World) (user updatedUser : User)
    (h : (activateUser user.id w).1 =
      Outcome.returned { data := some updatedUser, error := false }) :
    (simulateAccountActivation user w).1 =
      [UiEvent.setLoading true, UiEvent.authLogin updatedUser, UiEvent.toastPaymentSuccess,
        UiEvent.onPaymentComplete updatedUser, UiEvent.setLoading false] := by
  rcases hrun : activateUser user.id w with ⟨o, w1⟩
  rw [hrun] at h
  simp only at h
  subst h
  simp only [simulateAccountActivation, simulateAccountActivationBody, bind_run, hrun]
  by_cases ht : truthy updatedUser.referred_by_code = true
  · simp [ht, bind_run, processAsync_run, pure_run]
  · simp [ht, pure_run]

/-- Witness for C19: user `A` is activated on the sample store while every call of the
commission walk resolves to an error. -/
theorem activation_reports_success_witness :
    (simulateAccountActivation userA errorAfterFirst).1 =
      [UiEvent.setLoading true, UiEvent.authLogin userA, UiEvent.toastPaymentSuccess,
        UiEvent.onPaymentComplete userA, UiEvent.setLoading false] :=
  activation_reports_success errorAfterFirst userA userA (by decide)

/-! ## Registration -/

/-- C20 fails on the code: the forms of `alice` and of `Alice` (two usernames, two emails) both
pass `validateForm`, the second passes the existing-user check after the first is stored, and
the two rows get the same `referral_code`, `ALICE`; the lookup of that code by `.single()` then
resolves to an error, so neither of the two can be credited by the commission walk. -/
theorem registrations_share_a_referral_code :
    aliceForm.username ≠ aliceCapitalForm.username ∧
    validateForm aliceForm "+237" = true ∧
    validateForm aliceCapitalForm "+237" = true ∧
    (handleSubmit aliceForm "+237" emptyWorld).1 = some (newUserRow 1 aliceForm) ∧
    (handleSubmit aliceCapitalForm "+237" (handleSubmit aliceForm "+237" emptyWorld).2).1 =
      some (newUserRow 2 aliceCapitalForm) ∧
    (newUserRow 1 aliceForm).referral_code = some "ALICE" ∧
    (newUserRow 2 aliceCapitalForm).referral_code = some "ALICE" ∧
    generateReferralCode "alice" = generateReferralCode "Alice" ∧
    generateReferralCode "a b" = generateReferralCode "ab" ∧
    single
      (handleSubmit aliceCapitalForm "+237"
        (handleSubmit aliceForm "+237" emptyWorld).2).2.store.users "ALICE" =
      { data := none, error := true } := by
  decide

/-! ## Video credits and withdrawals -/

/-- C24: from the record it holds, null read as 0, `handleVideoWatched` builds a new channel
balance equal to the old one plus `amount`, a new `balance` equal to the old one plus `amount`,
and a new `withdrawable_balance` equal to the old one plus `amount` when the new channel balance
is at least 500 and to the old one otherwise, and writes no other column; the TikTok handler
is the YouTube handler with the two channel columns exchanged, and each handler passes that
object to the update of the row of the user. -/
theorem video_watch_updates (user : User) (videoId : String) (amount : Int) :
    YoutubeVideosPage.videoWatchedUpdates user amount =
      { balance := some (orZero user.balance + amount),
        withdrawable_balance :=
          some (if orZero user.youtube_balance + amount ≥ 500 then
            orZero user.withdrawable_balance + amount
          else orZero user.withdrawable_balance),
        youtube_balance := some (orZero user.youtube_balance + amount),
        tiktok_balance := none,
        total_withdrawals := none } ∧
    TikTokVideosPage.videoWatchedUpdates user amount =
      { balance := some (orZero user.balance + amount),
        withdrawable_balance :=
          some (if orZero user.tiktok_balance + amount ≥ 500 then
            orZero user.withdrawable_balance + amount
          else orZero user.withdrawable_balance),
        youtube_balance := none,
        tiktok_balance := some (orZero user.tiktok_balance + amount),
        total_withdrawals := none } ∧
    TikTokVideosPage.videoWatchedUpdates (swapChannels user) amount =
      swapChannelUpdates (YoutubeVideosPage.videoWatchedUpdates user amount) ∧
    (∀ w, YoutubeVideosPage.handleVideoWatched user videoId amount w =
      (updateUserRow user.id (YoutubeVideosPage.videoWatchedUpdates user amount) >>= fun r =>
        if r.error then StoreM.throw else pure r.data) w) ∧
    (∀ w, TikTokVideosPage.handleVideoWatched user videoId amount w =
      (updateUserRow user.id (TikTokVideosPage.videoWatchedUpdates user amount) >>= fun r =>
        if r.error then StoreM.throw else pure r.data) w) ∧
    ((YoutubeVideosPage.handleVideoWatched userA "sn3nlzbzQBU" 50 sampleWorld).2.store.users.map
      (fun u => (u.balance, u.withdrawable_balance, u.youtube_balance, u.tiktok_balance))) =
      [(some 60, some 10, some 50, some 0), (none, none, some 0, some 0),
        (some 0, some 0, some 0, some 0), (some 7, some 7, some 0, some 0)] := by
  refine ⟨rfl, rfl, rfl, fun _ => rfl, fun _ => rfl, by decide⟩

/-- C25: for each of the balance types `main`, `youtube` and `tiktok`, the object that
`handleWithdrawal` passes to the update has exactly two keys: the selected balance
(`withdrawable_balance`, `youtube_balance`, `tiktok_balance`) with its old value minus the
amount, and `total_withdrawals` with its old value plus the amount; `balance` and the two other
balances are not written, so the updated row keeps them. -/
theorem withdrawal_writes_two_fields (user : User) (amount : Int) :
    Withdrawal.balanceUpdates user "main" amount =
      { balance := none,
        withdrawable_balance := some (orZero user.withdrawable_balance - amount),
        youtube_balance := none,
        tiktok_balance := none,
        total_withdrawals := some (orZero user.total_withdrawals + amount) } ∧
    Withdrawal.balanceUpdates user "youtube" amount =
      { balance := none,
        withdrawable_balance := none,
        youtube_balance := some (orZero user.youtube_balance - amount),
        tiktok_balance := none,
        total_withdrawals := some (orZero user.total_withdrawals + amount) } ∧
    Withdrawal.balanceUpdates user "tiktok" amount =
      { balance := none,
        withdrawable_balance := none,
        youtube_balance := none,
        tiktok_balance := some (orZero user.tiktok_balance - amount),
        total_withdrawals := some (orZero user.total_withdrawals + amount) } ∧
    (applyUpdates (Withdrawal.balanceUpdates user "main" amount) user).balance = user.balance ∧
    (applyUpdates (Withdrawal.balanceUpdates user "main" amount) user).youtube_balance =
      user.youtube_balance ∧
    (applyUpdates (Withdrawal.balanceUpdates user "main" amount) user).tiktok_balance =
      user.tiktok_balance ∧
    (applyUpdates (Withdrawal.balanceUpdates user "youtube" amount) user).balance =
      user.balance ∧
    (applyUpdates (Withdrawal.balanceUpdates user "youtube" amount) user).withdrawable_balance =
      user.withdrawable_balance ∧
    (applyUpdates (Withdrawal.balanceUpdates user "youtube" amount) user).tiktok_balance =
      user.tiktok_balance ∧
    (applyUpdates (Withdrawal.balanceUpdates user "tiktok" amount) user).balance =
      user.balance ∧
    (applyUpdates (Withdrawal.balanceUpdates user "tiktok" amount) user).withdrawable_balance =
      user.withdrawable_balance ∧
    (applyUpdates (Withdrawal.balanceUpdates user "tiktok" amount) user).youtube_balance =
      user.youtube_balance ∧
    (Withdrawal.handleWithdrawal userA "main" 10 5
      { amount := some 7, method := "wave", phone := "+237600000001" } sampleWorld).1 =
      some { userA with withdrawable_balance := some 3, total_withdrawals := some 7 } := by
  refine ⟨?_, ?_, ?_, rfl, rfl, rfl, rfl, rfl, rfl, rfl, rfl, rfl, by decide⟩ <;>
    simp [Withdrawal.balanceUpdates]

/-- C29: when `validateWithdrawal` accepts, the amount, the method and the phone are filled
in and the amount `a` satisfies `a > 0`, `a ≥ minWithdrawal` and `a ≤ availableBalance`; so
when `availableBalance` is the selected balance of the user, as the component `Withdrawal` sets
it, the selected balance that `handleWithdrawal` writes is not negative. -/
theorem validated_withdrawal_keeps_balance_nonnegative (user : User) (balanceType : String)
    (withdrawalData : WithdrawalData) (minWithdrawal availableBalance : Int)
    (h : Withdrawal.validateWithdrawal withdrawalData minWithdrawal availableBalance = true) :
    ∃ a, withdrawalData.amount = some a ∧ withdrawalData.method ≠ "" ∧
      withdrawalData.phone ≠ "" ∧ 0 < a ∧ minWithdrawal ≤ a ∧ a ≤ availableBalance ∧
      (availableBalance = Withdrawal.availableBalance user balanceType →
        (balanceType = "main" →
          ∃ v, (Withdrawal.balanceUpdates user balanceType a).withdrawable_balance = some v ∧
            0 ≤ v) ∧
        (balanceType = "youtube" →
          ∃ v, (Withdrawal.balanceUpdates user balanceType a).youtube_balance = some v ∧
            0 ≤ v) ∧
        (balanceType = "tiktok" →
          ∃ v, (Withdrawal.balanceUpdates user balanceType a).tiktok_balance = some v ∧
            0 ≤ v)) := by
  unfold Withdrawal.validateWithdrawal at h
  cases ha : withdrawalData.amount with
  | none => simp [ha] at h
  | some a =>
    simp only [ha] at h
    split_ifs at h with h1 h2 h3 h4
    simp only [Bool.or_eq_true, decide_eq_true_eq, not_or] at h1
    refine ⟨a, rfl, h1.1, h1.2, by omega, by omega, by omega, ?_⟩
    intro hav
    refine ⟨?_, ?_, ?_⟩
    · intro hb
      subst hb
      refine ⟨orZero user.withdrawable_balance - a, by simp [Withdrawal.balanceUpdates], ?_⟩
      simp only [Withdrawal.availableBalance, if_true] at hav
      omega
    · intro hb
      subst hb
      refine ⟨orZero user.youtube_balance - a, by simp [Withdrawal.balanceUpdates], ?_⟩
      simp [Withdrawal.availableBalance] at hav
      omega
    · intro hb
      subst hb
      refine ⟨orZero user.tiktok_balance - a, by simp [Withdrawal.balanceUpdates], ?_⟩
      simp [Withdrawal.availableBalance] at hav
      omega

/-- Witness for C29: user `A` asks for 7 of a withdrawable balance of 10, the minimum
being 5. -/
theorem validated_withdrawal_keeps_balance_nonnegative_witness :
    ∃ a, (WithdrawalData.mk (some 7) "wave" "+237600000001").amount = some a ∧
      (WithdrawalData.mk (some 7) "wave" "+237600000001").method ≠ "" ∧
      (WithdrawalData.mk (some 7) "wave" "+237600000001").phone ≠ "" ∧ 0 < a ∧ 5 ≤ a ∧
      a ≤ 10 ∧
      (10 = Withdrawal.availableBalance userA "main" →
        ("main" = "main" →
          ∃ v, (Withdrawal.balanceUpdates userA "main" a).withdrawable_balance = some v ∧
            0 ≤ v) ∧
        ("main" = "youtube" →
          ∃ v, (Withdrawal.balanceUpdates userA "main" a).youtube_balance = some v ∧
            0 ≤ v) ∧
        ("main" = "tiktok" →
          ∃ v, (Withdrawal.balanceUpdates userA "main" a).tiktok_balance = some v ∧
            0 ≤ v)) :=
  validated_withdrawal_keeps_balance_nonnegative userA "main"
    (WithdrawalData.mk (some 7) "wave" "+237600000001") 5 10 (by decide)

theorem youtube_watchTimes_balances (u : User) (hy : orZero u.youtube_balance = 0)
    (hw : orZero u.withdrawable_balance = 0) (n : Nat) :
    orZero (YoutubeVideosPage.watchTimes n u).youtube_balance = 50 * (n : Int) ∧
    orZero (YoutubeVideosPage.watchTimes n u).withdrawable_balance =
      50 * max 0 ((n : Int) - 9) := by
  induction n with
  | zero => simp [YoutubeVideosPage.watchTimes, hy, hw]
  | succ n ih =>
    obtain ⟨ih1, ih2⟩ := ih
    simp only [YoutubeVideosPage.watchTimes, applyUpdates, written,
      YoutubeVideosPage.videoWatchedUpdates, YoutubeVideosPage.EARNING_AMOUNT, orZero_some, ih1,
      ih2]
    push_cast
    refine ⟨by ring, ?_⟩
    split_ifs with h
    · rw [max_eq_right (by omega), max_eq_right (by omega)]
      ring
    · rw [max_eq_left (by omega), max_eq_left (by omega)]

theorem tiktok_watchTimes_balances (u : User) (hy : orZero u.tiktok_balance = 0)
    (hw : orZero u.withdrawable_balance = 0) (n : Nat) :
    orZero (TikTokVideosPage.watchTimes n u).tiktok_balance = 50 * (n : Int) ∧
    orZero (TikTokVideosPage.watchTimes n u).withdrawable_balance =
      50 * max 0 ((n : Int) - 9) := by
  induction n with
  | zero => simp [TikTokVideosPage.watchTimes, hy, hw]
  | succ n ih =>
    obtain ⟨ih1, ih2⟩ := ih
    simp only [TikTokVideosPage.watchTimes, applyUpdates, written,
      TikTokVideosPage.videoWatchedUpdates, TikTokVideosPage.EARNING_AMOUNT, orZero_some, ih1,
      ih2]
    push_cast
    refine ⟨by ring, ?_⟩
    split_ifs with h
    · rw [max_eq_right (by omega), max_eq_right (by omega)]
      ring
    · rw [max_eq_left (by omega), max_eq_left (by omega)]

/-- C30: from a record whose channel balance and `withdrawable_balance` are 0 (or null), after
`n` successive video credits of 50 on one channel, each computed from the record the previous
one produced, the channel balance is `50 * n` and `withdrawable_balance` is
`50 * max 0 (n - 9)`, on the YouTube page and on the TikTok page alike: the credits that leave
the channel balance below 500 never reach `withdrawable_balance`. -/
theorem video_credits_after_n_watches (u : User) (n : Nat)
    (hy : orZero u.youtube_balance = 0) (ht : orZero u.tiktok_balance = 0)
    (hw : orZero u.withdrawable_balance = 0) :
    orZero (YoutubeVideosPage.watchTimes n u).youtube_balance = 50 * (n : Int) ∧
    orZero (YoutubeVideosPage.watchTimes n u).withdrawable_balance =
      50 * max 0 ((n : Int) - 9) ∧
    orZero (TikTokVideosPage.watchTimes n u).tiktok_balance = 50 * (n : Int) ∧
    orZero (TikTokVideosPage.watchTimes n u).withdrawable_balance =
      50 * max 0 ((n : Int) - 9) :=
  ⟨(youtube_watchTimes_balances u hy hw n).1, (youtube_watchTimes_balances u hy hw n).2,
    (tiktok_watchTimes_balances u ht hw n).1, (tiktok_watchTimes_balances u ht hw n).2⟩

/-- Witness for C30: twelve credits on the record of a freshly registered user. -/
theorem video_credits_after_n_watches_witness :
    orZero (YoutubeVideosPage.watchTimes 12 (newUserRow 1 aliceForm)).youtube_balance =
      50 * ((12 : Nat) : Int) ∧
    orZero (YoutubeVideosPage.watchTimes 12 (newUserRow 1 aliceForm)).withdrawable_balance =
      50 * max 0 (((12 : Nat) : Int) - 9) ∧
    orZero (TikTokVideosPage.watchTimes 12 (newUserRow 1 aliceForm)).tiktok_balance =
      50 * ((12 : Nat) : Int) ∧
    orZero (TikTokVideosPage.watchTimes 12 (newUserRow 1 aliceForm)).withdrawable_balance =
      50 * max 0 (((12 : Nat) : Int) - 9) :=
  video_credits_after_n_watches (newUserRow 1 aliceForm) 12 (by decide) (by decide) (by decide)

theorem calculateCommissions_nonneg (level amount : Int) :
    0 ≤ calculateCommissions level amount := by
  by_cases h1 : level = 1
  · subst h1; simp [calculateCommissions, commissions, List.lookup, orZero]
  · by_cases h2 : level = 2
    · subst h2; simp [calculateCommissions, commissions, List.lookup, orZero]
    · by_cases h3 : level = 3
      · subst h3; simp [calculateCommissions, commissions, List.lookup, orZero]
      · have e1 : (level == 1) = false := beq_false_of_ne h1
        have e2 : (level == 2) = false := beq_false_of_ne h2
        have e3 : (level == 3) = false := beq_false_of_ne h3
        simp [calculateCommissions, commissions, List.lookup, orZero, e1, e2, e3]

theorem select_resolved_mem {code : String} {w w1 : World} {R : User}
    (h : selectUserByCode code w =
      (Outcome.returned { data := some R, error := false }, w1)) : R ∈ w.store.users := by
  unfold selectUserByCode at h
  cases hf : w.nextFault <;> rw [hf] at h <;> simp at h
  exact (single_mem (by rw [h.1])).1

theorem after_select_users (w : World) (code : String) (o : Outcome SelectResult) :
    (w.after [Call.select code o]).store.users = w.store.users := rfl

theorem after_insert_users (w : World) (row : Referral) (f : Fault) :
    (w.after [Call.insert row f]).store.users = w.store.users := by
  cases f <;> rfl

theorem after_update_users (w : World) (id : Nat) (b wb : Int) (f : Fault) :
    (w.after [Call.update id b wb f]).store.users = w.store.users ∨
    (w.after [Call.update id b wb f]).store.users = setBalances w.store.users id b wb := by
  cases f
  · exact Or.inr rfl
  · exact Or.inl rfl
  · exact Or.inl rfl

theorem walk_invariant (newUserId : Nat) (Inv : List User → Prop)
    (hupd : ∀ (users : List User) (R : User) (c : Int), Inv users → R ∈ users → 0 ≤ c →
      Inv (setBalances users R.id (orZero R.balance + c) (orZero R.withdrawable_balance + c))) :
    ∀ (k : Nat) (level : Int) (code : String) (w : World),
      Inv w.store.users → Inv (walk newUserId k level code w).2.store.users := by
  intro k
  induction k with
  | zero =>
    intro level code w h
    simpa [walk, pure_run] using h
  | succ k ih =>
    intro level code w h
    simp only [walk, bind_run]
    obtain ⟨o, ho⟩ := select_spec code w
    rw [ho]
    rcases o with ⟨⟨data, err⟩⟩ | _
    · cases data with
      | none => simpa [pure_run] using h
      | some R =>
        cases err with
        | true => simpa [pure_run] using h
        | false =>
          have hR : R ∈ w.store.users := select_resolved_mem ho
          simp only [bind_run]
          obtain ⟨f, hf⟩ := insert_spec (rowFor level R newUserId)
            (w.after [Call.select code (Outcome.returned { data := some R, error := false })])
          simp only [rowFor] at hf
          rw [hf]
          have h1 : Inv ((w.after [Call.select code
              (Outcome.returned { data := some R, error := false })]).after
              [Call.insert (rowFor level R newUserId) f]).store.users := by
            rw [after_insert_users, after_select_users]
            exact h
          by_cases hft : f = Fault.throws
          · subst hft
            simpa using h1
          · simp only [hft, if_false, bind_run]
            obtain ⟨g, hg⟩ := update_spec R.id
              (orZero R.balance + calculateCommissions level 4000)
              (orZero R.withdrawable_balance + calculateCommissions level 4000)
              ((w.after [Call.select code
                (Outcome.returned { data := some R, error := false })]).after
                [Call.insert (rowFor level R newUserId) f])
            simp only [rowFor] at hg h1
            rw [hg]
            have h2 : Inv ((((w.after [Call.select code
                (Outcome.returned { data := some R, error := false })]).after
                [Call.insert
                  { referrer_id := R.id, referred_id := newUserId, level := level,
                    commission := calculateCommissions level 4000, paid := true } f]).after
                [Call.update R.id (orZero R.balance + calculateCommissions level 4000)
                  (orZero R.withdrawable_balance + calculateCommissions level 4000)
                  g]).store.users) := by
              rcases after_update_users ((w.after [Call.select code
                (Outcome.returned { data := some R, error := false })]).after
                [Call.insert
                  { referrer_id := R.id, referred_id := newUserId, level := level,
                    commission := calculateCommissions level 4000, paid := true } f]) R.id
                (orZero R.balance + calculateCommissions level 4000)
                (orZero R.withdrawable_balance + calculateCommissions level 4000) g with e | e
              · rw [e]
                exact h1
              · rw [e, after_insert_users, after_select_users]
                exact hupd _ R _ h hR (calculateCommissions_nonneg level 4000)
            by_cases hgt : g = Fault.throws
            · subst hgt
              simpa using h2
            · simp only [hgt, if_false]
              cases hrb : R.referred_by_code with
              | none => simpa [pure_run] using h2
              | some next =>
                by_cases hne : next = ""
                · subst hne
                  simpa [pure_run] using h2
                · have hb : (next != "") = true := by simpa using hne
                  simp only [hb, if_true]
                  exact ih (level + 1) next _ h2
    · simpa using h

theorem process_invariant (Inv : List User → Prop)
    (hupd : ∀ (users : List User) (R : User) (c : Int), Inv users → R ∈ users → 0 ≤ c →
      Inv (setBalances users R.id (orZero R.balance + c) (orZero R.withdrawable_balance + c)))
    (referrerCode : Option String) (newUserId : Nat) (w : World) (h : Inv w.store.users) :
    Inv (processReferralCommissions referrerCode newUserId w).store.users := by
  cases referrerCode with
  | none => simpa [processReferralCommissions] using h
  | some code =>
    by_cases hcode : code = ""
    · simpa [processReferralCommissions, hcode] using h
    · simp only [processReferralCommissions, hcode, if_false, body_eq_walk]
      exact walk_invariant newUserId Inv hupd 3 1 code w h

theorem withBalances_le (R u : User) (c : Int) (hR : WithdrawableLeBalance R)
    (hu : WithdrawableLeBalance u) :
    WithdrawableLeBalance
      (withBalances R.id (orZero R.balance + c) (orZero R.withdrawable_balance + c) u) := by
  unfold withBalances
  split
  · simp only [WithdrawableLeBalance, orZero_some] at hR ⊢
    omega
  · exact hu

/-! ## Invariants of the balances -/

/-- C22: only a withdrawal debit lowers `balance` or `withdrawable_balance` (null read as
0).  On a table with unique user ids and whatever calls fail, `processReferralCommissions`
leaves the same users in the same order, each with both fields at least as large as before;
the object a video credit of a non-negative amount writes has a `balance` and a
`withdrawable_balance` at least as large as the values read from the record; and the object a
withdrawal writes has no `balance` key, so the row keeps its `balance`. -/
theorem balances_never_decrease (w : World) (referrerCode : Option String) (newUserId : Nat)
    (u : User) (amount a : Int) (balanceType : String)
    (hnd : (w.store.users.map (fun v => v.id)).Nodup) (hamount : 0 ≤ amount) :
    ((processReferralCommissions referrerCode newUserId w).store.users.length =
        w.store.users.length ∧
      ∀ (i : Nat) (u0 u1 : User), w.store.users[i]? = some u0 →
        (processReferralCommissions referrerCode newUserId w).store.users[i]? = some u1 →
        u1.id = u0.id ∧ orZero u0.balance ≤ orZero u1.balance ∧
          orZero u0.withdrawable_balance ≤ orZero u1.withdrawable_balance) ∧
    (∃ b wb, (YoutubeVideosPage.videoWatchedUpdates u amount).balance = some b ∧
      (YoutubeVideosPage.videoWatchedUpdates u amount).withdrawable_balance = some wb ∧
      orZero u.balance ≤ b ∧ orZero u.withdrawable_balance ≤ wb) ∧
    (∃ b wb, (TikTokVideosPage.videoWatchedUpdates u amount).balance = some b ∧
      (TikTokVideosPage.videoWatchedUpdates u amount).withdrawable_balance = some wb ∧
      orZero u.balance ≤ b ∧ orZero u.withdrawable_balance ≤ wb) ∧
    (Withdrawal.balanceUpdates u balanceType a).balance = none ∧
    (applyUpdates (Withdrawal.balanceUpdates u balanceType a) u).balance = u.balance := by
  refine ⟨?_, ?_, ?_, ?_, ?_⟩
  · have h := process_invariant
      (fun users => (users.map (fun v => v.id)).Nodup ∧
        users.length = w.store.users.length ∧
        ∀ (i : Nat) (u0 u1 : User), w.store.users[i]? = some u0 → users[i]? = some u1 →
          u1.id = u0.id ∧ orZero u0.balance ≤ orZero u1.balance ∧
            orZero u0.withdrawable_balance ≤ orZero u1.withdrawable_balance) ?_
      referrerCode newUserId w ⟨hnd, rfl, ?_⟩
    · exact ⟨h.2.1, h.2.2⟩
    · intro users R c ⟨hn, hlen, hpt⟩ hR hc
      rw [setBalances_eq_map_creditId hn hR c]
      refine ⟨by rw [map_creditId_ids]; exact hn, by rw [List.length_map]; exact hlen, ?_⟩
      intro i u0 u1 h0 h1
      rw [List.getElem?_map] at h1
      cases hv : users[i]? with
      | none => simp [hv] at h1
      | some v =>
        simp only [hv, Option.map_some', Option.some.injEq] at h1
        subst h1
        obtain ⟨e1, e2, e3⟩ := hpt i u0 v h0 hv
        rw [creditId_id, creditId_balance, creditId_withdrawable]
        refine ⟨e1, ?_, ?_⟩ <;> split_ifs <;> omega
    · intro i u0 u1 h0 h1
      rw [h0] at h1
      simp only [Option.some.injEq] at h1
      subst h1
      exact ⟨rfl, le_refl _, le_refl _⟩
  · refine ⟨_, _, rfl, rfl, ?_, ?_⟩
    · omega
    · split_ifs <;> omega
  · refine ⟨_, _, rfl, rfl, ?_, ?_⟩
    · omega
    · split_ifs <;> omega
  · simp only [Withdrawal.balanceUpdates]
    split_ifs <;> rfl
  · have hb : (Withdrawal.balanceUpdates u balanceType a).balance = none := by
      simp only [Withdrawal.balanceUpdates]
      split_ifs <;> rfl
    simp [applyUpdates, written, hb]

/-- Witness for C22 on the sample store, with the level-2 lookup resolving to an error. -/
theorem balances_never_decrease_witness :
    ((processReferralCommissions (some "A") 9 (errorAt 3)).store.users.length =
        (errorAt 3).store.users.length ∧
      ∀ (i : Nat) (u0 u1 : User), (errorAt 3).store.users[i]? = some u0 →
        (processReferralCommissions (some "A") 9 (errorAt 3)).store.users[i]? = some u1 →
        u1.id = u0.id ∧ orZero u0.balance ≤ orZero u1.balance ∧
          orZero u0.withdrawable_balance ≤ orZero u1.withdrawable_balance) ∧
    (∃ b wb, (YoutubeVideosPage.videoWatchedUpdates userA 50).balance = some b ∧
      (YoutubeVideosPage.videoWatchedUpdates userA 50).withdrawable_balance = some wb ∧
      orZero userA.balance ≤ b ∧ orZero userA.withdrawable_balance ≤ wb) ∧
    (∃ b wb, (TikTokVideosPage.videoWatchedUpdates userA 50).balance = some b ∧
      (TikTokVideosPage.videoWatchedUpdates userA 50).withdrawable_balance = some wb ∧
      orZero userA.balance ≤ b ∧ orZero userA.withdrawable_balance ≤ wb) ∧
    (Withdrawal.balanceUpdates userA "main" 7).balance = none ∧
    (applyUpdates (Withdrawal.balanceUpdates userA "main" 7) userA).balance = userA.balance :=
  balances_never_decrease (errorAt 3) (some "A") 9 userA 50 7 "main" (by decide) (by decide)

theorem chainIds_mem (users : List User) : ∀ (fuel : Nat) (code : Option String),
    ∀ i ∈ chainIds users fuel code, ∃ u ∈ users, u.id = i := by
  intro fuel
  induction fuel with
  | zero => intro code i hi; simp [chainIds] at hi
  | succ fuel ih =>
    intro code i hi
    cases code with
    | none => simp [chainIds] at hi
    | some c =>
      simp only [chainIds] at hi
      split_ifs at hi with hc
      · simp at hi
      · cases hd : (single users c).data with
        | none => simp [hd] at hi
        | some v =>
          simp only [hd, List.mem_cons] at hi
          rcases hi with rfl | hi
          · exact ⟨v, (single_mem hd).1, rfl⟩
          · exact ih _ i hi

theorem paysFrom_mem (level : Int) (ids : List Nat) :
    ∀ p ∈ paysFrom level ids, p.1 ∈ ids := by
  induction ids generalizing level with
  | nil => intro p hp; simp [paysFrom] at hp
  | cons id ids ih =>
    intro p hp
    simp only [paysFrom, List.mem_cons] at hp
    rcases hp with rfl | hp
    · simp
    · exact List.mem_cons_of_mem _ (ih (level + 1) p hp)

theorem rowsFrom_commission_sum (level : Int) (newUserId : Nat) (ids : List Nat) :
    ((rowsFrom level newUserId ids).map (fun r => r.commission)).sum =
      ((paysFrom level ids).map (fun p => p.2)).sum := by
  induction ids generalizing level with
  | nil => rfl
  | cons id ids ih => simp [rowsFrom, paysFrom, ih]

theorem sum_indicator {users : List User} (hnd : (users.map (fun u => u.id)).Nodup) (i : Nat)
    (a : Int) (hi : ∃ u ∈ users, u.id = i) :
    (users.map (fun u => if u.id = i then a else 0)).sum = a := by
  induction users with
  | nil => simp at hi
  | cons v vs ih =>
    simp only [List.map_cons, List.nodup_cons, List.mem_map, not_exists, not_and] at hnd
    simp only [List.map_cons, List.sum_cons]
    by_cases hv : v.id = i
    · have hz : (vs.map (fun u => if u.id = i then a else 0)).sum = 0 := by
        apply List.sum_eq_zero
        intro x hx
        simp only [List.mem_map] at hx
        obtain ⟨u, hu, rfl⟩ := hx
        have : u.id ≠ i := fun h => hnd.1 u hu (h.trans hv.symm)
        simp [this]
      simp [hv, hz]
    · have hi2 : ∃ u ∈ vs, u.id = i := by
        obtain ⟨u, hu, hui⟩ := hi
        simp only [List.mem_cons] at hu
        rcases hu with rfl | hu
        · exact absurd hui hv
        · exact ⟨u, hu, hui⟩
      simp [hv, ih hnd.2 hi2]

theorem sum_payTotal {users : List User} (hnd : (users.map (fun u => u.id)).Nodup)
    (pays : List (Nat × Int)) (hp : ∀ p ∈ pays, ∃ u ∈ users, u.id = p.1) :
    (users.map (fun u => payTotal pays u.id)).sum = (pays.map (fun p => p.2)).sum := by
  induction pays with
  | nil => simp [payTotal]
  | cons p pays ih =>
    have h1 : (users.map (fun u => payTotal (p :: pays) u.id)).sum =
        (users.map (fun u => if u.id = p.1 then p.2 else 0)).sum +
          (users.map (fun u => payTotal pays u.id)).sum := by
      rw [← List.sum_map_add]
      rfl
    rw [h1, sum_indicator hnd p.1 p.2 (hp p (List.mem_cons_self _ _)),
      ih (fun q hq => hp q (List.mem_cons_of_mem _ hq))]
    simp

theorem sum_payUser (users : List User) (pays : List (Nat × Int)) :
    ((users.map (payUser pays)).map (fun u => orZero u.balance)).sum =
      (users.map (fun u => orZero u.balance)).sum +
        (users.map (fun u => payTotal pays u.id)).sum ∧
    ((users.map (payUser pays)).map (fun u => orZero u.withdrawable_balance)).sum =
      (users.map (fun u => orZero u.withdrawable_balance)).sum +
        (users.map (fun u => payTotal pays u.id)).sum := by
  constructor
  · rw [← List.sum_map_add, List.map_map]
    congr 1
    apply List.map_congr_left
    intro u _
    exact (payUser_balance pays u).1
  · rw [← List.sum_map_add, List.map_map]
    congr 1
    apply List.map_congr_left
    intro u _
    exact (payUser_balance pays u).2

/-! ## Totals paid by one call -/

/-- C26: on a store where no call fails and user ids are unique, chains that meet the same
user at several levels included, one call of `processReferralCommissions` keeps the same users
in the same order, and the total of `balance` over all users (null read as 0) grows by exactly
the sum of the `commission` fields of the rows the call inserted; the same holds for
`withdrawable_balance`. -/
theorem credits_sum_to_commissions (w : World) (referrerCode : Option String)
    (newUserId : Nat) (hfree : ∀ n, w.faults n = Fault.ok)
    (hnd : (w.store.users.map (fun u => u.id)).Nodup) :
    ∃ rows, (processReferralCommissions referrerCode newUserId w).store.referrals =
        w.store.referrals ++ rows ∧
      (processReferralCommissions referrerCode newUserId w).store.users.map (fun u => u.id) =
        w.store.users.map (fun u => u.id) ∧
      ((processReferralCommissions referrerCode newUserId w).store.users.map
          (fun u => orZero u.balance)).sum -
        (w.store.users.map (fun u => orZero u.balance)).sum =
        (rows.map (fun r => r.commission)).sum ∧
      ((processReferralCommissions referrerCode newUserId w).store.users.map
          (fun u => orZero u.withdrawable_balance)).sum -
        (w.store.users.map (fun u => orZero u.withdrawable_balance)).sum =
        (rows.map (fun r => r.commission)).sum := by
  cases referrerCode with
  | none => exact ⟨[], by simp [processReferralCommissions]⟩
  | some code =>
    by_cases hcode : code = ""
    · exact ⟨[], by simp [processReferralCommissions, hcode]⟩
    · rw [process_fault_free_store w code newUserId hfree hcode hnd]
      refine ⟨rowsFrom 1 newUserId (chainIds w.store.users 3 (some code)), rfl, ?_, ?_, ?_⟩
      · exact payAll_ids _ _
      · simp only [payAll_eq_map]
        rw [(sum_payUser _ _).1, rowsFrom_commission_sum, sum_payTotal hnd]
        · ring
        · intro p hp
          exact chainIds_mem _ _ _ _ (paysFrom_mem _ _ p hp)
      · simp only [payAll_eq_map]
        rw [(sum_payUser _ _).2, rowsFrom_commission_sum, sum_payTotal hnd]
        · ring
        · intro p hp
          exact chainIds_mem _ _ _ _ (paysFrom_mem _ _ p hp)

/-- Witness for C26 on the sample store. -/
theorem credits_sum_to_commissions_witness :
    ∃ rows, (processReferralCommissions (some "A") 9 sampleWorld).store.referrals =
        sampleWorld.store.referrals ++ rows ∧
      (processReferralCommissions (some "A") 9 sampleWorld).store.users.map (fun u => u.id) =
        sampleWorld.store.users.map (fun u => u.id) ∧
      ((processReferralCommissions (some "A") 9 sampleWorld).store.users.map
          (fun u => orZero u.balance)).sum -
        (sampleWorld.store.users.map (fun u => orZero u.balance)).sum =
        (rows.map (fun r => r.commission)).sum ∧
      ((processReferralCommissions (some "A") 9 sampleWorld).store.users.map
          (fun u => orZero u.withdrawable_balance)).sum -
        (sampleWorld.store.users.map (fun u => orZero u.withdrawable_balance)).sum =
        (rows.map (fun r => r.commission)).sum :=
  credits_sum_to_commissions sampleWorld (some "A") 9 (fun _ => rfl) (by decide)

theorem walkTrace_commission_sum (newUserId : Nat) : ∀ (k : Nat) (level : Int) (code : String)
    (tr : List Call), WalkTrace newUserId k level code tr →
      ((insertedOf tr).map (fun r => r.commission)).sum ≤
        ((levelsFrom level k).map (fun L => calculateCommissions L 4000)).sum := by
  intro k
  induction k with
  | zero =>
    intro level code tr h
    simp only [WalkTrace] at h
    subst h
    simp [insertedOf, levelsFrom]
  | succ k ih =>
    intro level code tr h
    have hc := calculateCommissions_nonneg level 4000
    have hrest : 0 ≤ ((levelsFrom (level + 1) k).map
        (fun L => calculateCommissions L 4000)).sum := by
      apply List.sum_nonneg
      intro x hx
      simp only [List.mem_map] at hx
      obtain ⟨L, -, rfl⟩ := hx
      exact calculateCommissions_nonneg L 4000
    simp only [WalkTrace] at h
    simp only [levelsFrom, List.map_cons, List.sum_cons]
    rcases h with ⟨o, -, rfl⟩ | ⟨R, rfl⟩ | ⟨R, f, hf, rfl⟩ | ⟨R, f, g, rest, hf, hg, rfl, hrest2⟩
    · simp only [insertedOf, List.filterMap_cons, List.filterMap_nil, List.map_nil,
        List.sum_nil]
      omega
    · simp only [insertedOf, List.filterMap_cons, List.filterMap_nil, List.map_nil,
        List.sum_nil]
      omega
    · cases f <;> simp [insertedOf, rowFor] <;> omega
    · have hr : ((insertedOf rest).map (fun r => r.commission)).sum ≤
          ((levelsFrom (level + 1) k).map (fun L => calculateCommissions L 4000)).sum := by
        rcases hrest2 with ⟨-, rfl⟩ | ⟨next, -, -, hw⟩
        · simpa [insertedOf] using hrest
        · exact ih (level + 1) next rest hw
      cases f <;> simp [insertedOf, rowFor] <;> simp only [insertedOf] at hr <;> omega

/-- C28: whatever the store and whatever calls fail, the `commission` fields of the rows that
one call of `processReferralCommissions` inserts add up to at most `1800 + 900 + 500 = 3200`,
which is less than the affiliation fee of 4000 written on the row of every new user. -/
theorem total_commission_below_fee (w : World) (referrerCode : Option String)
    (newUserId : Nat) :
    (∃ rows, (processReferralCommissions referrerCode newUserId w).store.referrals =
        w.store.referrals ++ rows ∧
      (rows.map (fun r => r.commission)).sum ≤ 3200) ∧
    calculateCommissions 1 4000 + calculateCommissions 2 4000 + calculateCommissions 3 4000 =
      3200 ∧
    (3200 : Int) < affiliationFee := by
  refine ⟨?_, by decide, by decide⟩
  obtain ⟨tr, hrun, hshape⟩ := process_spec referrerCode newUserId w
  rw [hrun, after_store, replay_referrals]
  refine ⟨insertedOf tr, rfl, ?_⟩
  rcases hshape with rfl | ⟨code, -, -, hw⟩
  · simp [insertedOf]
  · have h := walkTrace_commission_sum newUserId 3 1 code tr hw
    have e : ((levelsFrom 1 3).map (fun L => calculateCommissions L 4000)).sum = 3200 := by
      decide
    rw [e] at h
    exact h

/-- C27 as stated fails: ten YouTube credits of 50 on the record of a freshly registered user
give a channel balance of 500 and a `balance` of 500, and the tenth credit is also added to
`withdrawable_balance`, so the four fields add up to 550. -/
theorem claimable_exceeds_balance_after_ten_watches :
    claimable (newUserRow 1 aliceForm) = 0 ∧
    orZero (newUserRow 1 aliceForm).balance = 0 ∧
    claimable (YoutubeVideosPage.watchTimes 10 (newUserRow 1 aliceForm)) = 550 ∧
    orZero (YoutubeVideosPage.watchTimes 10 (newUserRow 1 aliceForm)).balance = 500 ∧
    ¬ claimable (YoutubeVideosPage.watchTimes 10 (newUserRow 1 aliceForm)) ≤
      orZero (YoutubeVideosPage.watchTimes 10 (newUserRow 1 aliceForm)).balance := by
  decide

theorem le_foldl_max (l : List Nat) : ∀ (init : Nat),
    init ≤ l.foldl max init ∧ ∀ x ∈ l, x ≤ l.foldl max init := by
  induction l with
  | nil => intro init; simp
  | cons y l ih =>
    intro init
    obtain ⟨h1, h2⟩ := ih (max init y)
    simp only [List.foldl_cons, List.mem_cons]
    refine ⟨le_trans (le_max_left _ _) h1, ?_⟩
    intro x hx
    rcases hx with rfl | hx
    · exact le_trans (le_max_right _ _) h1
    · exact h2 x hx

theorem lt_freshId {users : List User} {u : User} (h : u ∈ users) : u.id < freshId users := by
  unfold freshId
  have := (le_foldl_max (users.map (fun u => u.id)) 0).2 u.id (List.mem_map_of_mem _ h)
  omega

theorem handleSubmit_users (formData : RegistrationForm) (dial : String) (w : World) :
    (handleSubmit formData dial w).2.store.users = w.store.users ∨
    (handleSubmit formData dial w).2.store.users =
      w.store.users ++ [newUserRow (freshId w.store.users) formData] := by
  have hsel : ∀ w0 : World, ∃ o, selectExistingUser formData.email formData.username w0 =
      (o, w0.consume) := by
    intro w0
    unfold selectExistingUser
    split
    · exact ⟨_, rfl⟩
    · exact ⟨_, rfl⟩
    · split <;> exact ⟨_, rfl⟩
  have hins : ∀ w0 : World,
      ((insertUser formData >>= fun created =>
        if created.error = true then StoreM.throw else pure created.data) w0).2.store.users =
        w0.store.users ∨
      ((insertUser formData >>= fun created =>
        if created.error = true then StoreM.throw else pure created.data) w0).2.store.users =
        w0.store.users ++ [newUserRow (freshId w0.store.users) formData] := by
    intro w0
    simp only [bind_run, insertUser]
    cases w0.nextFault
    · right; rfl
    · left; rfl
    · left; rfl
  unfold handleSubmit
  split_ifs with hv
  · simp only [handleSubmitBody, bind_run]
    obtain ⟨o, ho⟩ := hsel w
    rw [ho]
    rcases o with ⟨⟨data, code⟩⟩ | _
    · cases code with
      | none =>
        cases data with
        | some d => left; rfl
        | none =>
          rcases hins w.consume with h | h
          · left
            rcases hr : (insertUser formData >>= fun created =>
              if created.error = true then StoreM.throw else pure created.data) w.consume
              with ⟨o2, w2⟩
            rw [hr] at h
            cases o2 <;> simpa [hr] using h
          · right
            rcases hr : (insertUser formData >>= fun created =>
              if created.error = true then StoreM.throw else pure created.data) w.consume
              with ⟨o2, w2⟩
            rw [hr] at h
            cases o2 <;> simpa [hr] using h
      | some c =>
        by_cases hc : c = "PGRST116"
        · subst hc
          cases data with
          | some d => left; rfl
          | none =>
            rcases hins w.consume with h | h
            · left
              rcases hr : (insertUser formData >>= fun created =>
                if created.error = true then StoreM.throw else pure created.data) w.consume
                with ⟨o2, w2⟩
              rw [hr] at h
              cases o2 <;> simpa [hr] using h
            · right
              rcases hr : (insertUser formData >>= fun created =>
                if created.error = true then StoreM.throw else pure created.data) w.consume
                with ⟨o2, w2⟩
              rw [hr] at h
              cases o2 <;> simpa [hr] using h
        · left
          simp [hc, StoreM.throw]
          rfl
    · left; rfl
  · left; rfl

theorem ordered_nil : ReferralsOrdered [] := by
  refine ⟨by simp, ?_, ?_⟩ <;> intro u hu <;> simp at hu

theorem ordered_append {users : List User} (formData : RegistrationForm)
    (hinv : ReferralsOrdered users)
    (href : formData.referralCode = "" ∨
      ∃ v ∈ users, v.referral_code = some formData.referralCode)
    (hnew : ∀ v ∈ users, v.referral_code ≠ some (generateReferralCode formData.username)) :
    ReferralsOrdered (users ++ [newUserRow (freshId users) formData]) := by
  obtain ⟨h0, h1, h2⟩ := hinv
  refine ⟨?_, ?_, ?_⟩
  · rw [List.map_append, List.nodup_append]
    refine ⟨h0, by simp, ?_⟩
    intro a ha hb
    simp only [List.map_cons, List.map_nil, List.mem_singleton] at hb
    simp only [List.mem_map] at ha
    obtain ⟨u, hu, rfl⟩ := ha
    have := lt_freshId hu
    simp only [newUserRow] at hb
    omega
  · intro u hu c hc
    simp only [List.mem_append, List.mem_singleton] at hu
    rcases hu with hu | rfl
    · obtain ⟨v, hv, hlt, hcode⟩ := h1 u hu c hc
      exact ⟨v, List.mem_append_left _ hv, hlt, hcode⟩
    · simp only [newUserRow] at hc
      split_ifs at hc with he
      simp only [Option.some.injEq] at hc
      subst hc
      rcases href with h | ⟨v, hv, hcode⟩
      · exact absurd h he
      · exact ⟨v, List.mem_append_left _ hv, lt_freshId hv, hcode⟩
  · intro u hu v hv c hcu hcv
    simp only [List.mem_append, List.mem_singleton] at hu hv
    rcases hu with hu | rfl
    · rcases hv with hv | rfl
      · exact h2 u hu v hv c hcu hcv
      · simp only [newUserRow, Option.some.injEq] at hcv
        subst hcv
        exact absurd hcu (hnew u hu)
    · rcases hv with hv | rfl
      · simp only [newUserRow, Option.some.injEq] at hcu
        subst hcu
        exact absurd hcv (hnew v hv)
      · rfl

theorem ordered_referrer_before {users : List User} (hinv : ReferralsOrdered users) :
    ∀ u ∈ users, ∀ v ∈ users, ∀ c,
      u.referred_by_code = some c → v.referral_code = some c → v.id < u.id := by
  intro u hu v hv c hrb hcode
  obtain ⟨v2, hv2, hlt, hcode2⟩ := hinv.2.1 u hu c hrb
  have : v2 = v := hinv.2.2 v2 hv2 v hv c hcode2 hcode
  subst this
  exact hlt

theorem ordered_chain_decreasing {users : List User} (hinv : ReferralsOrdered users) :
    ∀ (k : Nat) (code : Option String),
      (chainIds users k code).Pairwise (fun a b => b < a) ∧
      ∀ u ∈ users, u.referred_by_code = code → ∀ i ∈ chainIds users k code, i < u.id := by
  intro k
  induction k with
  | zero => intro code; simp [chainIds]
  | succ k ih =>
    intro code
    cases code with
    | none => simp [chainIds]
    | some c =>
      by_cases hc : c = ""
      · simp [chainIds, hc]
      · cases hd : (single users c).data with
        | none => simp [chainIds, hc, hd]
        | some v =>
          obtain ⟨hv, hvc⟩ := single_mem hd
          obtain ⟨ih1, ih2⟩ := ih v.referred_by_code
          simp only [chainIds, hc, if_false, hd, List.pairwise_cons, List.mem_cons]
          refine ⟨⟨fun i hi => ih2 v hv rfl i hi, ih1⟩, ?_⟩
          intro u hu hrb i hi
          have hlt : v.id < u.id := ordered_referrer_before hinv u hu v hv c hrb hvc
          rcases hi with rfl | hi
          · exact hlt
          · exact lt_trans (ih2 v hv rfl i hi) hlt

/-! ## The referral relation after registrations -/

/-- C23 as stated fails: the form of `bob`, who types his own code `BOB` as referral code, is
accepted on an empty table, and the stored row has `referred_by_code` equal to its own
`referral_code`; the commission walk for that code then credits user 1 at the three levels,
3200 in all. -/
theorem self_referral_is_accepted :
    (handleSubmit selfReferralForm "+237" emptyWorld).1 =
      some (newUserRow 1 selfReferralForm) ∧
    (newUserRow 1 selfReferralForm).referred_by_code =
      (newUserRow 1 selfReferralForm).referral_code ∧
    (processReferralCommissions (some "BOB") 1
      (handleSubmit selfReferralForm "+237" emptyWorld).2).store.referrals.map
      (fun r => (r.referrer_id, r.level)) = [(1, 1), (1, 2), (1, 3)] ∧
    (processReferralCommissions (some "BOB") 1
      (handleSubmit selfReferralForm "+237" emptyWorld).2).store.users.map
      (fun u => (u.id, u.balance)) = [(1, some 3200)] := by
  decide

/-- C23, amended: the empty table has its referrals pointing backwards, and a registration
through `handleSubmit` keeps that property, whatever the store calls do, provided the referral
code typed is empty or the code of a user already in the table and the code derived from the
username is not yet taken (`handleSubmit` checks neither).  On such a table every referrer has
a smaller id than the referred user, so the relation from `referred_by_code` to
`referral_code` has no cycle, no user refers to its own code, and the users the walk resolves
from any code are pairwise distinct. -/
theorem registration_keeps_referrals_ordered (w : World) (formData : RegistrationForm)
    (dial : String) (hinv : ReferralsOrdered w.store.users)
    (href : formData.referralCode = "" ∨
      ∃ v ∈ w.store.users, v.referral_code = some formData.referralCode)
    (hnew : ∀ v ∈ w.store.users,
      v.referral_code ≠ some (generateReferralCode formData.username)) :
    ReferralsOrdered [] ∧
    ReferralsOrdered (handleSubmit formData dial w).2.store.users ∧
    (∀ u ∈ (handleSubmit formData dial w).2.store.users,
      ∀ v ∈ (handleSubmit formData dial w).2.store.users, ∀ c,
        u.referred_by_code = some c → v.referral_code = some c → v.id < u.id) ∧
    (∀ u ∈ (handleSubmit formData dial w).2.store.users, ∀ c,
      u.referred_by_code = some c → u.referral_code ≠ some c) ∧
    ∀ (k : Nat) (code : Option String),
      (chainIds (handleSubmit formData dial w).2.store.users k code).Nodup := by
  have hord : ReferralsOrdered (handleSubmit formData dial w).2.store.users := by
    rcases handleSubmit_users formData dial w with h | h
    · rw [h]; exact hinv
    · rw [h]; exact ordered_append formData hinv href hnew
  refine ⟨ordered_nil, hord, ordered_referrer_before hord, ?_, ?_⟩
  · intro u hu c hrb hcode
    exact lt_irrefl _ (ordered_referrer_before hord u hu u hu c hrb hcode)
  · intro k code
    exact (ordered_chain_decreasing hord k code).1.imp (fun h => (ne_of_lt h).symm)

/-- Witness for C23 (amended): after `alice`, `carol` registers with the referral code
`ALICE`. -/
theorem registration_keeps_referrals_ordered_witness :
    ReferralsOrdered [] ∧
    ReferralsOrdered
      (handleSubmit carolForm "+237"
        (handleSubmit aliceForm "+237" emptyWorld).2).2.store.users ∧
    (∀ u ∈ (handleSubmit carolForm "+237"
        (handleSubmit aliceForm "+237" emptyWorld).2).2.store.users,
      ∀ v ∈ (handleSubmit carolForm "+237"
        (handleSubmit aliceForm "+237" emptyWorld).2).2.store.users, ∀ c,
        u.referred_by_code = some c → v.referral_code = some c → v.id < u.id) ∧
    (∀ u ∈ (handleSubmit carolForm "+237"
        (handleSubmit aliceForm "+237" emptyWorld).2).2.store.users, ∀ c,
      u.referred_by_code = some c → u.referral_code ≠ some c) ∧
    ∀ (k : Nat) (code : Option String),
      (chainIds (handleSubmit carolForm "+237"
        (handleSubmit aliceForm "+237" emptyWorld).2).2.store.users k code).Nodup :=
  registration_keeps_referrals_ordered (handleSubmit aliceForm "+237" emptyWorld).2 carolForm
    "+237"
    (registration_keeps_referrals_ordered emptyWorld aliceForm "+237" ordered_nil
      (Or.inl rfl) (fun v hv => by simp [emptyWorld] at hv)).2.1
    (Or.inr ⟨newUserRow 1 aliceForm, by decide, by decide⟩) (by decide)

/-! ## The balance write of each level -/

theorem walkTrace_write_issued (newUserId : Nat) : ∀ (k : Nat) (level : Int) (code : String)
    (tr : List Call), WalkTrace newUserId k level code tr →
      ∀ (j : Nat) (R : User), (lookupsOf tr)[j]? = some (some R) →
        ∃ f, (insertFatesOf tr)[j]? = some f ∧
          (f ≠ Fault.throws → (updatesOf tr)[j]? = some (writeFor (level + j) R)) ∧
          (f = Fault.throws → (updatesOf tr)[j]? = none) := by
  intro k
  induction k with
  | zero =>
    intro level code tr h
    simp only [WalkTrace] at h
    subst h
    simp [lookupsOf]
  | succ k ih =>
    intro level code tr h
    simp only [WalkTrace] at h
    rcases h with ⟨o, ho, rfl⟩ | ⟨R, rfl⟩ | ⟨R, f, hf, rfl⟩ | ⟨R, f, g, rest, hf, hg, rfl, hrest⟩
    · intro j R hj
      cases j with
      | zero => simp [lookupsOf, ho] at hj
      | succ j => simp [lookupsOf] at hj
    · intro j R2 hj
      cases j with
      | zero =>
        refine ⟨Fault.throws, by simp [insertFatesOf], by simp, by simp [updatesOf]⟩
      | succ j => simp [lookupsOf] at hj
    · intro j R2 hj
      cases j with
      | zero =>
        have : R = R2 := by simpa [lookupsOf, resolvedUser] using hj
        subst this
        exact ⟨f, by simp [insertFatesOf], by simp [updatesOf, writeFor],
          fun h => absurd h hf⟩
      | succ j => simp [lookupsOf] at hj
    · have hl : lookupsOf (Call.select code
          (Outcome.returned { data := some R, error := false }) ::
          Call.insert (rowFor level R newUserId) f ::
          Call.update R.id (orZero R.balance + calculateCommissions level 4000)
            (orZero R.withdrawable_balance + calculateCommissions level 4000) g :: rest) =
          some R :: lookupsOf rest := by
        simp [lookupsOf, resolvedUser]
      have hi : insertFatesOf (Call.select code
          (Outcome.returned { data := some R, error := false }) ::
          Call.insert (rowFor level R newUserId) f ::
          Call.update R.id (orZero R.balance + calculateCommissions level 4000)
            (orZero R.withdrawable_balance + calculateCommissions level 4000) g :: rest) =
          f :: insertFatesOf rest := by
        simp [insertFatesOf]
      have hu : updatesOf (Call.select code
          (Outcome.returned { data := some R, error := false }) ::
          Call.insert (rowFor level R newUserId) f ::
          Call.update R.id (orZero R.balance + calculateCommissions level 4000)
            (orZero R.withdrawable_balance + calculateCommissions level 4000) g :: rest) =
          writeFor level R :: updatesOf rest := by
        simp [updatesOf, writeFor]
      rw [hl, hi, hu]
      intro j R2 hj
      cases j with
      | zero =>
        have : R = R2 := by simpa using hj
        subst this
        exact ⟨f, by simp, by simp, fun h => absurd h hf⟩
      | succ j =>
        rw [cast_succ_level]
        rcases hrest with ⟨-, rfl⟩ | ⟨next, -, -, hw⟩
        · simp [lookupsOf] at hj
        · simpa using ih (level + 1) next rest hw j R2 (by simpa using hj)

/-- C10, amended: whatever calls fail, at each level `L` at which
`processReferralCommissions` resolves a user `R` it issues the insert of that level, and,
unless that insert throws, the balance write of that level: `balance` set to the balance read
plus `calculateCommissions(L)` and `withdrawable_balance` to the one read plus the same amount
(null read as 0); when the insert throws no write is issued at that level.  Every balance write
issued is the write of its level, so both columns grow by the same amount, and the tables
after the call are those obtained by applying the logged calls. -/
theorem level_write_adds_commission (w : World) (referrerCode : Option String)
    (newUserId : Nat) :
    (∀ (L : Nat) (R : User),
      resolvedAt (callsOf w (processReferralCommissions referrerCode newUserId w)) L = some R →
        ∃ f,
          (insertFatesOf
            (callsOf w (processReferralCommissions referrerCode newUserId w)))[L - 1]? =
              some f ∧
          (f ≠ Fault.throws →
            (updatesOf
              (callsOf w (processReferralCommissions referrerCode newUserId w)))[L - 1]? =
              some (R.id, orZero R.balance + calculateCommissions L 4000,
                orZero R.withdrawable_balance + calculateCommissions L 4000)) ∧
          (f = Fault.throws →
            (updatesOf
              (callsOf w (processReferralCommissions referrerCode newUserId w)))[L - 1]? =
              none)) ∧
    (∀ (j : Nat) (u : Nat × Int × Int),
      (updatesOf (callsOf w (processReferralCommissions referrerCode newUserId w)))[j]? =
          some u →
        ∃ R2, resolvedAt (callsOf w (processReferralCommissions referrerCode newUserId w))
            (j + 1) = some R2 ∧
          u = (R2.id, orZero R2.balance + calculateCommissions (j + 1 : Nat) 4000,
            orZero R2.withdrawable_balance + calculateCommissions (j + 1 : Nat) 4000) ∧
          u.2.1 - orZero R2.balance = u.2.2 - orZero R2.withdrawable_balance) ∧
    (processReferralCommissions referrerCode newUserId w).store =
      replay w.store (callsOf w (processReferralCommissions referrerCode newUserId w)) := by
  obtain ⟨tr, hrun, hshape⟩ := process_spec referrerCode newUserId w
  rw [hrun, callsOf_after]
  have hcast : ∀ j : Nat, (1 : Int) + (j : Int) = ((j + 1 : Nat) : Int) := by
    intro j; push_cast; ring
  refine ⟨?_, ?_, rfl⟩
  · intro L R hres
    cases L with
    | zero => simp [resolvedAt] at hres
    | succ j =>
      rw [resolvedAt_succ] at hres
      rcases hshape with rfl | ⟨code, -, -, hw⟩
      · simp [lookupsOf] at hres
      · obtain ⟨f, h1, h2, h3⟩ := walkTrace_write_issued newUserId 3 1 code tr hw j R hres
        rw [hcast] at h2
        exact ⟨f, by simpa using h1, fun hf => by simpa [writeFor] using h2 hf,
          fun hf => by simpa using h3 hf⟩
  · intro j u hj
    rcases hshape with rfl | ⟨code, -, -, hw⟩
    · simp [updatesOf] at hj
    · obtain ⟨R2, hR2, hu⟩ := (walkTrace_levels newUserId 3 1 code tr hw).2.1 j u hj
      rw [hcast] at hu
      refine ⟨R2, resolvedAt_succ.mpr hR2, ?_, ?_⟩
      · simpa [writeFor] using hu
      · rw [hu]
        simp [writeFor]

/-- Witness for C10 (amended) on the sample store: at level 2 the walk resolves `B`, whose
balances are null; the level-2 insert succeeds and 900 is written to both columns. -/
theorem level_write_adds_commission_witness :
    (insertFatesOf (callsOf sampleWorld
        (processReferralCommissions (some "A") 9 sampleWorld)))[2 - 1]? = some Fault.ok ∧
    (updatesOf (callsOf sampleWorld
        (processReferralCommissions (some "A") 9 sampleWorld)))[2 - 1]? =
      some (userB.id, orZero userB.balance + calculateCommissions (2 : Nat) 4000,
        orZero userB.withdrawable_balance + calculateCommissions (2 : Nat) 4000) := by
  obtain ⟨f, h1, h2, -⟩ :=
    (level_write_adds_commission sampleWorld (some "A") 9).1 2 userB (by decide)
  have hf : (insertFatesOf (callsOf sampleWorld
      (processReferralCommissions (some "A") 9 sampleWorld)))[2 - 1]? = some Fault.ok := by
    decide
  have e : f = Fault.ok := by
    rw [hf] at h1
    exact (Option.some.inj h1).symm
  subst e
  exact ⟨hf, h2 (by decide)⟩

/-- C10 as stated fails: on the sample store, when the level-1 insert (call number 1) throws,
the walk has resolved `A` at level 1 and stops in its `catch`: no balance write is issued and
the `users` table is unchanged. -/
theorem resolved_referrer_not_written_when_insert_throws :
    resolvedAt (callsOf (throwAt 1) (processReferralCommissions (some "A") 9 (throwAt 1))) 1 =
      some userA ∧
    updatesOf (callsOf (throwAt 1) (processReferralCommissions (some "A") 9 (throwAt 1))) =
      [] ∧
    (updatesOf (callsOf (throwAt 1)
      (processReferralCommissions (some "A") 9 (throwAt 1))))[1 - 1]? ≠
      some (userA.id, orZero userA.balance + calculateCommissions (1 : Nat) 4000,
        orZero userA.withdrawable_balance + calculateCommissions (1 : Nat) 4000) ∧
    (processReferralCommissions (some "A") 9 (throwAt 1)).store.users =
      (throwAt 1).store.users := by
  decide

/-! ## A failed level-2 lookup after a failed level-1 write -/

/-- C7: on the sample store, when the level-1 insert (call number 1) and the level-2 lookup
(call number 3) resolve to `{ error }`, the walk resolves `A`, who has a `referred_by_code`,
fails to resolve level 2, and has appended no row at all to `referrals`, where the claim has
exactly the level-1 row, while `A` holds the 1800 credit.  When the level-1 update (call
number 2) and the level-2 lookup resolve to `{ error }`, the level-1 row is appended and `A` has
no credit: the `users` table is unchanged. -/
theorem failed_level_two_after_failed_level_one_write :
    (lookupsOf (callsOf (errorAtTwo 1 3)
        (processReferralCommissions (some "A") 9 (errorAtTwo 1 3))) = [some userA, none] ∧
      userA.referred_by_code = some "B" ∧
      (processReferralCommissions (some "A") 9 (errorAtTwo 1 3)).store.referrals = [] ∧
      insertedOf (callsOf (errorAtTwo 1 3)
        (processReferralCommissions (some "A") 9 (errorAtTwo 1 3))) = [] ∧
      (processReferralCommissions (some "A") 9 (errorAtTwo 1 3)).store.users =
        [credit userA 1800, userB, userC, userD]) ∧
    (lookupsOf (callsOf (errorAtTwo 2 3)
        (processReferralCommissions (some "A") 9 (errorAtTwo 2 3))) = [some userA, none] ∧
      (processReferralCommissions (some "A") 9 (errorAtTwo 2 3)).store.referrals =
        [{ referrer_id := 1, referred_id := 9, level := 1, commission := 1800, paid := true }] ∧
      (processReferralCommissions (some "A") 9 (errorAtTwo 2 3)).store.users =
        [userA, userB, userC, userD] ∧
      credit userA 1800 ∉ (processReferralCommissions (some "A") 9 (errorAtTwo 2 3)).store.users)
    := by
  decide

/-! ## The rows written by the video pages and the withdrawal form -/

theorem consume_store (w : World) : w.consume.store = w.store := rfl

theorem applyUpdates_id (p : UserUpdates) (u : User) : (applyUpdates p u).id = u.id := rfl

theorem updateUserRow_users (id : Nat) (p : UserUpdates) (w : World) :
    (updateUserRow id p w).2.store.users = w.store.users ∨
    ∃ u, w.store.users.filter (fun v => v.id = id) = [u] ∧
      (updateUserRow id p w).2.store.users =
        w.store.users.map (fun v => if v.id = id then applyUpdates p v else v) := by
  unfold updateUserRow
  cases w.nextFault with
  | throws => left; rfl
  | error => left; rfl
  | ok =>
    simp only
    split
    · next u hu => exact Or.inr ⟨u, hu, rfl⟩
    · left; rfl

theorem updateUserRow_ids (id : Nat) (p : UserUpdates) (w : World) :
    (updateUserRow id p w).2.store.users.map (fun u => u.id) =
      w.store.users.map (fun u => u.id) := by
  rcases updateUserRow_users id p w with h | ⟨u, -, h⟩
  · rw [h]
  · rw [h, List.map_map]
    apply List.map_congr_left
    intro v _
    simp only [Function.comp]
    split <;> rfl

theorem updateUserRow_rows_any (id : Nat) (p : UserUpdates) (w : World) :
    ∀ v ∈ (updateUserRow id p w).2.store.users,
      v ∈ w.store.users ∨ ∃ u ∈ w.store.users, v = applyUpdates p u := by
  intro v hv
  rcases updateUserRow_users id p w with h | ⟨u, -, h⟩
  · left
    rwa [h] at hv
  · rw [h, List.mem_map] at hv
    obtain ⟨v0, hv0, rfl⟩ := hv
    split
    · exact Or.inr ⟨v0, hv0, rfl⟩
    · exact Or.inl hv0

theorem updateUserRow_rows (user : User) (p : UserUpdates) (w : World)
    (hu : user ∈ w.store.users) :
    ∀ v ∈ (updateUserRow user.id p w).2.store.users,
      v ∈ w.store.users ∨ v = applyUpdates p user := by
  intro v hv
  rcases updateUserRow_users user.id p w with h | ⟨u, hf, h⟩
  · left
    rwa [h] at hv
  · rw [h, List.mem_map] at hv
    obtain ⟨v0, hv0, rfl⟩ := hv
    have huser : user = u := by
      have : user ∈ w.store.users.filter (fun v => v.id = user.id) := by
        simp [List.mem_filter, hu]
      rw [hf] at this
      simpa using this
    split
    · next hid =>
      right
      have : v0 ∈ w.store.users.filter (fun v => v.id = user.id) := by
        simp [List.mem_filter, hv0, hid]
      rw [hf] at this
      have : v0 = u := by simpa using this
      rw [this, huser]
    · exact Or.inl hv0

theorem checked_world (m : StoreM SelectResult) (w : World) :
    ((m >>= fun r => if r.error = true then StoreM.throw else pure r.data) w).2 = (m w).2 := by
  rw [bind_run]
  rcases h : m w with ⟨o, w1⟩
  cases o with
  | returned r =>
    simp only
    split <;> rfl
  | threw => rfl

theorem youtube_handle_world (user : User) (videoId : String) (amount : Int) (w : World) :
    (YoutubeVideosPage.handleVideoWatched user videoId amount w).2 =
      (updateUserRow user.id (YoutubeVideosPage.videoWatchedUpdates user amount) w).2 :=
  checked_world _ w

theorem tiktok_handle_world (user : User) (videoId : String) (amount : Int) (w : World) :
    (TikTokVideosPage.handleVideoWatched user videoId amount w).2 =
      (updateUserRow user.id (TikTokVideosPage.videoWatchedUpdates user amount) w).2 :=
  checked_world _ w

theorem validateWithdrawal_pos {data : WithdrawalData} {minWithdrawal availableBalance : Int}
    {amount : Int} (ha : data.amount = some amount)
    (h : Withdrawal.validateWithdrawal data minWithdrawal availableBalance = true) :
    0 < amount := by
  unfold Withdrawal.validateWithdrawal at h
  rw [ha] at h
  simp only at h
  split_ifs at h
  omega

theorem handleWithdrawal_store (user : User) (balanceType : String)
    (availableBalance minWithdrawal : Int) (data : WithdrawalData) (w : World) :
    (Withdrawal.handleWithdrawal user balanceType availableBalance minWithdrawal data w).2.store =
      w.store ∨
    ∃ amount, data.amount = some amount ∧ 0 < amount ∧
      (Withdrawal.handleWithdrawal user balanceType availableBalance minWithdrawal
        data w).2.store =
        (updateUserRow user.id (Withdrawal.balanceUpdates user balanceType amount)
          w.consume).2.store := by
  unfold Withdrawal.handleWithdrawal
  split_ifs with hv
  · cases ha : data.amount with
    | none => left; rfl
    | some amount =>
      simp only
      have hpos := validateWithdrawal_pos ha hv
      have hbody : (Withdrawal.handleWithdrawalBody user balanceType data amount w).2.store =
            w.store ∨
          (Withdrawal.handleWithdrawalBody user balanceType data amount w).2.store =
            (updateUserRow user.id (Withdrawal.balanceUpdates user balanceType amount)
              w.consume).2.store := by
        simp only [Withdrawal.handleWithdrawalBody, bind_run, insertWithdrawal]
        cases w.nextFault with
        | throws => left; rfl
        | error => left; rfl
        | ok =>
          right
          simp only [Bool.false_eq_true, if_false]
          rw [checked_world
            (updateUserRow user.id (Withdrawal.balanceUpdates user balanceType amount))
            w.consume]
      rcases hr : Withdrawal.handleWithdrawalBody user balanceType data amount w with ⟨o, w1⟩
      rw [hr] at hbody
      rcases hbody with h | h
      · left
        cases o <;> exact h
      · right
        refine ⟨amount, rfl, hpos, ?_⟩
        cases o <;> exact h
  · left; rfl

/-! ## `withdrawable_balance <= balance` on the stored rows -/

theorem video_row_le (user u : User) (amount : Int) (hu : WithdrawableLeBalance user)
    (hamount : 0 ≤ amount) :
    WithdrawableLeBalance (applyUpdates (YoutubeVideosPage.videoWatchedUpdates user amount) u) ∧
    WithdrawableLeBalance (applyUpdates (TikTokVideosPage.videoWatchedUpdates user amount) u) := by
  constructor
  · simp only [WithdrawableLeBalance, applyUpdates, written,
      YoutubeVideosPage.videoWatchedUpdates, orZero_some] at hu ⊢
    split_ifs <;> omega
  · simp only [WithdrawableLeBalance, applyUpdates, written,
      TikTokVideosPage.videoWatchedUpdates, orZero_some] at hu ⊢
    split_ifs <;> omega

theorem withdrawal_row_le (u : User) (balanceType : String) (a : Int)
    (hu : WithdrawableLeBalance u) (ha : 0 < a) :
    WithdrawableLeBalance (applyUpdates (Withdrawal.balanceUpdates u balanceType a) u) := by
  simp only [WithdrawableLeBalance] at hu ⊢
  by_cases h1 : balanceType = "main"
  · subst h1
    simp only [applyUpdates, written, Withdrawal.balanceUpdates, if_true, orZero_some]
    omega
  · by_cases h2 : balanceType = "youtube"
    · subst h2
      simpa [applyUpdates, written, Withdrawal.balanceUpdates] using hu
    · by_cases h3 : balanceType = "tiktok"
      · subst h3
        simpa [applyUpdates, written, Withdrawal.balanceUpdates] using hu
      · simpa [applyUpdates, written, Withdrawal.balanceUpdates, h1, h2, h3] using hu

/-- C21 as stated fails on the stored row when the record a page holds is not the stored row.
The row of a user holds 4900 in `balance` and `withdrawable_balance`.  A page that still holds
the record read before those commissions credits a video: the update overwrites `balance` with
50 and `withdrawable_balance` with 0, and the row still satisfies the predicate.  The withdrawal
form, holding the record with 4900, then validates a withdrawal of 2500 from the main balance
and writes `withdrawable_balance = 2400` on a row whose `balance` is 50. -/
theorem stale_withdrawal_breaks_withdrawable_le_balance :
    (∀ v ∈ richWorld.store.users, WithdrawableLeBalance v) ∧
    WithdrawableLeBalance earlierRecord ∧
    (∀ v ∈ (YoutubeVideosPage.handleVideoWatched earlierRecord "v1" 50 richWorld).2.store.users,
      WithdrawableLeBalance v) ∧
    Withdrawal.validateWithdrawal mainWithdrawal Withdrawal.minMainWithdrawal
      (Withdrawal.availableBalance richRow "main") = true ∧
    ((Withdrawal.handleWithdrawal richRow "main" (Withdrawal.availableBalance richRow "main")
        Withdrawal.minMainWithdrawal mainWithdrawal
        (YoutubeVideosPage.handleVideoWatched earlierRecord "v1" 50 richWorld).2).2.store.users.map
      (fun v => (v.balance, v.withdrawable_balance))) = [(some 50, some 2400)] ∧
    ¬ ∀ v ∈ (Withdrawal.handleWithdrawal richRow "main"
        (Withdrawal.availableBalance richRow "main") Withdrawal.minMainWithdrawal mainWithdrawal
        (YoutubeVideosPage.handleVideoWatched earlierRecord "v1" 50 richWorld).2).2.store.users,
      WithdrawableLeBalance v := by
  unfold WithdrawableLeBalance
  decide

/-- C21, amended: on the rows of `users`, `withdrawable_balance <= balance` (null read as 0)
is preserved by a call of `processReferralCommissions`, whatever calls fail; by
`handleVideoWatched` (YouTube or TikTok) with a non-negative amount, whatever the call does,
when the record the page holds satisfies the predicate; and by `handleWithdrawal` on any
balance type, whatever the calls do, when the record the form holds is the stored row. -/
theorem withdrawable_le_balance_preserved (w : World)
    (hw : ∀ v ∈ w.store.users, WithdrawableLeBalance v) :
    (∀ (referrerCode : Option String) (newUserId : Nat),
      ∀ v ∈ (processReferralCommissions referrerCode newUserId w).store.users,
        WithdrawableLeBalance v) ∧
    (∀ (user : User) (videoId : String) (amount : Int),
      WithdrawableLeBalance user → 0 ≤ amount →
      ∀ v ∈ (YoutubeVideosPage.handleVideoWatched user videoId amount w).2.store.users,
        WithdrawableLeBalance v) ∧
    (∀ (user : User) (videoId : String) (amount : Int),
      WithdrawableLeBalance user → 0 ≤ amount →
      ∀ v ∈ (TikTokVideosPage.handleVideoWatched user videoId amount w).2.store.users,
        WithdrawableLeBalance v) ∧
    (∀ (user : User) (balanceType : String) (availableBalance minWithdrawal : Int)
      (withdrawalData : WithdrawalData),
      user ∈ w.store.users →
      ∀ v ∈ (Withdrawal.handleWithdrawal user balanceType availableBalance minWithdrawal
          withdrawalData w).2.store.users,
        WithdrawableLeBalance v) := by
  refine ⟨?_, ?_, ?_, ?_⟩
  · intro referrerCode newUserId
    refine process_invariant (fun users => ∀ v ∈ users, WithdrawableLeBalance v) ?_
      referrerCode newUserId w hw
    intro users R c hinv hR _ v hv
    simp only [setBalances, List.mem_map] at hv
    obtain ⟨v0, hv0, rfl⟩ := hv
    exact withBalances_le R v0 c (hinv R hR) (hinv v0 hv0)
  · intro user videoId amount hu hamount v hv
    rw [youtube_handle_world] at hv
    rcases updateUserRow_rows_any _ _ w v hv with h | ⟨u, -, rfl⟩
    · exact hw v h
    · exact (video_row_le user u amount hu hamount).1
  · intro user videoId amount hu hamount v hv
    rw [tiktok_handle_world] at hv
    rcases updateUserRow_rows_any _ _ w v hv with h | ⟨u, -, rfl⟩
    · exact hw v h
    · exact (video_row_le user u amount hu hamount).2
  · intro user balanceType availableBalance minWithdrawal withdrawalData hu v hv
    rcases handleWithdrawal_store user balanceType availableBalance minWithdrawal
      withdrawalData w with h | ⟨amount, -, hpos, h⟩
    · rw [h] at hv
      exact hw v hv
    · rw [h] at hv
      rcases updateUserRow_rows user _ w.consume hu v hv with h2 | rfl
      · exact hw v h2
      · exact withdrawal_row_le user balanceType amount (hw user hu) hpos

/-- Witness for C21 (amended) on the store holding `richRow`: after a validated withdrawal of
2500 from the main balance by the form that holds the stored row, the row has
`withdrawable_balance` 2400 and `balance` 4900. -/
theorem withdrawable_le_balance_preserved_witness :
    ((Withdrawal.handleWithdrawal richRow "main" (Withdrawal.availableBalance richRow "main")
        Withdrawal.minMainWithdrawal mainWithdrawal richWorld).2.store.users.map
      (fun v => (v.balance, v.withdrawable_balance))) = [(some 4900, some 2400)] ∧
    ∀ v ∈ (Withdrawal.handleWithdrawal richRow "main"
        (Withdrawal.availableBalance richRow "main") Withdrawal.minMainWithdrawal mainWithdrawal
        richWorld).2.store.users,
      WithdrawableLeBalance v :=
  ⟨by decide,
    (withdrawable_le_balance_preserved richWorld
      (by unfold WithdrawableLeBalance; decide)).2.2.2 richRow "main"
      (Withdrawal.availableBalance richRow "main") Withdrawal.minMainWithdrawal mainWithdrawal
      (by decide)⟩

/-! ## What can be claimed against `balance`, on the stored rows -/

theorem claimable_credit (k : Int) (u : User) (c : Int) (hk : 1 ≤ k) (hc : 0 ≤ c)
    (h : claimable u ≤ k * orZero u.balance) :
    claimable (credit u c) ≤ k * orZero (credit u c).balance := by
  simp only [claimable, credit, orZero_some] at h ⊢
  nlinarith [mul_nonneg (sub_nonneg.mpr hk) hc]

theorem claimable_withdrawal (k : Int) (u : User) (balanceType : String) (a : Int)
    (hbt : balanceType = "main" ∨ balanceType = "youtube" ∨ balanceType = "tiktok")
    (h : claimable u ≤ k * orZero u.balance) :
    claimable (applyUpdates (Withdrawal.balanceUpdates u balanceType a) u) ≤
      k * orZero (applyUpdates (Withdrawal.balanceUpdates u balanceType a) u).balance := by
  have hb : (applyUpdates (Withdrawal.balanceUpdates u balanceType a) u).balance = u.balance := by
    rcases hbt with rfl | rfl | rfl <;>
      simp [applyUpdates, written, Withdrawal.balanceUpdates]
  have hc : claimable (applyUpdates (Withdrawal.balanceUpdates u balanceType a) u) =
      claimable u := by
    rcases hbt with rfl | rfl | rfl <;>
      simp [claimable, applyUpdates, written, Withdrawal.balanceUpdates, orZero_some] <;>
      omega
  rw [hb, hc]
  exact h

theorem claimable_video_twice (u : User) (amount : Int) (hamount : 0 ≤ amount)
    (h : claimable u ≤ 2 * orZero u.balance) :
    claimable (applyUpdates (YoutubeVideosPage.videoWatchedUpdates u amount) u) ≤
      2 * orZero (applyUpdates (YoutubeVideosPage.videoWatchedUpdates u amount) u).balance ∧
    claimable (applyUpdates (TikTokVideosPage.videoWatchedUpdates u amount) u) ≤
      2 * orZero (applyUpdates (TikTokVideosPage.videoWatchedUpdates u amount) u).balance := by
  constructor
  · simp only [claimable, applyUpdates, written, YoutubeVideosPage.videoWatchedUpdates,
      orZero_some] at h ⊢
    split_ifs <;> omega
  · simp only [claimable, applyUpdates, written, TikTokVideosPage.videoWatchedUpdates,
      orZero_some] at h ⊢
    split_ifs <;> omega

theorem claimable_video_once (u : User) (amount : Int)
    (h : claimable u ≤ 1 * orZero u.balance) :
    (orZero u.youtube_balance + amount < 500 →
      claimable (applyUpdates (YoutubeVideosPage.videoWatchedUpdates u amount) u) ≤
        1 * orZero (applyUpdates (YoutubeVideosPage.videoWatchedUpdates u amount) u).balance) ∧
    (orZero u.tiktok_balance + amount < 500 →
      claimable (applyUpdates (TikTokVideosPage.videoWatchedUpdates u amount) u) ≤
        1 * orZero (applyUpdates (TikTokVideosPage.videoWatchedUpdates u amount) u).balance) := by
  constructor
  · intro hlt
    simp only [claimable, applyUpdates, written, YoutubeVideosPage.videoWatchedUpdates,
      orZero_some] at h ⊢
    split_ifs <;> omega
  · intro hlt
    simp only [claimable, applyUpdates, written, TikTokVideosPage.videoWatchedUpdates,
      orZero_some] at h ⊢
    split_ifs <;> omega

theorem claimableWithin_update (k : Int) (user : User) (p : UserUpdates) (w : World)
    (hw : ClaimableWithin k w.store.users) (hu : user ∈ w.store.users)
    (hrow : claimable user ≤ k * orZero user.balance →
      claimable (applyUpdates p user) ≤ k * orZero (applyUpdates p user).balance) :
    ClaimableWithin k (updateUserRow user.id p w).2.store.users := by
  refine ⟨by rw [updateUserRow_ids]; exact hw.1, ?_⟩
  intro v hv
  rcases updateUserRow_rows user p w hu v hv with h | rfl
  · exact hw.2 v h
  · exact hrow (hw.2 user hu)

theorem claimableWithin_walk (k : Int) (hk : 1 ≤ k) (w : World)
    (hw : ClaimableWithin k w.store.users) (referrerCode : Option String) (newUserId : Nat) :
    ClaimableWithin k (processReferralCommissions referrerCode newUserId w).store.users := by
  refine process_invariant (ClaimableWithin k) ?_ referrerCode newUserId w hw
  intro users R c hinv hR hc
  rw [setBalances_eq_map_creditId hinv.1 hR c]
  refine ⟨by rw [map_creditId_ids]; exact hinv.1, ?_⟩
  intro v hv
  rw [List.mem_map] at hv
  obtain ⟨v0, hv0, rfl⟩ := hv
  unfold creditId
  split
  · exact claimable_credit k v0 c hk hc (hinv.2 v0 hv0)
  · exact hinv.2 v0 hv0

theorem claimableWithin_register (k : Int) (w : World) (hw : ClaimableWithin k w.store.users)
    (formData : RegistrationForm) (dial : String) :
    ClaimableWithin k (handleSubmit formData dial w).2.store.users := by
  rcases handleSubmit_users formData dial w with h | h
  · rw [h]
    exact hw
  · rw [h]
    constructor
    · rw [List.map_append, List.nodup_append]
      refine ⟨hw.1, by simp, ?_⟩
      intro a ha hb
      simp only [List.map_cons, List.map_nil, List.mem_singleton] at hb
      rw [List.mem_map] at ha
      obtain ⟨u, hu, rfl⟩ := ha
      have := lt_freshId hu
      simp only [newUserRow] at hb
      omega
    · intro v hv
      rw [List.mem_append] at hv
      rcases hv with hv | hv
      · exact hw.2 v hv
      · simp only [List.mem_singleton] at hv
        subst hv
        simp [claimable, newUserRow, orZero_some]

theorem claimableWithin_withdrawal (k : Int) (w : World)
    (hw : ClaimableWithin k w.store.users) (user : User) (balanceType : String)
    (availableBalance minWithdrawal : Int) (withdrawalData : WithdrawalData)
    (hu : user ∈ w.store.users)
    (hbt : balanceType = "main" ∨ balanceType = "youtube" ∨ balanceType = "tiktok") :
    ClaimableWithin k (Withdrawal.handleWithdrawal user balanceType availableBalance
      minWithdrawal withdrawalData w).2.store.users := by
  rcases handleWithdrawal_store user balanceType availableBalance minWithdrawal
    withdrawalData w with h | ⟨amount, -, -, h⟩
  · rw [h]
    exact hw
  · rw [h]
    exact claimableWithin_update k user _ w.consume hw hu
      (claimable_withdrawal k user balanceType amount hbt)

/-- C27, amended: on a `users` table with unique ids, `withdrawable_balance +
youtube_balance + tiktok_balance + total_withdrawals <= 2 * balance` on every row is an
invariant of the store as long as the video pages and the withdrawal form hold the stored row
of the user: it holds on the empty table and, whatever the calls do, it is preserved by a
registration (`handleSubmit`), by a call of `processReferralCommissions`, by
`handleVideoWatched` (YouTube or TikTok) with a non-negative amount and by `handleWithdrawal`
on the balance types main, youtube and tiktok.  The bound `<= balance` is preserved by
registrations, by `processReferralCommissions`, by these withdrawals, and by the video credits
that leave the channel balance below 500. -/
theorem claimable_le_twice_balance :
    ClaimableWithin 2 emptyWorld.store.users ∧
    (∀ w : World, ClaimableWithin 2 w.store.users →
      (∀ (formData : RegistrationForm) (dial : String),
        ClaimableWithin 2 (handleSubmit formData dial w).2.store.users) ∧
      (∀ (referrerCode : Option String) (newUserId : Nat),
        ClaimableWithin 2 (processReferralCommissions referrerCode newUserId w).store.users) ∧
      (∀ (user : User) (videoId : String) (amount : Int),
        user ∈ w.store.users → 0 ≤ amount →
        ClaimableWithin 2
          (YoutubeVideosPage.handleVideoWatched user videoId amount w).2.store.users ∧
        ClaimableWithin 2
          (TikTokVideosPage.handleVideoWatched user videoId amount w).2.store.users) ∧
      (∀ (user : User) (balanceType : String) (availableBalance minWithdrawal : Int)
        (withdrawalData : WithdrawalData),
        user ∈ w.store.users →
        (balanceType = "main" ∨ balanceType = "youtube" ∨ balanceType = "tiktok") →
        ClaimableWithin 2 (Withdrawal.handleWithdrawal user balanceType availableBalance
          minWithdrawal withdrawalData w).2.store.users)) ∧
    (∀ w : World, ClaimableWithin 1 w.store.users →
      (∀ (formData : RegistrationForm) (dial : String),
        ClaimableWithin 1 (handleSubmit formData dial w).2.store.users) ∧
      (∀ (referrerCode : Option String) (newUserId : Nat),
        ClaimableWithin 1 (processReferralCommissions referrerCode newUserId w).store.users) ∧
      (∀ (user : User) (videoId : String) (amount : Int),
        user ∈ w.store.users →
        (orZero user.youtube_balance + amount < 500 →
          ClaimableWithin 1
            (YoutubeVideosPage.handleVideoWatched user videoId amount w).2.store.users) ∧
        (orZero user.tiktok_balance + amount < 500 →
          ClaimableWithin 1
            (TikTokVideosPage.handleVideoWatched user videoId amount w).2.store.users)) ∧
      (∀ (user : User) (balanceType : String) (availableBalance minWithdrawal : Int)
        (withdrawalData : WithdrawalData),
        user ∈ w.store.users →
        (balanceType = "main" ∨ balanceType = "youtube" ∨ balanceType = "tiktok") →
        ClaimableWithin 1 (Withdrawal.handleWithdrawal user balanceType availableBalance
          minWithdrawal withdrawalData w).2.store.users)) := by
  refine ⟨⟨by simp [emptyWorld], by simp [emptyWorld]⟩, ?_, ?_⟩
  · intro w hw
    refine ⟨claimableWithin_register 2 w hw, claimableWithin_walk 2 (by norm_num) w hw, ?_,
      fun user balanceType availableBalance minWithdrawal withdrawalData hu hbt =>
        claimableWithin_withdrawal 2 w hw user balanceType availableBalance minWithdrawal
          withdrawalData hu hbt⟩
    intro user videoId amount hu hamount
    constructor
    · rw [youtube_handle_world]
      exact claimableWithin_update 2 user _ w hw hu
        (fun h => (claimable_video_twice user amount hamount h).1)
    · rw [tiktok_handle_world]
      exact claimableWithin_update 2 user _ w hw hu
        (fun h => (claimable_video_twice user amount hamount h).2)
  · intro w hw
    refine ⟨claimableWithin_register 1 w hw, claimableWithin_walk 1 (le_refl 1) w hw, ?_,
      fun user balanceType availableBalance minWithdrawal withdrawalData hu hbt =>
        claimableWithin_withdrawal 1 w hw user balanceType availableBalance minWithdrawal
          withdrawalData hu hbt⟩
    intro user videoId amount hu
    constructor
    · intro hlt
      rw [youtube_handle_world]
      exact claimableWithin_update 1 user _ w hw hu
        (fun h => (claimable_video_once user amount h).1 hlt)
    · intro hlt
      rw [tiktok_handle_world]
      exact claimableWithin_update 1 user _ w hw hu
        (fun h => (claimable_video_once user amount h).2 hlt)

/-- Witness for C27 (amended) on the store holding `richRow`: the bound by twice `balance`
holds there, and still holds after a YouTube credit of 50 computed from the stored row and
after a withdrawal of 2500 from the main balance by the form that holds the stored row. -/
theorem claimable_le_twice_balance_witness :
    ClaimableWithin 2 richWorld.store.users ∧
    ClaimableWithin 2
      (YoutubeVideosPage.handleVideoWatched richRow "v1" 50 richWorld).2.store.users ∧
    ClaimableWithin 2
      (Withdrawal.handleWithdrawal richRow "main" (Withdrawal.availableBalance richRow "main")
        Withdrawal.minMainWithdrawal mainWithdrawal richWorld).2.store.users :=
  have h0 : ClaimableWithin 2 richWorld.store.users := by
    unfold ClaimableWithin
    decide
  ⟨h0,
    ((claimable_le_twice_balance.2.1 richWorld h0).2.2.1 richRow "v1" 50 (by decide)
      (by decide)).1,
    (claimable_le_twice_balance.2.1 richWorld h0).2.2.2 richRow "main"
      (Withdrawal.availableBalance richRow "main") Withdrawal.minMainWithdrawal mainWithdrawal
      (by decide) (Or.inl rfl)⟩

end Qashgo
